import Mathlib

/-!
# Verification of the LCFRS inducer (`src/inducer.py`)

A shallow embedding of the grammar-induction program.  Python strings are
modelled as `List Char`, Python integers appearing as terminal positions as
`Nat`, Python `str.replace` / `in` / `list.sort` by executable Lean
counterparts, and the mutable object heap of `Node` objects by a list of
records indexed by arena position.
-/

set_option maxHeartbeats 1000000
set_option linter.unusedSectionVars false

namespace LCFRS

/-- Python strings, modelled as lists of characters. -/
abbrev PyStr := List Char

/-- Shorthand for turning a Lean string literal into a `PyStr`. -/
def str (s : String) : PyStr := s.toList

variable {α : Type} [DecidableEq α]

/-- `isPref p s` holds when `p` is a leading segment of `s`
(Boolean version, used by the substring test and by `strReplace`). -/
def isPref : List α → List α → Bool
  | [], _ => true
  | _ :: _, [] => false
  | a :: p, b :: s => a = b && isPref p s

/-- Python's substring test `n in h` (also used generically on token lists). -/
def strIn (n : List α) : List α → Bool
  | [] => isPref n []
  | c :: t => isPref n (c :: t) || strIn n t

/-- Python's `s.replace(old, new)` for a non-empty `old`: replace every
occurrence, scanning left to right, without overlap.  (The program only ever
calls `replace` with a non-empty `old`; for `old = []` this returns `s`
unchanged.) -/
def strReplace (old new : List Char) : List Char → List Char
  | [] => []
  | c :: rest =>
    if old ≠ [] ∧ isPref old (c :: rest) = true then
      new ++ strReplace old new ((c :: rest).drop old.length)
    else
      c :: strReplace old new rest
termination_by s => s.length
decreasing_by
  · rename_i hcond
    have hlen : 1 ≤ old.length := by
      cases old with
      | nil => exact absurd rfl hcond.1
      | cons _ _ => simp
    simp only [List.length_drop, List.length_cons]
    omega
  · simp

theorem isPref_iff (p s : List α) : isPref p s = true ↔ ∃ t, p ++ t = s := by
  induction p generalizing s with
  | nil => simp [isPref]
  | cons a p ih =>
    cases s with
    | nil => simp [isPref]
    | cons b s =>
      simp only [isPref, Bool.and_eq_true, decide_eq_true_eq, ih, List.cons_append,
        List.cons.injEq]
      constructor
      · rintro ⟨rfl, t, rfl⟩; exact ⟨t, rfl, rfl⟩
      · rintro ⟨t, rfl, rfl⟩; exact ⟨rfl, t, rfl⟩

theorem strIn_iff (n h : List α) : strIn n h = true ↔ ∃ u v, u ++ n ++ v = h := by
  induction h with
  | nil =>
    simp only [strIn, isPref_iff]
    constructor
    · rintro ⟨t, ht⟩
      exact ⟨[], t, by simpa using ht⟩
    · rintro ⟨u, v, huv⟩
      have hu : u = [] := by
        cases u with
        | nil => rfl
        | cons a u => simp at huv
      subst hu
      exact ⟨v, by simpa using huv⟩
  | cons c t ih =>
    simp only [strIn, Bool.or_eq_true, isPref_iff, ih]
    constructor
    · rintro (⟨w, hw⟩ | ⟨u, v, huv⟩)
      · exact ⟨[], w, by simpa using hw⟩
      · exact ⟨c :: u, v, by simp [← huv]⟩
    · rintro ⟨u, v, huv⟩
      cases u with
      | nil => exact Or.inl ⟨v, by simpa using huv⟩
      | cons a u =>
        simp only [List.cons_append, List.cons.injEq] at huv
        exact Or.inr ⟨u, v, huv.2⟩

theorem strIn_eq_false_iff (n h : List α) :
    strIn n h = false ↔ ∀ u v, u ++ n ++ v ≠ h := by
  rw [← Bool.not_eq_true, strIn_iff]
  push_neg
  rfl

/-! ## Decimal numerals

`decRepr n` models Python's `str(n)` for a non-negative integer `n`:
the usual decimal numeral without leading zeros. -/

/-- Python's `str(n)` for `n : Nat`. -/
def decRepr (n : Nat) : List Char :=
  if n < 10 then [Nat.digitChar n]
  else decRepr (n / 10) ++ [Nat.digitChar (n % 10)]
termination_by n
decreasing_by
  exact Nat.div_lt_self (by omega) (by omega)

theorem decRepr_lt (n : Nat) (h : n < 10) : decRepr n = [Nat.digitChar n] := by
  rw [decRepr, if_pos h]

theorem decRepr_ge (n : Nat) (h : ¬ n < 10) :
    decRepr n = decRepr (n / 10) ++ [Nat.digitChar (n % 10)] := by
  rw [decRepr, if_neg h]

theorem decRepr_ne_nil (n : Nat) : decRepr n ≠ [] := by
  by_cases h : n < 10
  · simp [decRepr_lt n h]
  · simp [decRepr_ge n h]

theorem digitChar_isDigit {m : Nat} (h : m < 10) : (Nat.digitChar m).isDigit = true := by
  interval_cases m <;> decide

theorem digitChar_injOn_fin :
    ∀ a b : Fin 10, Nat.digitChar a.val = Nat.digitChar b.val → a = b := by decide

theorem digitChar_injOn {a b : Nat} (ha : a < 10) (hb : b < 10)
    (h : Nat.digitChar a = Nat.digitChar b) : a = b := by
  have := digitChar_injOn_fin ⟨a, ha⟩ ⟨b, hb⟩ h
  simpa [Fin.ext_iff] using this

theorem decRepr_isDigit (n : Nat) : ∀ c ∈ decRepr n, c.isDigit = true := by
  induction n using Nat.strong_induction_on with
  | _ n ih =>
    by_cases h : n < 10
    · rw [decRepr_lt n h]
      intro c hc
      simp only [List.mem_singleton] at hc
      subst hc
      exact digitChar_isDigit h
    · rw [decRepr_ge n h]
      intro c hc
      rcases List.mem_append.mp hc with hc | hc
      · exact ih (n / 10) (Nat.div_lt_self (by omega) (by omega)) c hc
      · simp only [List.mem_singleton] at hc
        subst hc
        exact digitChar_isDigit (Nat.mod_lt _ (by omega))

theorem decRepr_length_pos (n : Nat) : 0 < (decRepr n).length :=
  List.length_pos.mpr (decRepr_ne_nil n)

theorem lt_pow_decRepr_length (n : Nat) : n < 10 ^ (decRepr n).length := by
  induction n using Nat.strong_induction_on with
  | _ n ih =>
    by_cases h : n < 10
    · rw [decRepr_lt n h]; simpa using h
    · rw [decRepr_ge n h]
      have := ih (n / 10) (Nat.div_lt_self (by omega) (by omega))
      simp only [List.length_append, List.length_singleton]
      have hpow : 10 ^ ((decRepr (n / 10)).length + 1) = 10 ^ (decRepr (n / 10)).length * 10 :=
        pow_succ 10 _
      rw [hpow]
      omega

theorem pow_le_of_decRepr_length (n : Nat) (h : 1 ≤ n) :
    10 ^ ((decRepr n).length - 1) ≤ n := by
  induction n using Nat.strong_induction_on with
  | _ n ih =>
    by_cases h10 : n < 10
    · rw [decRepr_lt n h10]; simpa using h
    · rw [decRepr_ge n h10]
      have hq : 1 ≤ n / 10 := Nat.one_le_div_iff (by omega) |>.mpr (by omega)
      have := ih (n / 10) (Nat.div_lt_self (by omega) (by omega)) hq
      simp only [List.length_append, List.length_singleton, Nat.add_sub_cancel]
      have hlen := decRepr_length_pos (n / 10)
      have hstep : 10 ^ (decRepr (n / 10)).length ≤ (n / 10) * 10 := by
        calc 10 ^ (decRepr (n / 10)).length
            = 10 ^ ((decRepr (n / 10)).length - 1) * 10 := by
              rw [← pow_succ]
              congr 1
              omega
          _ ≤ (n / 10) * 10 := by exact Nat.mul_le_mul_right 10 this
      have : (n / 10) * 10 ≤ n := by omega
      omega

/-- A proper extension of a decimal numeral denotes a strictly larger number. -/
theorem decRepr_append_lt {a q : Nat} {r : List Char} (hr : r ≠ [])
    (h : decRepr a ++ r = decRepr q) : a < q := by
  have hlen : (decRepr a).length + r.length = (decRepr q).length := by
    rw [← h]; simp
  have hrlen : 1 ≤ r.length := List.length_pos.mpr hr
  have halen := decRepr_length_pos a
  have hq10 : ¬ q < 10 := by
    intro hq
    rw [decRepr_lt q hq] at hlen
    simp only [List.length_singleton] at hlen
    omega
  have hq1 : 1 ≤ q := by omega
  have h1 : a < 10 ^ (decRepr a).length := lt_pow_decRepr_length a
  have h2 : 10 ^ ((decRepr q).length - 1) ≤ q := pow_le_of_decRepr_length q hq1
  have h3 : 10 ^ (decRepr a).length ≤ 10 ^ ((decRepr q).length - 1) :=
    Nat.pow_le_pow_right (by omega) (by omega)
  omega

theorem decRepr_injective : Function.Injective decRepr := by
  intro a b h
  induction a using Nat.strong_induction_on generalizing b with
  | _ a ih =>
    by_cases ha : a < 10 <;> by_cases hb : b < 10
    · rw [decRepr_lt a ha, decRepr_lt b hb] at h
      exact digitChar_injOn ha hb (by simpa using h)
    · rw [decRepr_lt a ha, decRepr_ge b hb] at h
      have : (1 : Nat) = (decRepr (b / 10)).length + 1 := by
        have := congrArg List.length h
        simpa using this
      have := decRepr_length_pos (b / 10)
      omega
    · rw [decRepr_ge a ha, decRepr_lt b hb] at h
      have : (decRepr (a / 10)).length + 1 = 1 := by
        have := congrArg List.length h
        simpa using this
      have := decRepr_length_pos (a / 10)
      omega
    · rw [decRepr_ge a ha, decRepr_ge b hb] at h
      have h2 := List.append_inj' h (by rfl)
      have hdiv : a / 10 = b / 10 :=
        ih (a / 10) (Nat.div_lt_self (by omega) (by omega)) h2.1
      have hmod : a % 10 = b % 10 := by
        have := h2.2
        simp only [List.cons.injEq] at this
        exact digitChar_injOn (Nat.mod_lt _ (by omega)) (Nat.mod_lt _ (by omega)) this.1
      omega

/-! ## Tokens

Argument strings built by the program are concatenations of position tokens
`"Y_<p>"` and variable tokens `"X_<v>"`.  `Tok` is the structural view of such
a token and `rT`/`rTs` render tokens back to the exact characters the program
manipulates. -/

/-- A structural token of an argument string: a position token `Y_<p>` or a
variable token `X_<v>`. -/
inductive Tok where
  | Y (p : Nat)
  | X (v : Nat)
deriving DecidableEq

/-- The marker character of a token. -/
def headCh : Tok → Char
  | .Y _ => 'Y'
  | .X _ => 'X'

/-- The numeric payload of a token. -/
def num : Tok → Nat
  | .Y p => p
  | .X v => v

/-- Rendering one token to characters. -/
def rT (t : Tok) : List Char := headCh t :: '_' :: decRepr (num t)

/-- Rendering a token list to characters. -/
def rTs (ts : List Tok) : List Char := (ts.map rT).flatten

theorem rTs_nil : rTs [] = [] := rfl

theorem rTs_cons (t : Tok) (ts : List Tok) : rTs (t :: ts) = rT t ++ rTs ts := by
  simp [rTs]

theorem rTs_append (a b : List Tok) : rTs (a ++ b) = rTs a ++ rTs b := by
  simp [rTs]

theorem headCh_cases (t : Tok) : headCh t = 'Y' ∨ headCh t = 'X' := by
  cases t <;> simp [headCh]

theorem headCh_not_digit (t : Tok) : (headCh t).isDigit = false := by
  rcases headCh_cases t with h | h <;> rw [h] <;> decide

theorem tok_eq_of_fields {t₁ t₂ : Tok} (h1 : headCh t₁ = headCh t₂) (h2 : num t₁ = num t₂) :
    t₁ = t₂ := by
  cases t₁ <;> cases t₂ <;> simp_all [headCh, num]

/-- The marker characters `Y` and `X` occur in a rendered token list only as the
first character of a token: any split of `rTs ts` exposing a `Y`/`X` character
is a split at a token boundary. -/
theorem marker_at_boundary {ts : List Tok} {u w : List Char} {c : Char}
    (hc : c = 'Y' ∨ c = 'X') (h : rTs ts = u ++ c :: w) :
    ∃ ts₁ t ts₂, ts = ts₁ ++ t :: ts₂ ∧ u = rTs ts₁ ∧ headCh t = c ∧
      c :: w = rT t ++ rTs ts₂ := by
  induction ts generalizing u with
  | nil =>
    rw [rTs_nil] at h
    exact absurd h.symm (by simp)
  | cons t ts ih =>
    rw [rTs_cons] at h
    rcases List.append_eq_append_iff.mp h.symm with ⟨c', hc1, hc2⟩ | ⟨a', ha1, ha2⟩
    swap
    · -- the marker sits beyond `rT t`: recurse into `ts`
      rcases ih ha2 with ⟨ts₁, t', ts₂, hts, hu, hhd, hrest⟩
      exact ⟨t :: ts₁, t', ts₂, by simp [hts], by simp [ha1, hu, rTs_cons], hhd, hrest⟩
    · -- the marker sits inside `rT t` (or right at the start of `rTs ts`)
      cases c' with
      | nil =>
        simp only [List.append_nil] at hc1
        rcases ih (u := []) (by simpa using hc2.symm) with ⟨ts₁, t', ts₂, hts, hu, hhd, hrest⟩
        refine ⟨t :: ts₁, t', ts₂, by simp [hts], ?_, hhd, hrest⟩
        rw [rTs_cons, ← hu, hc1, List.append_nil]
      | cons c₀ c'' =>
        have hc0 : c = c₀ := by
          simpa using congrArg (fun l => l.headD ' ') hc2
        subst hc0
        cases u with
        | nil =>
          refine ⟨[], t, ts, rfl, by rw [rTs_nil], ?_, ?_⟩
          · simp only [List.nil_append] at hc1
            simpa [rT] using congrArg (fun l => l.headD ' ') hc1
          · simp only [List.nil_append] at hc1
            simpa [hc1] using hc2
        | cons u₀ u' =>
          -- a non-initial character of `rT t` would equal `'Y'`/`'X'`: impossible
          exfalso
          have hsplit : headCh t = u₀ ∧ ('_' : Char) :: decRepr (num t) = u' ++ c :: c'' := by
            simpa [rT] using hc1
          have htail := hsplit.2
          cases u' with
          | nil =>
            have h1 : ('_' : Char) = c ∧ decRepr (num t) = c'' := by simpa using htail
            rcases hc with h' | h' <;> subst h' <;> exact absurd h1.1 (by decide)
          | cons v₀ v' =>
            have h2 : ('_' : Char) = v₀ ∧ decRepr (num t) = v' ++ c :: c'' := by
              simpa using htail
            have hmem : c ∈ decRepr (num t) := by
              rw [h2.2]
              simp
            have := decRepr_isDigit (num t) c hmem
            rcases hc with h' | h' <;> subst h' <;> simp at this

/-- Maximal munch (exact form): if two digit blocks are each followed by a
non-digit character and the whole lists agree, the blocks and remainders
agree. -/
theorem munch {d₁ d₂ r₁ r₂ : List Char}
    (hd₂ : ∀ c ∈ d₂, c.isDigit = true)
    (h₁ : ∃ c r, r₁ = c :: r ∧ c.isDigit = false)
    (h₂ : ∃ c r, r₂ = c :: r ∧ c.isDigit = false)
    (hd₁ : ∀ c ∈ d₁, c.isDigit = true)
    (h : d₁ ++ r₁ = d₂ ++ r₂) : d₁ = d₂ ∧ r₁ = r₂ := by
  induction d₁ generalizing d₂ with
  | nil =>
    cases d₂ with
    | nil => simpa using h
    | cons b d₂ =>
      exfalso
      rcases h₁ with ⟨c, r, rfl, hc⟩
      simp only [List.nil_append, List.cons_append, List.cons.injEq] at h
      rw [h.1] at hc
      rw [hd₂ b (by simp)] at hc
      exact Bool.true_eq_false.mp hc
  | cons a d₁ ih =>
    cases d₂ with
    | nil =>
      exfalso
      rcases h₂ with ⟨c, r, rfl, hc⟩
      simp only [List.cons_append, List.nil_append, List.cons.injEq] at h
      rw [← h.1] at hc
      rw [hd₁ a (by simp)] at hc
      exact Bool.true_eq_false.mp hc
    | cons b d₂ =>
      simp only [List.cons_append, List.cons.injEq] at h
      have := ih (fun c hc => hd₂ c (by simp [hc])) (fun c hc => hd₁ c (by simp [hc])) h.2
      exact ⟨by rw [h.1, this.1], this.2⟩

/-- Maximal munch (prefix form): a digit block followed by anything that is a
prefix of a digit block followed by a non-digit (or nothing) is a prefix of
that digit block. -/
theorem munch_le {d₁ d₂ t r₂ : List Char}
    (hd₁ : ∀ c ∈ d₁, c.isDigit = true)
    (h₂ : r₂ = [] ∨ ∃ c r, r₂ = c :: r ∧ c.isDigit = false)
    (h : d₁ ++ t = d₂ ++ r₂) : ∃ t', d₁ ++ t' = d₂ := by
  induction d₁ generalizing d₂ with
  | nil => exact ⟨d₂, by simp⟩
  | cons a d₁ ih =>
    cases d₂ with
    | nil =>
      exfalso
      simp only [List.nil_append] at h
      rcases h₂ with rfl | ⟨c, r, rfl, hc⟩
      · simp at h
      · simp only [List.cons_append, List.cons.injEq] at h
        rw [← h.1] at hc
        rw [hd₁ a (by simp)] at hc
        exact Bool.true_eq_false.mp hc
    | cons b d₂ =>
      simp only [List.cons_append, List.cons.injEq] at h
      rcases ih (fun c hc => hd₁ c (by simp [hc])) h.2 with ⟨t', ht'⟩
      exact ⟨t', by simp [h.1, ht']⟩

/-- Prepending a rendered token list to a string with a non-digit head keeps a
non-digit head. -/
theorem rTs_append_head_nondigit (ts : List Tok) {c : Char} (hc : c.isDigit = false)
    (rem : List Char) :
    ∃ c' r', rTs ts ++ c :: rem = c' :: r' ∧ c'.isDigit = false := by
  cases ts with
  | nil => exact ⟨c, rem, by simp [rTs_nil], hc⟩
  | cons t ts =>
    refine ⟨headCh t, '_' :: decRepr (num t) ++ rTs ts ++ c :: rem, ?_, headCh_not_digit t⟩
    rw [rTs_cons]
    simp [rT]

/-- A rendered token list followed by the end marker has empty or non-digit
head. -/
theorem rTs_marker_head (ts : List Tok) (rem : List Char) :
    ∃ c' r', rTs ts ++ '|' :: rem = c' :: r' ∧ c'.isDigit = false :=
  rTs_append_head_nondigit ts (by decide) rem

/-- Token-aligned match: if a rendered token run followed by one of the chars
`Y`, `X`, `|` is a prefix of a rendered token list followed by the end marker
`|`, then the run is literally a leading segment of the token list. -/
theorem aligned_match {run : List Tok} {c : Char} {rem : List Char} {ts : List Tok}
    (hc : c = 'Y' ∨ c = 'X' ∨ c = '|')
    (h : rTs run ++ c :: rem = rTs ts ++ ['|']) :
    ∃ ts₂, ts = run ++ ts₂ ∧ c :: rem = rTs ts₂ ++ ['|'] := by
  have hcnd : c.isDigit = false := by
    rcases hc with rfl | rfl | rfl <;> decide
  induction run generalizing ts with
  | nil => exact ⟨ts, rfl, by simpa [rTs_nil] using h⟩
  | cons t run ih =>
    cases ts with
    | nil =>
      exfalso
      rw [rTs_nil, List.nil_append, rTs_cons] at h
      have := congrArg (fun l => l.headD ' ') h
      simp [rT] at this
      rcases headCh_cases t with h' | h' <;> rw [h'] at this <;> exact absurd this (by decide)
    | cons t₂ ts =>
      rw [rTs_cons, rTs_cons] at h
      simp only [rT, List.cons_append, List.append_assoc, List.cons.injEq] at h
      obtain ⟨hhd, -, hrest⟩ := h
      rcases rTs_append_head_nondigit run hcnd rem with ⟨c₁, r₁, he₁, hc₁⟩
      rcases rTs_marker_head ts [] with ⟨c₂, r₂, he₂, hc₂⟩
      have hm := munch (decRepr_isDigit (num t₂)) ⟨c₁, r₁, he₁, hc₁⟩ ⟨c₂, r₂, he₂, hc₂⟩
        (decRepr_isDigit (num t)) (by rw [hrest])
      have hnum : num t = num t₂ := decRepr_injective hm.1
      have hteq : t = t₂ := tok_eq_of_fields hhd hnum
      subst hteq
      rcases ih hm.2 with ⟨ts₂, hts, htail⟩
      exact ⟨ts₂, by simp [hts], htail⟩

/-- The rendering of a token list is empty or has a non-digit head. -/
theorem rTs_head_shape (ts : List Tok) :
    rTs ts = [] ∨ ∃ c r, rTs ts = c :: r ∧ c.isDigit = false := by
  cases ts with
  | nil => exact Or.inl rfl
  | cons t ts' =>
    refine Or.inr ⟨headCh t, '_' :: decRepr (num t) ++ rTs ts', ?_, headCh_not_digit t⟩
    rw [rTs_cons]
    simp [rT]

/-- If a rendered token occurs anywhere, as a raw substring, inside a rendered
token list, then some token of the same kind whose numeric payload is at least
as large occurs in the list.  (This is what makes the program's raw `in` test
harmless: `Y_1` can only be found where some `Y_q` with `q ≥ 1` lives.) -/
theorem strIn_tok_bound {t₀ : Tok} {ts : List Tok}
    (h : strIn (rT t₀) (rTs ts) = true) :
    ∃ t ∈ ts, headCh t = headCh t₀ ∧ num t₀ ≤ num t := by
  rcases (strIn_iff _ _).mp h with ⟨u, v, huv⟩
  have hsplit : rTs ts = u ++ headCh t₀ :: ('_' :: decRepr (num t₀) ++ v) := by
    rw [← huv]
    simp [rT]
  rcases marker_at_boundary (headCh_cases t₀) hsplit with ⟨ts₁, t, ts₂, hts, hu, hhd, heq⟩
  have hpair : headCh t₀ = headCh t ∧ decRepr (num t₀) ++ v = decRepr (num t) ++ rTs ts₂ := by
    have h' := heq
    simp only [rT, List.cons_append, List.append_assoc, List.cons.injEq] at h'
    exact ⟨h'.1, h'.2.2⟩
  rcases munch_le (decRepr_isDigit (num t₀)) (rTs_head_shape ts₂) hpair.2 with ⟨t', ht'⟩
  have hle : num t₀ ≤ num t := by
    cases t' with
    | nil =>
      have : decRepr (num t₀) = decRepr (num t) := by simpa using ht'
      exact le_of_eq (decRepr_injective this)
    | cons x xs => exact le_of_lt (decRepr_append_lt (by simp) ht')
  exact ⟨t, by simp [hts], hhd ▸ hpair.1.symm ▸ rfl, hle⟩

/-- `strReplace` is the identity when the pattern does not occur. -/
theorem strReplace_of_not_occ {old new : List Char} :
    ∀ {s : List Char}, (∀ u v, u ++ old ++ v ≠ s) → strReplace old new s = s
  | [], _ => by rw [strReplace]
  | c :: rest, h => by
    rw [strReplace, if_neg]
    · have htail : strReplace old new rest = rest :=
        strReplace_of_not_occ (fun u v huv => h (c :: u) v (by simp [huv]))
      rw [htail]
    · rintro ⟨hne, hpref⟩
      rcases (isPref_iff _ _).mp hpref with ⟨tl, htl⟩
      exact h [] tl (by simpa using htl)

/-- `strReplace` at a uniquely-occurring pattern replaces exactly that
occurrence and leaves everything else alone. -/
theorem strReplace_unique {old new : List Char} (hold : old ≠ []) :
    ∀ {A B : List Char},
      (∀ u v, u ++ old ++ v = A ++ old ++ B → u = A) →
      strReplace old new (A ++ old ++ B) = A ++ new ++ B := by
  intro A
  induction A with
  | nil =>
    intro B huniq
    cases old with
    | nil => exact absurd rfl hold
    | cons o old' =>
      have hB : strReplace (o :: old') new B = B := by
        apply strReplace_of_not_occ
        intro u v huv
        have h2 := huniq ((o :: old') ++ u) v (by simp [← huv])
        simp at h2
      have hcond : (o :: old') ≠ [] ∧ isPref (o :: old') (o :: (old' ++ B)) = true :=
        ⟨by simp, (isPref_iff _ _).mpr ⟨B, by simp⟩⟩
      rw [List.nil_append, List.cons_append, strReplace, if_pos hcond]
      have hdrop : (o :: (old' ++ B)).drop (o :: old').length = B := by
        simp only [← List.cons_append]
        exact List.drop_left (o :: old') B
      rw [hdrop, hB, List.nil_append]
  | cons a A ih =>
    intro B huniq
    have hncond : ¬(old ≠ [] ∧ isPref old (a :: (A ++ old ++ B)) = true) := by
      rintro ⟨hne, hpref⟩
      rcases (isPref_iff _ _).mp hpref with ⟨tl, htl⟩
      have h2 := huniq [] tl (by simpa using htl)
      simp at h2
    have hrec := ih (B := B) (fun u v huv => by
      have h3 := huniq (a :: u) v (by simp [huv])
      simp only [List.cons.injEq] at h3
      exact h3.2)
    rw [List.cons_append, List.cons_append, strReplace, if_neg (by simpa using hncond)]
    rw [hrec]
    simp

/-! ## `Node.findArgs` and maximal contiguous runs -/

/-- The position token `"Y_<p>"`. -/
def yTok (p : Nat) : PyStr := rT (Tok.Y p)

/-- The variable name `"X_<c>"`. -/
def xVar (c : Nat) : PyStr := rT (Tok.X c)

/-- The loop body of `Node.findArgs` (source lines 285–295), recursing over the
loop index `i`.  Python's gap test `strID[i]-1 != strID[i-1]` over unbounded
integers is equivalent to `strID[i] ≠ strID[i-1] + 1`, which is how it is
written here (Python's `-1` can go below zero, so the test is translated in the
subtraction-free form that agrees with it on all integers). -/
def findArgsAux (l : List Nat) : Nat → PyStr → List PyStr → List PyStr
  | i, arg, args =>
    if _h : i < l.length then
      let gap := i ≠ 0 ∧ l.getD i 0 ≠ l.getD (i - 1) 0 + 1
      let p := if gap then (args ++ [arg], ([] : PyStr)) else (args, arg)
      findArgsAux l (i + 1) (p.2 ++ yTok (l.getD i 0)) p.1
    else args ++ [arg]
termination_by i => l.length - i
decreasing_by
  omega

/-- `Node.findArgs` (source lines 279–295). -/
def findArgs (strID : List Nat) : List PyStr := findArgsAux strID 0 [] []

/-- Modelled from the spec ("partition it into a sequence of maximal
contiguous runs"): worker accumulating the current run, whose last element is
`prev`. -/
def runsGo (prev : Nat) (cur : List Nat) : List Nat → List (List Nat)
  | [] => [cur]
  | x :: xs => if x = prev + 1 then runsGo x (cur ++ [x]) xs else cur :: runsGo x [x] xs

/-- Modelled from the spec: the maximal contiguous runs ("argument
components") of a list of positions. -/
def specMaximalRuns : List Nat → List (List Nat)
  | [] => []
  | x :: xs => runsGo x [x] xs

/-- Rendering of one run as the argument string the program builds for it. -/
def renderRun (r : List Nat) : PyStr := rTs (r.map Tok.Y)

/-- String-level worker mirroring `runsGo`. -/
def argsGo (prev : Nat) (arg : PyStr) : List Nat → List PyStr
  | [] => [arg]
  | x :: xs =>
    if x = prev + 1 then argsGo x (arg ++ yTok x) xs else arg :: argsGo x (yTok x) xs

theorem findArgsAux_eq_argsGo (l : List Nat) (i : Nat) (arg : PyStr) (args : List PyStr)
    (hi : 1 ≤ i) :
    findArgsAux l i arg args = args ++ argsGo (l.getD (i - 1) 0) arg (l.drop i) := by
  by_cases h : i < l.length
  · rw [findArgsAux, dif_pos h]
    have hdrop : l.drop i = l.getD i 0 :: l.drop (i + 1) := by
      rw [List.getD_eq_getElem l 0 h, List.drop_eq_getElem_cons h]
    by_cases hgap : l.getD i 0 = l.getD (i - 1) 0 + 1
    · have hc : ¬(i ≠ 0 ∧ l.getD i 0 ≠ l.getD (i - 1) 0 + 1) := fun hh => hh.2 hgap
      simp only [if_neg hc]
      rw [findArgsAux_eq_argsGo l (i + 1) _ _ (by omega), hdrop, argsGo, if_pos hgap,
        Nat.add_sub_cancel]
    · have hc : (i ≠ 0 ∧ l.getD i 0 ≠ l.getD (i - 1) 0 + 1) := ⟨by omega, hgap⟩
      simp only [if_pos hc]
      rw [findArgsAux_eq_argsGo l (i + 1) _ _ (by omega), hdrop, argsGo, if_neg hgap,
        Nat.add_sub_cancel]
      simp
  · rw [findArgsAux, dif_neg h]
    have hdrop : l.drop i = [] := List.drop_eq_nil_of_le (by omega)
    rw [hdrop, argsGo]
termination_by l.length - i
decreasing_by
  all_goals omega

theorem findArgs_nil : findArgs [] = [[]] := by
  rw [findArgs, findArgsAux]
  simp

theorem findArgs_cons (x : Nat) (xs : List Nat) :
    findArgs (x :: xs) = argsGo x (yTok x) xs := by
  rw [findArgs, findArgsAux, dif_pos (by simp)]
  have hc : ¬((0 : Nat) ≠ 0 ∧ (x :: xs).getD 0 0 ≠ (x :: xs).getD (0 - 1) 0 + 1) := by
    simp
  simp only [if_neg hc]
  rw [findArgsAux_eq_argsGo _ 1 _ _ le_rfl]
  simp [argsGo]

theorem argsGo_eq_runsGo (xs : List Nat) :
    ∀ prev r, argsGo prev (renderRun r) xs = (runsGo prev r xs).map renderRun := by
  induction xs with
  | nil => intro prev r; rw [argsGo, runsGo]; simp
  | cons x xs ih =>
    intro prev r
    rw [argsGo, runsGo]
    by_cases hx : x = prev + 1
    · rw [if_pos hx, if_pos hx]
      have : renderRun r ++ yTok x = renderRun (r ++ [x]) := by
        rw [renderRun, renderRun, List.map_append, yTok, rTs_append]
        simp [rTs_cons, rTs_nil]
      rw [this, ih]
    · rw [if_neg hx, if_neg hx]
      have : yTok x = renderRun [x] := by
        rw [renderRun, yTok]
        simp [rTs_cons, rTs_nil]
      rw [this, ih]
      simp

/-- `findArgs` renders exactly the maximal contiguous runs, for a non-empty
span. -/
theorem findArgs_eq_runs (l : List Nat) (hl : l ≠ []) :
    findArgs l = (specMaximalRuns l).map renderRun := by
  cases l with
  | nil => exact absurd rfl hl
  | cons x xs =>
    rw [findArgs_cons, specMaximalRuns]
    have : yTok x = renderRun [x] := by
      rw [renderRun, yTok]
      simp [rTs_cons, rTs_nil]
    rw [this, argsGo_eq_runsGo]

theorem runsGo_flatten (xs : List Nat) :
    ∀ prev cur, (runsGo prev cur xs).flatten = cur ++ xs := by
  induction xs with
  | nil => intro prev cur; rw [runsGo]; simp
  | cons x xs ih =>
    intro prev cur
    rw [runsGo]
    by_cases hx : x = prev + 1
    · rw [if_pos hx, ih]
      simp
    · rw [if_neg hx]
      simp [ih]

/-- Concatenating the runs reproduces the list exactly. -/
theorem specMaximalRuns_flatten (l : List Nat) : (specMaximalRuns l).flatten = l := by
  cases l with
  | nil => rfl
  | cons x xs =>
    rw [specMaximalRuns, runsGo_flatten]
    rfl

/-- The "no gap inside a run" relation: consecutive elements differ by one. -/
def StepOne (a b : Nat) : Prop := b = a + 1

/-- The "gap between runs" relation: the head of the next run is not one more
than the last element of the previous run. -/
def RunGap (r₁ r₂ : List Nat) : Prop :=
  ∀ a b, r₁.getLast? = some a → r₂.head? = some b → b ≠ a + 1

theorem runsGo_props (xs : List Nat) :
    ∀ prev cur, cur ≠ [] → cur.getLast? = some prev → cur.Chain' StepOne →
      (∀ r ∈ runsGo prev cur xs, r ≠ [] ∧ r.Chain' StepOne) ∧
      (runsGo prev cur xs).Chain' RunGap ∧
      ∃ r rs, runsGo prev cur xs = r :: rs ∧ r.head? = cur.head? := by
  induction xs with
  | nil =>
    intro prev cur hne hlast hchain
    rw [runsGo]
    refine ⟨?_, ?_, cur, [], rfl, rfl⟩
    · intro r hr
      simp only [List.mem_singleton] at hr
      subst hr
      exact ⟨hne, hchain⟩
    · simp
  | cons x xs ih =>
    intro prev cur hne hlast hchain
    rw [runsGo]
    by_cases hx : x = prev + 1
    · rw [if_pos hx]
      refine ih x (cur ++ [x]) (by simp) (by simp) ?_ |>.imp id (fun h => h.imp id ?_)
      · rw [List.chain'_append]
        refine ⟨hchain, by simp, ?_⟩
        intro a ha b hb
        rw [hlast] at ha
        have ha' : prev = a := by simpa using ha
        have hb' : x = b := by simpa using hb
        show b = a + 1
        rw [← ha', ← hb', hx]
      · rintro ⟨r, rs, heq, hhead⟩
        refine ⟨r, rs, heq, ?_⟩
        rw [hhead]
        cases cur with
        | nil => exact absurd rfl hne
        | cons c cs => simp
    · rw [if_neg hx]
      rcases ih x [x] (by simp) (by simp) (by simp) with ⟨hmem, hch, r, rs, heq, hhead⟩
      refine ⟨?_, ?_, cur, r :: rs, by rw [heq], rfl⟩
      · intro r' hr'
        rcases List.mem_cons.mp hr' with rfl | hr'
        · exact ⟨hne, hchain⟩
        · exact hmem r' hr'
      · rw [heq, List.chain'_cons]
        refine ⟨?_, heq ▸ hch⟩
        intro a b ha hb
        rw [hlast] at ha
        injection ha with ha
        rw [hhead] at hb
        simp only [List.head?_cons, Option.some.injEq] at hb
        subst ha hb
        exact hx

/-- Each maximal run is non-empty and internally contiguous, and consecutive
runs are separated by genuine gaps. -/
theorem specMaximalRuns_props (l : List Nat) :
    (∀ r ∈ specMaximalRuns l, r ≠ [] ∧ r.Chain' StepOne) ∧
      (specMaximalRuns l).Chain' RunGap := by
  cases l with
  | nil => simp [specMaximalRuns]
  | cons x xs =>
    rw [specMaximalRuns]
    have := runsGo_props xs x [x] (by simp) (by simp) (by simp)
    exact ⟨this.1, this.2.1⟩

/-! ## Predicates, rules and the contraction loops -/

/-- `Predicate` (source lines 186–207). -/
structure Predicate where
  name : PyStr
  args : List PyStr
deriving DecidableEq

/-- The argument loop of `Predicate.mkform` (source lines 218–223): each
argument is followed by `)` when it *equals the value of* the last argument,
and by `,` otherwise. -/
def mkformArgs (last : PyStr) : List PyStr → PyStr
  | [] => []
  | a :: rest => a ++ (if a = last then [')'] else [',']) ++ mkformArgs last rest

/-- `Predicate.mkform` (source lines 209–224).  When the argument list is
empty the loop never runs and no closing parenthesis is produced, exactly as
in the source. -/
def Predicate.mkform (p : Predicate) : PyStr :=
  p.name ++ ['('] ++ mkformArgs (p.args.getLastD []) p.args

/-- The right-hand side of a rule: the terminal marker `"eps"` or a list of
predicates (source line 131). -/
inductive Rhs where
  | eps
  | preds (ps : List Predicate)
deriving DecidableEq

/-- `Rule.mkform` (source lines 171–183). -/
def ruleForm (lhs : Predicate) (rhs : Rhs) : PyStr :=
  lhs.mkform ++ str "->" ++
    (match rhs with
     | .eps => str "eps"
     | .preds ps => (ps.map Predicate.mkform).flatten)

/-- A constructed `Rule` (source lines 125–169): the contracted left-hand
side, the right-hand side, and the canonical form string. -/
structure Rule where
  lhs : Predicate
  rhs : Rhs
  form : PyStr
deriving DecidableEq

/-- The inner `for j` loop of the variable contraction (source lines
159–168).  At each left-hand-side argument that contains the current
right-hand-side argument `a` as a raw substring, the program appends the
end-of-string marker `|`, replaces `a` followed by `Y`, `X` or `|` by the
fresh variable followed by the same character, strips the marker, replaces
`a` itself by the variable, and advances the counter; the loop then continues
over the remaining `j` with the updated `a`, exactly as the source does. -/
def jloop (lhsArgs : List PyStr) (a : PyStr) (count j : Nat) :
    List PyStr × PyStr × Nat :=
  if _h : j < lhsArgs.length then
    if strIn a (lhsArgs.getD j []) = true then
      let s0 := lhsArgs.getD j [] ++ ['|']
      let s1 := strReplace (a ++ ['Y']) (xVar count ++ ['Y']) s0
      let s2 := strReplace (a ++ ['X']) (xVar count ++ ['X']) s1
      let s3 := strReplace (a ++ ['|']) (xVar count ++ ['|']) s2
      jloop (lhsArgs.set j s3.dropLast) (xVar count) (count + 1) (j + 1)
    else jloop lhsArgs a count (j + 1)
  else (lhsArgs, a, count)
termination_by lhsArgs.length - j
decreasing_by
  · simp only [List.length_set]
    omega
  · omega

/-- The middle `for i` loop of the contraction (source line 158): every
argument of one right-hand-side predicate is processed in turn, updating the
left-hand side, the predicate's argument, and the counter. -/
def iloop (lhsArgs : List PyStr) (predArgs : List PyStr) (count i : Nat) :
    List PyStr × List PyStr × Nat :=
  if _h : i < predArgs.length then
    let r := jloop lhsArgs (predArgs.getD i []) count 0
    iloop r.1 (predArgs.set i r.2.1) r.2.2 (i + 1)
  else (lhsArgs, predArgs, count)
termination_by predArgs.length - i
decreasing_by
  simp only [List.length_set]
  omega

/-- The outer `for pred` loop of the contraction (source lines 155–168). -/
def predloop (lhsArgs : List PyStr) (count : Nat) :
    List Predicate → List PyStr × List Predicate × Nat
  | [] => (lhsArgs, [], count)
  | p :: ps =>
    let r := iloop lhsArgs p.args count 0
    let rest := predloop r.1 r.2.2 ps
    (rest.1, { name := p.name, args := r.2.1 } :: rest.2.1, rest.2.2)

/-- `Node` (source lines 226–253), as plain data: the mutable `strID` and
`daughters` fields are part of the record, and daughters are stored as arena
indices into the per-tree node list. -/
structure PNode where
  id : PyStr
  label : PyStr
  mother : PyStr
  strID : List Nat
  daughters : List Nat
deriving DecidableEq, Inhabited

/-- `Rule.__init__` (source lines 138–169).  A node is a leaf exactly when
its id does not start with `#` (the id of a leaf is the word itself; ids are
assumed non-empty, which `headD` with a non-`#` default models). -/
def mkRule (heap : List PNode) (node : PNode) : Rule :=
  if node.id.headD ' ' ≠ '#' then
    let lhs : Predicate := ⟨node.label, [node.id]⟩
    { lhs := lhs, rhs := .eps, form := ruleForm lhs .eps }
  else
    let args := findArgs node.strID
    let ds := node.daughters.map (fun d => heap.getD d default)
    let rhs0 := ds.map (fun d => (⟨d.label, findArgs d.strID⟩ : Predicate))
    let r := predloop args 0 rhs0
    let lhs : Predicate := ⟨node.label, r.1⟩
    { lhs := lhs, rhs := .preds r.2.1, form := ruleForm lhs (.preds r.2.1) }

/-! ## Structural (token-level) view of the contraction -/

/-- The position of a `Y` token, if any. -/
def yOf : Tok → Option Nat
  | .Y p => some p
  | .X _ => none

/-- The index of an `X` token, if any. -/
def xOf : Tok → Option Nat
  | .X v => some v
  | .Y _ => none

/-- The position tokens of a token list, in order. -/
def Ypos (ts : List Tok) : List Nat := ts.filterMap yOf

/-- The variable indices of a token list, in order. -/
def Xidx (ts : List Tok) : List Nat := ts.filterMap xOf

/-- Modelled from the spec ("locate the exact matching token-run inside the
left-hand-side's argument strings and replace that run, as a whole unit, with
the new variable"): replace the first token-aligned occurrence of `run` in one
token list by the single token `v`. -/
def replaceRunOnce (run : List Tok) (v : Tok) : List Tok → List Tok
  | [] => []
  | t :: ts =>
    if isPref run (t :: ts) = true then v :: (t :: ts).drop run.length
    else t :: replaceRunOnce run v ts

/-- Modelled from the spec: perform the run replacement in the first argument
that contains the run. -/
def tokSubst (run : List Tok) (v : Tok) : List (List Tok) → List (List Tok)
  | [] => []
  | arg :: rest =>
    if strIn run arg = true then replaceRunOnce run v arg :: rest
    else arg :: tokSubst run v rest

theorem Ypos_cons_Y (p : Nat) (ts : List Tok) : Ypos (Tok.Y p :: ts) = p :: Ypos ts := rfl

theorem Ypos_cons_X (v : Nat) (ts : List Tok) : Ypos (Tok.X v :: ts) = Ypos ts := rfl

theorem Xidx_cons_Y (p : Nat) (ts : List Tok) : Xidx (Tok.Y p :: ts) = Xidx ts := rfl

theorem Xidx_cons_X (v : Nat) (ts : List Tok) : Xidx (Tok.X v :: ts) = v :: Xidx ts := rfl

theorem Ypos_append (a b : List Tok) : Ypos (a ++ b) = Ypos a ++ Ypos b := by
  simp [Ypos]

theorem Xidx_append (a b : List Tok) : Xidx (a ++ b) = Xidx a ++ Xidx b := by
  simp [Xidx]

theorem Ypos_mapY (r : List Nat) : Ypos (r.map Tok.Y) = r := by
  induction r with
  | nil => rfl
  | cons x xs ih => rw [List.map_cons, Ypos_cons_Y, ih]

theorem Xidx_mapY (r : List Nat) : Xidx (r.map Tok.Y) = [] := by
  induction r with
  | nil => rfl
  | cons x xs ih => rw [List.map_cons, Xidx_cons_Y, ih]

theorem mem_Ypos_iff {p : Nat} {ts : List Tok} : p ∈ Ypos ts ↔ Tok.Y p ∈ ts := by
  induction ts with
  | nil => simp [Ypos]
  | cons t ts ih =>
    cases t with
    | Y q => rw [Ypos_cons_Y]; simp [ih]
    | X v => rw [Ypos_cons_X]; simp [ih]

theorem mem_Xidx_iff {v : Nat} {ts : List Tok} : v ∈ Xidx ts ↔ Tok.X v ∈ ts := by
  induction ts with
  | nil => simp [Xidx]
  | cons t ts ih =>
    cases t with
    | Y q => rw [Xidx_cons_Y]; simp [ih]
    | X w => rw [Xidx_cons_X]; simp [ih]

/-! ## Generic block lemmas

Two decompositions of the same list around non-overlapping blocks. -/

/-- Auxiliary: the head of a non-empty left part survives an append. -/
theorem headq_append_left {l₁ l₂ : List α} (h : l₁ ≠ []) :
    (l₁ ++ l₂).head? = l₁.head? := by
  cases l₁ with
  | nil => exact absurd rfl h
  | cons x xs => rfl

/-- If one block ends before the other begins, the first block (with its
prefix) is a prefix of the other block's prefix. -/
theorem block_before {l p m s u : List α} (h1 : l = p ++ m ++ s)
    (hu : ∃ rest, l = u ++ rest) (hle : p.length + m.length ≤ u.length) :
    ∃ z, u = p ++ m ++ z := by
  rcases hu with ⟨rest, hrest⟩
  have htk1 : l.take (p.length + m.length) = p ++ m := by
    rw [h1]
    rw [show p.length + m.length = (p ++ m).length from by simp, List.take_left]
  have htk2 : l.take u.length = u := by
    rw [hrest, List.take_left]
  have htk3 : u.take (p.length + m.length) = p ++ m := by
    rw [← htk2, List.take_take, Nat.min_eq_left hle, htk1]
  refine ⟨u.drop (p.length + m.length), ?_⟩
  conv_lhs => rw [← List.take_append_drop (p.length + m.length) u]
  rw [htk3, List.append_assoc]

/-- If neither block ends before the other begins, they overlap in a common
element. -/
theorem block_overlap {l p m s u n w : List α} (h1 : l = p ++ m ++ s)
    (h2 : l = u ++ n ++ w) (hm : m ≠ []) (hn : n ≠ [])
    (ho1 : ¬ p.length + m.length ≤ u.length) (ho2 : ¬ u.length + n.length ≤ p.length) :
    ∃ x, x ∈ m ∧ x ∈ n := by
  have hmlen : 1 ≤ m.length := List.length_pos.mpr hm
  have hnlen : 1 ≤ n.length := List.length_pos.mpr hn
  obtain ⟨k, hkp, hku, hkm, hkn⟩ :
      ∃ k, p.length ≤ k ∧ u.length ≤ k ∧ k < p.length + m.length ∧ k < u.length + n.length :=
    ⟨max p.length u.length, le_max_left _ _, le_max_right _ _, by omega, by omega⟩
  have hp1 : l.drop p.length = m ++ s := by
    rw [h1, List.append_assoc, List.drop_left]
  have hu1 : l.drop u.length = n ++ w := by
    rw [h2, List.append_assoc, List.drop_left]
  have hdm : l.drop k = m.drop (k - p.length) ++ s := by
    have e1 : l.drop k = (l.drop p.length).drop (k - p.length) := by
      rw [List.drop_drop]
      congr 1
      omega
    rw [e1, hp1, List.drop_append_of_le_length (by omega)]
  have hdn : l.drop k = n.drop (k - u.length) ++ w := by
    have e1 : l.drop k = (l.drop u.length).drop (k - u.length) := by
      rw [List.drop_drop]
      congr 1
      omega
    rw [e1, hu1, List.drop_append_of_le_length (by omega)]
  have hmne : m.drop (k - p.length) ≠ [] := by
    have : (m.drop (k - p.length)).length = m.length - (k - p.length) := List.length_drop _ _
    intro hnil
    rw [hnil] at this
    simp at this
    omega
  have hnne : n.drop (k - u.length) ≠ [] := by
    have : (n.drop (k - u.length)).length = n.length - (k - u.length) := List.length_drop _ _
    intro hnil
    rw [hnil] at this
    simp at this
    omega
  have he1 : (l.drop k).head? = (m.drop (k - p.length)).head? := by
    rw [hdm, headq_append_left hmne]
  have he2 : (l.drop k).head? = (n.drop (k - u.length)).head? := by
    rw [hdn, headq_append_left hnne]
  rcases List.exists_mem_of_ne_nil _ hmne with ⟨x, hx⟩
  have hks : (m.drop (k - p.length)).head? = some ((m.drop (k - p.length)).head hmne) :=
    List.head?_eq_head hmne
  refine ⟨(m.drop (k - p.length)).head hmne, ?_, ?_⟩
  · exact List.drop_subset _ _ (List.head_mem hmne)
  · have : (n.drop (k - u.length)).head? = some ((m.drop (k - p.length)).head hmne) := by
      rw [← he2, he1, hks]
    have hmem := List.mem_of_mem_head? this
    exact List.drop_subset _ _ hmem

/-- Two element-disjoint non-empty blocks of the same list do not overlap: one
of them lies entirely inside the other's prefix or suffix. -/
theorem block_disjoint {l p m s u n w : List α} (h1 : l = p ++ m ++ s)
    (h2 : l = u ++ n ++ w) (hm : m ≠ []) (hn : n ≠ [])
    (hdisj : ∀ x, x ∈ m → x ∈ n → False) :
    (∃ z₁ z₂, u = z₁ ++ m ++ z₂) ∨ (∃ z₁ z₂, w = z₁ ++ m ++ z₂) := by
  by_cases hle1 : p.length + m.length ≤ u.length
  · rcases block_before h1 ⟨n ++ w, by rw [h2, List.append_assoc]⟩ hle1 with ⟨z, hz⟩
    exact Or.inl ⟨p, z, hz⟩
  · by_cases hle2 : u.length + n.length ≤ p.length
    · rcases block_before h2 ⟨m ++ s, by rw [h1, List.append_assoc]⟩ hle2 with ⟨z, hz⟩
      refine Or.inr ⟨z, s, ?_⟩
      have hl : u ++ n ++ (z ++ m ++ s) = u ++ n ++ w := by
        rw [← h2, h1, hz]
        simp
      have := List.append_cancel_left hl
      rw [← this]
    · rcases block_overlap h1 h2 hm hn hle1 hle2 with ⟨x, hxm, hxn⟩
      exact absurd hxn (fun hh => hdisj x hxm hh)

/-- A uniquely-occurring element splits a list uniquely. -/
theorem split_unique_count {x : α} :
    ∀ {l p₁ p₂ s₁ s₂ : List α}, l.count x ≤ 1 → l = p₁ ++ x :: s₁ → l = p₂ ++ x :: s₂ →
      p₁ = p₂ ∧ s₁ = s₂ := by
  intro l p₁
  induction p₁ generalizing l with
  | nil =>
    intro p₂ s₁ s₂ hcount h1 h2
    cases p₂ with
    | nil =>
      rw [List.nil_append] at h1 h2
      rw [h1] at h2
      exact ⟨rfl, (List.cons.inj h2).2⟩
    | cons y p₂ =>
      exfalso
      rw [List.nil_append] at h1
      rw [h1] at h2 hcount
      simp only [List.cons_append, List.cons.injEq] at h2
      have hx : x ∈ s₁ := by
        rw [h2.2]
        simp
      rw [List.count_cons_self] at hcount
      have := List.count_pos_iff.mpr hx -- x counted in s₁
      omega
  | cons y p₁ ih =>
    intro p₂ s₁ s₂ hcount h1 h2
    cases p₂ with
    | nil =>
      exfalso
      rw [List.nil_append] at h2
      rw [h2] at h1 hcount
      simp only [List.cons_append, List.cons.injEq] at h1
      have hx : x ∈ s₂ := by
        rw [h1.2]
        simp
      rw [List.count_cons_self] at hcount
      have := List.count_pos_iff.mpr hx
      omega
    | cons z p₂ =>
      rw [List.cons_append] at h1 h2
      rw [h1] at h2 hcount
      simp only [List.cons.injEq] at h2
      have hc : (p₁ ++ x :: s₁).count x ≤ 1 := by
        rw [List.count_cons] at hcount
        omega
      have := ih hc rfl h2.2
      exact ⟨by rw [h2.1, this.1], this.2⟩

/-! ## Occurrence characterization for the contraction patterns -/

theorem renderRun_head {a : Nat} {r : List Nat} :
    renderRun (a :: r) = 'Y' :: ('_' :: decRepr a ++ rTs (r.map Tok.Y)) := by
  rw [renderRun, List.map_cons, rTs_cons]
  simp [rT, headCh, num]

/-- Every raw-substring occurrence of a rendered run followed by `Y`, `X` or
`|` inside a rendered argument (with its end marker) is token-aligned: the
run is literally present as a token segment at that spot. -/
theorem occ_run {arg : List Tok} {r₀ : List Nat} {c : Char} {u v : List Char}
    (hr : r₀ ≠ []) (hc : c = 'Y' ∨ c = 'X' ∨ c = '|')
    (h : u ++ (renderRun r₀ ++ [c]) ++ v = rTs arg ++ ['|']) :
    ∃ ts₁ ts₂, arg = ts₁ ++ r₀.map Tok.Y ++ ts₂ ∧ u = rTs ts₁ ∧
      c :: v = rTs ts₂ ++ ['|'] := by
  rcases List.exists_cons_of_ne_nil hr with ⟨a, r', rfl⟩
  rw [renderRun_head] at h
  have h' : u ++ 'Y' :: (('_' :: decRepr a ++ rTs (r'.map Tok.Y)) ++ c :: v) =
      rTs arg ++ ['|'] := by
    rw [← h]
    simp
  rcases List.append_eq_append_iff.mp h' with ⟨e, he1, he2⟩ | ⟨e, he1, he2⟩
  · -- the `Y` lands inside `rTs arg`
    cases e with
    | nil =>
      exfalso
      have : ('Y' : Char) = '|' := by simpa using he2.symm
      exact absurd this (by decide)
    | cons y e' =>
      have hy : y = 'Y' := by simpa using congrArg (fun l => l.headD ' ') he2.symm
      subst hy
      have harg : rTs arg = u ++ 'Y' :: e' := he1
      rcases marker_at_boundary (Or.inl rfl) harg with ⟨ts₁, t, ts₂0, hts, hu, hhd, hrest⟩
      -- cancel the common prefix `u` and re-apply the aligned matcher
      have hcancel : renderRun (a :: r') ++ c :: v = rTs (t :: ts₂0) ++ ['|'] := by
        have e3 : rTs arg ++ ['|'] = rTs ts₁ ++ (rTs (t :: ts₂0) ++ ['|']) := by
          rw [hts, rTs_append, rTs_cons]
          simp [rTs_cons]
        have e4 : u ++ (renderRun (a :: r') ++ c :: v) = rTs arg ++ ['|'] := by
          rw [← h, renderRun_head]
          simp
        rw [e3, hu] at e4
        exact List.append_cancel_left e4
      have halm : ∃ ts₂, t :: ts₂0 = (a :: r').map Tok.Y ++ ts₂ ∧
          c :: v = rTs ts₂ ++ ['|'] :=
        aligned_match hc (by
          rw [← hcancel]
          rfl)
      rcases halm with ⟨ts₂, hts2, htail⟩
      exact ⟨ts₁, ts₂, by rw [hts, hts2]; simp, hu, htail⟩
  · -- the `Y` would land on the final marker: impossible
    exfalso
    cases e with
    | nil =>
      have : ('|' : Char) = 'Y' := by simpa using congrArg (fun l => l.headD ' ') he2
      exact absurd this (by decide)
    | cons x e' =>
      have := congrArg List.length he2
      simp at this

/-- Count of a `Y` token equals the count of its position among `Ypos`. -/
theorem count_tokY_eq (arg : List Tok) (a : Nat) :
    arg.count (Tok.Y a) = (Ypos arg).count a := by
  induction arg with
  | nil => rfl
  | cons t ts ih =>
    cases t with
    | Y p =>
      rw [Ypos_cons_Y, List.count_cons, List.count_cons, ih]
      congr 1
      simp
    | X v =>
      rw [Ypos_cons_X, List.count_cons, ih]
      simp

/-- In an argument with no duplicate positions, a token run occurs (as a token
segment) in at most one place. -/
theorem run_split_unique {arg ts₁ ts₂ u w : List Tok} {r₀ : List Nat} (hr : r₀ ≠ [])
    (hnd : (Ypos arg).Nodup)
    (h1 : arg = ts₁ ++ r₀.map Tok.Y ++ ts₂) (h2 : arg = u ++ r₀.map Tok.Y ++ w) :
    ts₁ = u ∧ ts₂ = w := by
  rcases List.exists_cons_of_ne_nil hr with ⟨a, r', rfl⟩
  have hcount : arg.count (Tok.Y a) ≤ 1 := by
    rw [count_tokY_eq]
    exact List.nodup_iff_count_le_one.mp hnd a
  have h1' : arg = ts₁ ++ Tok.Y a :: (r'.map Tok.Y ++ ts₂) := by
    rw [h1]
    simp
  have h2' : arg = u ++ Tok.Y a :: (r'.map Tok.Y ++ w) := by
    rw [h2]
    simp
  rcases split_unique_count hcount h1' h2' with ⟨hp, hs⟩
  exact ⟨hp, List.append_cancel_left hs⟩

/-- `replaceRunOnce` at a uniquely-occurring run replaces exactly that run. -/
theorem replaceRunOnce_unique {run : List Tok} (hrun : run ≠ []) {v : Tok} :
    ∀ {u w : List Tok}, (∀ p s, p ++ run ++ s = u ++ run ++ w → p = u) →
      replaceRunOnce run v (u ++ run ++ w) = u ++ v :: w := by
  intro u
  induction u with
  | nil =>
    intro w huniq
    rcases List.exists_cons_of_ne_nil hrun with ⟨t0, run', hr⟩
    have hne : run ++ w ≠ [] := by
      rw [hr]
      simp
    rcases List.exists_cons_of_ne_nil hne with ⟨t1, rest, hrw⟩
    rw [List.nil_append, hrw, replaceRunOnce,
      if_pos (by rw [← hrw]; exact (isPref_iff _ _).mpr ⟨w, rfl⟩), ← hrw, List.drop_left]
    simp
  | cons t u ih =>
    intro w huniq
    have hncond : ¬ isPref run (t :: (u ++ run ++ w)) = true := by
      intro hpref
      rcases (isPref_iff _ _).mp hpref with ⟨tl, htl⟩
      have h0 := huniq [] tl (by simpa using htl)
      simp at h0
    have hrec := ih (w := w) (fun p s hps => by
      have h1 := huniq (t :: p) s (by
        simp only [List.cons_append]
        rw [hps])
      simpa using h1)
    rw [List.cons_append, List.cons_append, replaceRunOnce, if_neg hncond, hrec]
    simp

/-- Aligned occurrences in an argument containing the run exactly once: any
raw occurrence of the pattern is *the* occurrence. -/
theorem occ_unique_aligned {u w : List Tok} {r₀ : List Nat} {c : Char} (hr : r₀ ≠ [])
    (hc : c = 'Y' ∨ c = 'X' ∨ c = '|')
    (hnd : (Ypos (u ++ r₀.map Tok.Y ++ w)).Nodup) :
    ∀ u' v', u' ++ (renderRun r₀ ++ [c]) ++ v' = rTs (u ++ r₀.map Tok.Y ++ w) ++ ['|'] →
      u' = rTs u ∧ c :: v' = rTs w ++ ['|'] := by
  intro u' v' h
  rcases occ_run hr hc h with ⟨ts₁, ts₂, hsplit, hu', htail⟩
  rcases run_split_unique hr (by rw [← hsplit]; exact hnd) hsplit.symm rfl with ⟨h1, h2⟩
  · constructor
    · rw [hu', h1]
    · rw [htail, h2]

/-- If the run's head position is absent from an argument, the pattern cannot
occur in its rendering at all. -/
theorem no_occ_of_posfree {arg : List Tok} {r₀ : List Nat} {c : Char} (hr : r₀ ≠ [])
    (hc : c = 'Y' ∨ c = 'X' ∨ c = '|')
    (hfree : r₀.headD 0 ∉ Ypos arg) :
    ∀ u' v', u' ++ (renderRun r₀ ++ [c]) ++ v' ≠ rTs arg ++ ['|'] := by
  intro u' v' h
  rcases occ_run hr hc h with ⟨ts₁, ts₂, hsplit, -, -⟩
  rcases List.exists_cons_of_ne_nil hr with ⟨a, r', rfl⟩
  apply hfree
  rw [hsplit]
  simp only [List.headD_cons]
  rw [mem_Ypos_iff]
  simp

/-- The body of the `then` branch of the `j` loop: appending the end marker,
performing the three boundary-safe replaces, and dropping the marker turns the
rendered argument containing the run (exactly once) into the rendering of the
argument with the run replaced by the variable token. -/
theorem triple_replace {u w : List Tok} {r₀ : List Nat} {cnt : Nat}
    (hr : r₀ ≠ [])
    (hnd : (Ypos (u ++ r₀.map Tok.Y ++ w)).Nodup) :
    (strReplace (renderRun r₀ ++ ['|']) (xVar cnt ++ ['|'])
      (strReplace (renderRun r₀ ++ ['X']) (xVar cnt ++ ['X'])
        (strReplace (renderRun r₀ ++ ['Y']) (xVar cnt ++ ['Y'])
          (rTs (u ++ r₀.map Tok.Y ++ w) ++ ['|'])))).dropLast =
      rTs (u ++ Tok.X cnt :: w) := by
  have hpatY : renderRun r₀ ++ ['Y'] ≠ [] := by simp
  have hpatX : renderRun r₀ ++ ['X'] ≠ [] := by simp
  have hpatP : renderRun r₀ ++ ['|'] ≠ [] := by simp
  rcases List.exists_cons_of_ne_nil hr with ⟨a, r', hr₀⟩
  have hnd' : (Ypos u ++ (r₀ ++ Ypos w)).Nodup := by
    rw [Ypos_append, Ypos_append, Ypos_mapY, List.append_assoc] at hnd
    exact hnd
  have hamem : a ∈ r₀ := by rw [hr₀]; simp
  have hafree : a ∉ Ypos u ∧ a ∉ Ypos w := by
    rw [List.nodup_append] at hnd'
    refine ⟨fun hu => hnd'.2.2 hu (List.mem_append_left _ hamem), ?_⟩
    have h2 := hnd'.2.1
    rw [List.nodup_append] at h2
    exact fun hw => h2.2.2 hamem hw
  have hfree : r₀.headD 0 ∉ Ypos (u ++ Tok.X cnt :: w) := by
    rw [hr₀, List.headD_cons, Ypos_append, Ypos_cons_X, List.mem_append]
    rintro (h | h)
    · exact hafree.1 h
    · exact hafree.2 h
  cases w with
  | nil =>
    -- the run sits at the very end of the argument: only the `|` replace fires
    have hs0 : rTs (u ++ r₀.map Tok.Y ++ []) ++ ['|'] =
        rTs u ++ (renderRun r₀ ++ ['|']) ++ [] := by
      rw [rTs_append, rTs_append, renderRun]
      simp [rTs_nil]
    have hY : strReplace (renderRun r₀ ++ ['Y']) (xVar cnt ++ ['Y'])
        (rTs (u ++ r₀.map Tok.Y ++ []) ++ ['|']) =
        rTs (u ++ r₀.map Tok.Y ++ []) ++ ['|'] := by
      apply strReplace_of_not_occ
      intro u' v' h
      have h2 := (occ_unique_aligned hr (by decide) hnd u' v' h).2
      rw [rTs_nil, List.nil_append] at h2
      exact absurd (List.cons.inj h2).1 (by decide)
    have hX : strReplace (renderRun r₀ ++ ['X']) (xVar cnt ++ ['X'])
        (rTs (u ++ r₀.map Tok.Y ++ []) ++ ['|']) =
        rTs (u ++ r₀.map Tok.Y ++ []) ++ ['|'] := by
      apply strReplace_of_not_occ
      intro u' v' h
      have h2 := (occ_unique_aligned hr (by decide) hnd u' v' h).2
      rw [rTs_nil, List.nil_append] at h2
      exact absurd (List.cons.inj h2).1 (by decide)
    rw [hY, hX, hs0]
    rw [strReplace_unique hpatP (fun u' v' huv => by
      exact (occ_unique_aligned (c := '|') hr (by decide) hnd u' v' (by rw [huv, hs0])).1)]
    simp only [List.append_nil]
    rw [← List.append_assoc, List.dropLast_concat, rTs_append]
    simp [rTs_cons, rTs_nil, xVar]
  | cons t w' =>
    cases t with
    | Y q =>
      -- the run is followed by a position token: the `Y` replace fires
      have hs0 : rTs (u ++ r₀.map Tok.Y ++ (Tok.Y q :: w')) ++ ['|'] =
          rTs u ++ (renderRun r₀ ++ ['Y']) ++ ('_' :: decRepr q ++ (rTs w' ++ ['|'])) := by
        rw [rTs_append, rTs_append, rTs_cons, renderRun]
        simp [rT, headCh, num]
      rw [hs0]
      rw [strReplace_unique hpatY (fun u' v' huv => by
        exact (occ_unique_aligned (c := 'Y') hr (by decide) hnd u' v' (by rw [huv, hs0])).1)]
      have hs1 : rTs u ++ (xVar cnt ++ ['Y']) ++ ('_' :: decRepr q ++ (rTs w' ++ ['|'])) =
          rTs (u ++ Tok.X cnt :: Tok.Y q :: w') ++ ['|'] := by
        rw [rTs_append, rTs_cons, rTs_cons]
        simp [xVar, rT, headCh, num]
      rw [hs1]
      have hX : strReplace (renderRun r₀ ++ ['X']) (xVar cnt ++ ['X'])
          (rTs (u ++ Tok.X cnt :: Tok.Y q :: w') ++ ['|']) =
          rTs (u ++ Tok.X cnt :: Tok.Y q :: w') ++ ['|'] :=
        strReplace_of_not_occ (fun u' v' h =>
          no_occ_of_posfree hr (by decide) hfree u' v' h)
      have hP : strReplace (renderRun r₀ ++ ['|']) (xVar cnt ++ ['|'])
          (rTs (u ++ Tok.X cnt :: Tok.Y q :: w') ++ ['|']) =
          rTs (u ++ Tok.X cnt :: Tok.Y q :: w') ++ ['|'] :=
        strReplace_of_not_occ (fun u' v' h =>
          no_occ_of_posfree hr (by decide) hfree u' v' h)
      rw [hX, hP, List.dropLast_concat]
    | X m =>
      -- the run is followed by a variable token: the `X` replace fires
      have hs0 : rTs (u ++ r₀.map Tok.Y ++ (Tok.X m :: w')) ++ ['|'] =
          rTs u ++ (renderRun r₀ ++ ['X']) ++ ('_' :: decRepr m ++ (rTs w' ++ ['|'])) := by
        rw [rTs_append, rTs_append, rTs_cons, renderRun]
        simp [rT, headCh, num]
      have hY : strReplace (renderRun r₀ ++ ['Y']) (xVar cnt ++ ['Y'])
          (rTs (u ++ r₀.map Tok.Y ++ (Tok.X m :: w')) ++ ['|']) =
          rTs (u ++ r₀.map Tok.Y ++ (Tok.X m :: w')) ++ ['|'] := by
        apply strReplace_of_not_occ
        intro u' v' h
        have h2 := (occ_unique_aligned hr (by decide) hnd u' v' h).2
        rw [rTs_cons] at h2
        have h3 : ('Y' : Char) = 'X' := by
          simpa [rT, headCh] using congrArg (fun l => l.headD ' ') h2
        exact absurd h3 (by decide)
      rw [hY, hs0]
      rw [strReplace_unique hpatX (fun u' v' huv => by
        exact (occ_unique_aligned (c := 'X') hr (by decide) hnd u' v' (by rw [huv, hs0])).1)]
      have hs1 : rTs u ++ (xVar cnt ++ ['X']) ++ ('_' :: decRepr m ++ (rTs w' ++ ['|'])) =
          rTs (u ++ Tok.X cnt :: Tok.X m :: w') ++ ['|'] := by
        rw [rTs_append, rTs_cons, rTs_cons]
        simp [xVar, rT, headCh, num]
      rw [hs1]
      have hP : strReplace (renderRun r₀ ++ ['|']) (xVar cnt ++ ['|'])
          (rTs (u ++ Tok.X cnt :: Tok.X m :: w') ++ ['|']) =
          rTs (u ++ Tok.X cnt :: Tok.X m :: w') ++ ['|'] :=
        strReplace_of_not_occ (fun u' v' h =>
          no_occ_of_posfree hr (by decide) hfree u' v' h)
      rw [hP, List.dropLast_concat]

/-! ## Behaviour of the `j` loop -/

/-- The raw substring test cannot fire on an argument all of whose positions
are smaller than the run's first position (textual prefixes like `Y_1` in
`Y_10` would require a larger position, not a smaller one). -/
theorem strIn_false_of_lt {arg : List Tok} {r₀ : List Nat} (hr : r₀ ≠ [])
    (hlt : ∀ q ∈ Ypos arg, q < r₀.headD 0) :
    strIn (renderRun r₀) (rTs arg) = false := by
  rcases List.exists_cons_of_ne_nil hr with ⟨a, r', rfl⟩
  by_contra hcon
  rw [Bool.not_eq_false] at hcon
  rcases (strIn_iff _ _).mp hcon with ⟨u, v, huv⟩
  have hsingle : strIn (rT (Tok.Y a)) (rTs arg) = true := by
    rw [strIn_iff]
    refine ⟨u, rTs (r'.map Tok.Y) ++ v, ?_⟩
    rw [← huv, renderRun, List.map_cons, rTs_cons]
    simp
  rcases strIn_tok_bound hsingle with ⟨t, htmem, hthd, htle⟩
  cases t with
  | Y q =>
    have hq : q ∈ Ypos arg := mem_Ypos_iff.mpr htmem
    have := hlt q hq
    simp only [List.headD_cons] at this
    simp only [num] at htle
    omega
  | X m => simp [headCh] at hthd

/-- The raw substring test cannot find a fresh variable in an argument whose
variable indices are all older. -/
theorem strIn_xvar_false {arg : List Tok} {c : Nat}
    (hX : ∀ v ∈ Xidx arg, v < c) :
    strIn (xVar c) (rTs arg) = false := by
  by_contra hcon
  rw [Bool.not_eq_false] at hcon
  have hcon2 : strIn (rT (Tok.X c)) (rTs arg) = true := hcon
  rcases strIn_tok_bound hcon2 with ⟨t, htmem, hthd, htle⟩
  cases t with
  | Y q => simp [headCh] at hthd
  | X m =>
    have hm : m ∈ Xidx arg := mem_Xidx_iff.mpr htmem
    have := hX m hm
    simp only [num] at htle
    omega

/-- A token-level occurrence renders to a raw substring occurrence. -/
theorem strIn_rTs_of_token {arg m : List Tok}
    (h : strIn m arg = true) : strIn (rTs m) (rTs arg) = true := by
  rcases (strIn_iff _ _).mp h with ⟨u, v, huv⟩
  rw [strIn_iff]
  exact ⟨rTs u, rTs v, by rw [← huv, rTs_append, rTs_append]⟩

/-- Conversely, no raw substring occurrence means no token-level occurrence. -/
theorem strIn_token_of_rTs_false {arg m : List Tok}
    (h : strIn (rTs m) (rTs arg) = false) : strIn m arg = false := by
  by_contra hcon
  rw [Bool.not_eq_false] at hcon
  rw [strIn_rTs_of_token hcon] at h
  exact Bool.true_eq_false.mp h

/-- When no remaining argument passes the substring test, the `j` loop is the
identity. -/
theorem jloop_noop (lhsArgs : List PyStr) (a : PyStr) (count j : Nat)
    (h : ∀ k, j ≤ k → k < lhsArgs.length → strIn a (lhsArgs.getD k []) = false) :
    jloop lhsArgs a count j = (lhsArgs, a, count) := by
  rw [jloop]
  by_cases hj : j < lhsArgs.length
  · rw [dif_pos hj, if_neg (by rw [h j le_rfl hj]; simp)]
    exact jloop_noop lhsArgs a count (j + 1) (fun k hk hk2 => h k (by omega) hk2)
  · rw [dif_neg hj]
termination_by lhsArgs.length - j

/-- Index helpers for lists split around one element. -/
theorem getD_append_cons {β : Type} (A : List β) (b : β) (C : List β) (d : β) :
    (A ++ b :: C).getD A.length d = b := by
  induction A with
  | nil => rfl
  | cons x A ih => simpa using ih

theorem set_append_cons {β : Type} (A : List β) (b x : β) (C : List β) :
    (A ++ b :: C).set A.length x = A ++ x :: C := by
  induction A with
  | nil => rfl
  | cons y A ih => simp [ih]

theorem getD_map_rTs (l : List (List Tok)) (i : Nat) (h : i < l.length) :
    (l.map rTs).getD i [] = rTs (l.getD i []) := by
  rw [List.getD_eq_getElem _ _ (by simpa using h), List.getD_eq_getElem _ _ h,
    List.getElem_map]

theorem getD_append_cons_gt {β : Type} (A : List β) (b : β) (C : List β) (d : β)
    (k : Nat) (hk : A.length + 1 ≤ k) :
    (A ++ b :: C).getD k d = C.getD (k - A.length - 1) d := by
  induction A generalizing k with
  | nil =>
    simp only [List.length_nil, List.nil_append] at hk ⊢
    cases k with
    | zero => omega
    | succ k' => simp
  | cons x A ih =>
    simp only [List.length_cons, List.cons_append] at hk ⊢
    cases k with
    | zero => omega
    | succ k' =>
      rw [List.getD_cons_succ, ih k' (by omega)]
      congr 1
      omega

/-- One full processing step of the `j` loop for one right-hand-side argument
(one run): it performs exactly the structural substitution in the first
argument containing the run, renames the right-hand-side argument to the
fresh variable, and advances the counter — once. -/
theorem jloop_sim (r₀ : List Nat) (cnt : Nat) :
    ∀ (suf pre : List (List Tok)),
      r₀ ≠ [] →
      (((pre ++ suf).map Ypos).flatten).Pairwise (· < ·) →
      (∀ v ∈ ((pre ++ suf).map Xidx).flatten, v < cnt) →
      (∃ arg ∈ suf, strIn (r₀.map Tok.Y) arg = true) →
      jloop ((pre ++ suf).map rTs) (renderRun r₀) cnt pre.length =
        ((pre ++ tokSubst (r₀.map Tok.Y) (Tok.X cnt) suf).map rTs, xVar cnt, cnt + 1) := by
  intro suf
  induction suf with
  | nil =>
    intro pre hr hasc hX hinf
    simp at hinf
  | cons arg suf' ih =>
    intro pre hr hasc hX hinf
    have hlen : pre.length < ((pre ++ arg :: suf').map rTs).length := by
      simp
    have hmap : (pre ++ arg :: suf').map rTs = pre.map rTs ++ rTs arg :: suf'.map rTs := by
      simp
    have hgetD : ((pre ++ arg :: suf').map rTs).getD pre.length [] = rTs arg := by
      rw [hmap, show pre.length = (pre.map rTs).length from by simp, getD_append_cons]
    rw [jloop, dif_pos hlen, hgetD]
    by_cases htok : strIn (r₀.map Tok.Y) arg = true
    · -- the run lives in this argument: the substitution fires here
      rcases (strIn_iff _ _).mp htok with ⟨u, w, hsplit⟩
      have hchar : strIn (renderRun r₀) (rTs arg) = true := strIn_rTs_of_token htok
      rw [if_pos hchar]
      have hYmem : Ypos arg ∈ (pre ++ arg :: suf').map Ypos := by
        simp
      have hflatnd : (((pre ++ arg :: suf').map Ypos).flatten).Nodup :=
        hasc.imp (fun hlt => Nat.ne_of_lt hlt)
      have hargnd : (Ypos arg).Nodup :=
        hflatnd.sublist (List.sublist_flatten_of_mem hYmem)
      have hnd : (Ypos (u ++ r₀.map Tok.Y ++ w)).Nodup := by
        rw [hsplit]
        exact hargnd
      have htr : (strReplace (renderRun r₀ ++ ['|']) (xVar cnt ++ ['|'])
          (strReplace (renderRun r₀ ++ ['X']) (xVar cnt ++ ['X'])
            (strReplace (renderRun r₀ ++ ['Y']) (xVar cnt ++ ['Y'])
              (rTs (u ++ r₀.map Tok.Y ++ w) ++ ['|'])))).dropLast =
          rTs (u ++ Tok.X cnt :: w) := triple_replace hr hnd
      have hbody : (strReplace (renderRun r₀ ++ ['|']) (xVar cnt ++ ['|'])
          (strReplace (renderRun r₀ ++ ['X']) (xVar cnt ++ ['X'])
            (strReplace (renderRun r₀ ++ ['Y']) (xVar cnt ++ ['Y'])
              (rTs arg ++ ['|'])))).dropLast = rTs (u ++ Tok.X cnt :: w) := by
        rw [hsplit] at htr
        exact htr
      have hset : ((pre ++ arg :: suf').map rTs).set pre.length (rTs (u ++ Tok.X cnt :: w)) =
          (pre ++ (u ++ Tok.X cnt :: w) :: suf').map rTs := by
        rw [hmap, show pre.length = (pre.map rTs).length from by simp, set_append_cons]
        simp
      have hrro : replaceRunOnce (r₀.map Tok.Y) (Tok.X cnt) arg = u ++ Tok.X cnt :: w := by
        rw [← hsplit]
        apply replaceRunOnce_unique (by simpa using hr)
        intro p s hps
        exact (run_split_unique hr hnd hps.symm rfl).1
      simp only []
      rw [hbody, hset]
      have hnoop : jloop ((pre ++ (u ++ Tok.X cnt :: w) :: suf').map rTs) (xVar cnt)
          (cnt + 1) (pre.length + 1) =
          ((pre ++ (u ++ Tok.X cnt :: w) :: suf').map rTs, xVar cnt, cnt + 1) := by
        apply jloop_noop
        intro k hk hk2
        have hk3 : k - pre.length - 1 < suf'.length := by
          simp at hk2
          omega
        have hgd : ((pre ++ (u ++ Tok.X cnt :: w) :: suf').map rTs).getD k [] =
            rTs (suf'.getD (k - pre.length - 1) []) := by
          rw [show (pre ++ (u ++ Tok.X cnt :: w) :: suf').map rTs =
              pre.map rTs ++ rTs (u ++ Tok.X cnt :: w) :: suf'.map rTs from by simp]
          rw [getD_append_cons_gt _ _ _ _ k (by simp; omega)]
          rw [show (pre.map rTs).length = pre.length from by simp]
          exact getD_map_rTs suf' (k - pre.length - 1) hk3
        rw [hgd]
        apply strIn_xvar_false
        intro v hv
        have hmem : suf'.getD (k - pre.length - 1) [] ∈ suf' := by
          rw [List.getD_eq_getElem _ _ hk3]
          exact List.getElem_mem hk3
        have hmemX : Xidx (suf'.getD (k - pre.length - 1) []) ∈
            (pre ++ arg :: suf').map Xidx :=
          List.mem_map_of_mem Xidx (List.mem_append_right _ (List.mem_cons_of_mem _ hmem))
        have hvflat : v ∈ ((pre ++ arg :: suf').map Xidx).flatten :=
          List.mem_flatten.mpr ⟨_, hmemX, hv⟩
        exact Nat.lt_of_lt_of_le (hX v hvflat) (by omega)
      rw [hnoop]
      rw [tokSubst, if_pos htok, hrro]
    · -- the run lives further right: this argument is skipped
      have htokf : strIn (r₀.map Tok.Y) arg = false := by
        rw [← Bool.not_eq_true]
        exact htok
      rcases hinf with ⟨argS, hargS, htokS⟩
      have hargS' : argS ∈ suf' := by
        rcases List.mem_cons.mp hargS with rfl | h
        · exact absurd htokS htok
        · exact h
      rcases (strIn_iff _ _).mp htokS with ⟨uS, wS, hsplitS⟩
      rcases List.exists_cons_of_ne_nil hr with ⟨a, r', hr₀⟩
      have hamem : a ∈ Ypos argS := by
        rw [← hsplitS, Ypos_append, Ypos_append, Ypos_mapY, hr₀]
        simp
      have hchar : strIn (renderRun r₀) (rTs arg) = false := by
        apply strIn_false_of_lt hr
        intro q hq
        rw [hr₀, List.headD_cons]
        -- `q` sits in this argument, `a` in a later one: use global sortedness
        have hq' : q ∈ Ypos arg := hq
        have hsplit2 : ((pre ++ arg :: suf').map Ypos).flatten =
            ((pre.map Ypos).flatten ++ Ypos arg) ++ (suf'.map Ypos).flatten := by
          simp
        rw [hsplit2] at hasc
        rcases List.pairwise_append.mp hasc with ⟨-, -, hcross⟩
        exact hcross q (List.mem_append_right _ hq') a
          (List.mem_flatten.mpr ⟨Ypos argS, List.mem_map_of_mem Ypos hargS', hamem⟩)
      rw [if_neg (by rw [hchar]; simp)]
      have hpre1 : pre.length + 1 = (pre ++ [arg]).length := by simp
      have hassoc : pre ++ arg :: suf' = (pre ++ [arg]) ++ suf' := by simp
      rw [hpre1, show (pre ++ arg :: suf').map rTs = ((pre ++ [arg]) ++ suf').map rTs from by
        rw [← hassoc]]
      rw [ih (pre ++ [arg]) hr (by rw [← hassoc]; exact hasc)
        (by rw [← hassoc]; exact hX) ⟨argS, hargS', htokS⟩]
      rw [tokSubst, if_neg (by rw [htokf]; simp)]
      simp

/-! ## The contraction invariant -/

/-- Invariant carried while the contraction processes the remaining runs
`runs` against the token-level left-hand-side arguments `targs` with the next
fresh variable index `cnt`. -/
structure ContractInv (targs : List (List Tok)) (cnt : Nat) (runs : List (List Nat)) : Prop where
  asc : (((targs.map Ypos).flatten)).Pairwise (· < ·)
  xlt : ∀ v ∈ (targs.map Xidx).flatten, v < cnt
  rne : ∀ r ∈ runs, r ≠ []
  rinf : ∀ r ∈ runs, ∃ arg ∈ targs, strIn (r.map Tok.Y) arg = true
  rnd : (runs.flatten).Nodup
  total : ((targs.map Ypos).flatten).length = (runs.flatten).length

theorem flatten_map_split (f : List Tok → List Nat) (P : List (List Tok)) (arg : List Tok)
    (S : List (List Tok)) :
    ((P ++ arg :: S).map f).flatten = (P.map f).flatten ++ (f arg ++ (S.map f).flatten) := by
  simp

/-- `tokSubst` rewrites exactly the first argument containing the run. -/
theorem tokSubst_shape {run : List Tok} {v : Tok} :
    ∀ {targs : List (List Tok)}, (∃ arg ∈ targs, strIn run arg = true) →
      ∃ P arg S, targs = P ++ arg :: S ∧ strIn run arg = true ∧
        tokSubst run v targs = P ++ replaceRunOnce run v arg :: S := by
  intro targs
  induction targs with
  | nil => intro h; simp at h
  | cons b rest ih =>
    intro h
    by_cases hb : strIn run b = true
    · exact ⟨[], b, rest, rfl, hb, by rw [tokSubst, if_pos hb]; rfl⟩
    · have h' : ∃ arg ∈ rest, strIn run arg = true := by
        rcases h with ⟨arg, harg, htrue⟩
        rcases List.mem_cons.mp harg with rfl | hmem
        · exact absurd htrue hb
        · exact ⟨arg, hmem, htrue⟩
      rcases ih h' with ⟨P, arg, S, hsp, htrue, hsub⟩
      exact ⟨b :: P, arg, S, by rw [hsp]; rfl, htrue,
        by rw [tokSubst, if_neg hb, hsub]; rfl⟩

/-- Processing one run: the `j` loop performs the structural substitution and
the invariant survives for the remaining runs. -/
theorem contract_step {targs : List (List Tok)} {cnt : Nat} {r : List Nat}
    {rs : List (List Nat)} (hInv : ContractInv targs cnt (r :: rs)) :
    jloop (targs.map rTs) (renderRun r) cnt 0 =
      ((tokSubst (r.map Tok.Y) (Tok.X cnt) targs).map rTs, xVar cnt, cnt + 1) ∧
    ContractInv (tokSubst (r.map Tok.Y) (Tok.X cnt) targs) (cnt + 1) rs := by
  have hr : r ≠ [] := hInv.rne r (by simp)
  have hinf : ∃ arg ∈ targs, strIn (r.map Tok.Y) arg = true := hInv.rinf r (by simp)
  rcases tokSubst_shape (v := Tok.X cnt) hinf with ⟨P, arg, S, hsp, htrue, hsub⟩
  rcases (strIn_iff _ _).mp htrue with ⟨u, w, hsplit⟩
  have hflatnd : ((targs.map Ypos).flatten).Nodup :=
    hInv.asc.imp (fun hlt => Nat.ne_of_lt hlt)
  have hargnd : (Ypos arg).Nodup :=
    hflatnd.sublist (List.sublist_flatten_of_mem (by rw [hsp]; simp))
  have hrro : replaceRunOnce (r.map Tok.Y) (Tok.X cnt) arg = u ++ Tok.X cnt :: w := by
    rw [← hsplit]
    apply replaceRunOnce_unique (by simpa using hr)
    intro p s hps
    exact (run_split_unique hr (by rw [hsplit]; exact hargnd) hps.symm rfl).1
  have hres : tokSubst (r.map Tok.Y) (Tok.X cnt) targs = P ++ (u ++ Tok.X cnt :: w) :: S := by
    rw [hsub, hrro]
  constructor
  · have := jloop_sim r cnt targs [] hr
      (by simpa using hInv.asc) (by simpa using hInv.xlt) hinf
    simpa using this
  · -- invariant preservation
    have hYold : (targs.map Ypos).flatten =
        (P.map Ypos).flatten ++ ((Ypos u ++ (r ++ Ypos w)) ++ (S.map Ypos).flatten) := by
      rw [hsp, flatten_map_split]
      rw [← hsplit, Ypos_append, Ypos_append, Ypos_mapY]
      simp
    have hYnew : ((tokSubst (r.map Tok.Y) (Tok.X cnt) targs).map Ypos).flatten =
        (P.map Ypos).flatten ++ ((Ypos u ++ Ypos w) ++ (S.map Ypos).flatten) := by
      rw [hres, flatten_map_split, Ypos_append, Ypos_cons_X]
    have hsubl : List.Sublist
        (((tokSubst (r.map Tok.Y) (Tok.X cnt) targs).map Ypos).flatten)
        ((targs.map Ypos).flatten) := by
      rw [hYold, hYnew]
      refine List.Sublist.append (List.Sublist.refl _) ?_
      refine List.Sublist.append ?_ (List.Sublist.refl _)
      refine List.Sublist.append (List.Sublist.refl _) ?_
      exact List.sublist_append_right _ _
    have hrndtail : (rs.flatten).Nodup := by
      have := hInv.rnd
      rw [List.flatten_cons] at this
      exact this.sublist (List.sublist_append_right _ _)
    refine ⟨hInv.asc.sublist hsubl, ?_, fun r' hr' => hInv.rne r' (by simp [hr']), ?_, hrndtail, ?_⟩
    · -- variable indices stay below the advanced counter
      intro v hv
      have hXnew : ((tokSubst (r.map Tok.Y) (Tok.X cnt) targs).map Xidx).flatten =
          (P.map Xidx).flatten ++ ((Xidx u ++ cnt :: Xidx w) ++ (S.map Xidx).flatten) := by
        rw [hres, flatten_map_split, Xidx_append, Xidx_cons_X]
      have hXold : (targs.map Xidx).flatten =
          (P.map Xidx).flatten ++ ((Xidx u ++ Xidx w) ++ (S.map Xidx).flatten) := by
        rw [hsp, flatten_map_split]
        rw [← hsplit, Xidx_append, Xidx_append, Xidx_mapY]
        simp
      rw [hXnew] at hv
      simp only [List.mem_append, List.mem_cons] at hv
      rcases hv with hv | ⟨hv | hv | hv⟩ | hv
      · exact Nat.lt_succ_of_lt (hInv.xlt v (by rw [hXold]; simp [hv]))
      · exact Nat.lt_succ_of_lt (hInv.xlt v (by rw [hXold]; simp [hv]))
      · omega
      · exact Nat.lt_succ_of_lt (hInv.xlt v (by rw [hXold]; simp [hv]))
      · exact Nat.lt_succ_of_lt (hInv.xlt v (by rw [hXold]; simp [hv]))
    · -- every remaining run still occurs in some argument
      intro r' hr'
      rcases hInv.rinf r' (by simp [hr']) with ⟨arg', harg', htrue'⟩
      have hr'ne : r' ≠ [] := hInv.rne r' (by simp [hr'])
      rw [hsp] at harg'
      rcases List.mem_append.mp harg' with hP | hconsS
      · exact ⟨arg', by rw [hres]; exact List.mem_append_left _ hP, htrue'⟩
      rcases List.mem_cons.mp hconsS with rfl | hS
      swap
      · exact ⟨arg', by rw [hres]; exact List.mem_append_right _ (List.mem_cons_of_mem _ hS),
          htrue'⟩
      · -- the run of `r'` sits in the substituted argument; it survives because
        -- it cannot overlap the removed run
        rcases (strIn_iff _ _).mp htrue' with ⟨p', s', hsplit'⟩
        have hdisj : ∀ x, x ∈ r'.map Tok.Y → x ∈ r.map Tok.Y → False := by
          intro x hx1 hx2
          rcases List.mem_map.mp hx1 with ⟨q1, hq1, rfl⟩
          rcases List.mem_map.mp hx2 with ⟨q2, hq2, hxeq⟩
          have hq12 : q2 = q1 := by
            injection hxeq
          subst hq12
          have := hInv.rnd
          rw [List.flatten_cons, List.nodup_append] at this
          exact this.2.2 hq2 (List.mem_flatten.mpr ⟨r', hr', hq1⟩)
        have hblocks := block_disjoint (l := arg') (by rw [← hsplit']) (by rw [← hsplit])
          (by simpa using hr'ne) (by simpa using hr) hdisj
        rcases hblocks with ⟨z₁, z₂, hz⟩ | ⟨z₁, z₂, hz⟩
        · refine ⟨u ++ Tok.X cnt :: w, by rw [hres]; simp, ?_⟩
          rw [strIn_iff]
          exact ⟨z₁, z₂ ++ Tok.X cnt :: w, by rw [hz]; simp⟩
        · refine ⟨u ++ Tok.X cnt :: w, by rw [hres]; simp, ?_⟩
          rw [strIn_iff]
          exact ⟨u ++ Tok.X cnt :: z₁, z₂, by rw [hz]; simp⟩
    · -- total position count drops by exactly the removed run
      have h1 := hInv.total
      rw [hYold] at h1
      rw [hYnew]
      rw [List.flatten_cons] at h1
      simp only [List.length_append] at h1 ⊢
      simp at h1 ⊢
      omega

/-- Folding `tokSubst` over a list of runs with increasing variable indices:
the structural description of the whole contraction pass. -/
def specSubAll (targs : List (List Tok)) (cnt : Nat) : List (List Nat) → List (List Tok)
  | [] => targs
  | r :: rs => specSubAll (tokSubst (r.map Tok.Y) (Tok.X cnt) targs) (cnt + 1) rs

theorem specSubAll_append (rs₁ : List (List Nat)) :
    ∀ (targs : List (List Tok)) (cnt : Nat) (rs₂ : List (List Nat)),
      specSubAll targs cnt (rs₁ ++ rs₂) =
        specSubAll (specSubAll targs cnt rs₁) (cnt + rs₁.length) rs₂ := by
  induction rs₁ with
  | nil => intro targs cnt rs₂; simp [specSubAll]
  | cons r rs ih =>
    intro targs cnt rs₂
    rw [List.cons_append, specSubAll, specSubAll, ih]
    congr 1
    simp
    omega

/-- The `i` loop processes its runs left to right: it performs the structural
substitutions, renames each right-hand-side argument to a fresh variable in
counter order, and preserves the invariant for whatever runs remain. -/
theorem iloop_sim :
    ∀ (runs rest : List (List Nat)) (targs : List (List Tok)) (cnt : Nat) (pre : List PyStr),
      ContractInv targs cnt (runs ++ rest) →
      iloop (targs.map rTs) (pre ++ runs.map renderRun) cnt pre.length =
        ((specSubAll targs cnt runs).map rTs,
          pre ++ (List.range' cnt runs.length).map xVar,
          cnt + runs.length) ∧
      ContractInv (specSubAll targs cnt runs) (cnt + runs.length) rest := by
  intro runs
  induction runs with
  | nil =>
    intro rest targs cnt pre hInv
    constructor
    · rw [iloop, dif_neg (by simp)]
      simp [specSubAll]
    · simpa [specSubAll] using hInv
  | cons r rs ih =>
    intro rest targs cnt pre hInv
    have hInv' : ContractInv targs cnt (r :: (rs ++ rest)) := hInv
    have hstep := contract_step hInv'
    have hlen2 : pre.length < (pre ++ (r :: rs).map renderRun).length := by simp
    have hget : (pre ++ (r :: rs).map renderRun).getD pre.length [] = renderRun r := by
      rw [List.map_cons, getD_append_cons]
    have hset : (pre ++ (r :: rs).map renderRun).set pre.length (xVar cnt) =
        pre ++ xVar cnt :: rs.map renderRun := by
      rw [List.map_cons, set_append_cons]
    have hpre1 : pre.length + 1 = (pre ++ [xVar cnt]).length := by simp
    have hpre2 : pre ++ xVar cnt :: rs.map renderRun =
        (pre ++ [xVar cnt]) ++ rs.map renderRun := by simp
    have hihres := ih rest (tokSubst (r.map Tok.Y) (Tok.X cnt) targs) (cnt + 1)
      (pre ++ [xVar cnt]) hstep.2
    constructor
    · rw [iloop, dif_pos hlen2, hget]
      simp only []
      rw [hstep.1, hset, hpre1, hpre2, hihres.1]
      refine congrArg₂ Prod.mk rfl (congrArg₂ Prod.mk ?_ ?_)
      · rw [List.length_cons, List.range', List.map_cons]
        simp
      · simp
        omega
    · have h2 := hihres.2
      rw [show specSubAll targs cnt (r :: rs) =
          specSubAll (tokSubst (r.map Tok.Y) (Tok.X cnt) targs) (cnt + 1) rs from rfl]
      rw [show cnt + (r :: rs).length = cnt + 1 + rs.length from by simp; omega]
      exact h2

/-- The expected right-hand-side predicates after contraction: each predicate
keeps its name and its arguments become consecutive fresh variables. -/
def specPredList (cnt : Nat) : List (PyStr × List (List Nat)) → List Predicate
  | [] => []
  | q :: qs =>
    ⟨q.1, (List.range' cnt q.2.length).map xVar⟩ :: specPredList (cnt + q.2.length) qs

/-- The outer predicate loop: the whole contraction is the iterated structural
substitution over all runs of all daughters, every right-hand-side argument
ends up being exactly one fresh variable, and the fresh variables are numbered
consecutively from zero in processing order. -/
theorem predloop_sim :
    ∀ (ps : List (PyStr × List (List Nat))) (targs : List (List Tok)) (cnt : Nat),
      ContractInv targs cnt ((ps.map Prod.snd).flatten) →
      predloop (targs.map rTs) cnt (ps.map (fun q => ⟨q.1, q.2.map renderRun⟩)) =
        ((specSubAll targs cnt ((ps.map Prod.snd).flatten)).map rTs,
          specPredList cnt ps,
          cnt + ((ps.map Prod.snd).flatten).length) := by
  intro ps
  induction ps with
  | nil =>
    intro targs cnt hInv
    simp [predloop, specSubAll, specPredList]
  | cons q qs ih =>
    intro targs cnt hInv
    have hInv' : ContractInv targs cnt (q.2 ++ (qs.map Prod.snd).flatten) := by
      simpa using hInv
    have hil := iloop_sim q.2 ((qs.map Prod.snd).flatten) targs cnt [] hInv'
    have hil1 : iloop (targs.map rTs) (q.2.map renderRun) cnt 0 =
        ((specSubAll targs cnt q.2).map rTs,
          (List.range' cnt q.2.length).map xVar, cnt + q.2.length) := by
      have := hil.1
      simpa using this
    rw [List.map_cons, predloop]
    simp only []
    rw [hil1]
    rw [ih (specSubAll targs cnt q.2) (cnt + q.2.length) hil.2]
    refine congrArg₂ Prod.mk ?_ (congrArg₂ Prod.mk ?_ ?_)
    · rw [show ((q :: qs).map Prod.snd).flatten = q.2 ++ (qs.map Prod.snd).flatten from by simp]
      rw [specSubAll_append]
    · rw [specPredList]
    · rw [show ((q :: qs).map Prod.snd).flatten = q.2 ++ (qs.map Prod.snd).flatten from by simp]
      simp
      omega

/-- An argument without position tokens consists of variable tokens only. -/
theorem Ypos_nil_allX : ∀ {arg : List Tok}, Ypos arg = [] →
    ∃ vs : List Nat, arg = vs.map Tok.X := by
  intro arg
  induction arg with
  | nil => exact fun _ => ⟨[], rfl⟩
  | cons t ts ih =>
    intro h
    cases t with
    | Y p => rw [Ypos_cons_Y] at h; exact absurd h (by simp)
    | X v =>
      rw [Ypos_cons_X] at h
      rcases ih h with ⟨vs, hvs⟩
      exact ⟨v :: vs, by rw [hvs]; rfl⟩

/-- After all runs are processed, no position token survives anywhere on the
left-hand side. -/
theorem specSubAll_final {targs : List (List Tok)} {cnt : Nat} {runs : List (List Nat)}
    (hInv : ContractInv targs cnt runs) :
    ∀ arg ∈ specSubAll targs cnt runs, ∃ vs : List Nat, arg = vs.map Tok.X := by
  induction runs generalizing targs cnt with
  | nil =>
    intro arg harg
    have h0 := hInv.total
    simp only [List.flatten_nil, List.length_nil] at h0
    have hflat : ((targs.map Ypos).flatten) = [] := List.eq_nil_of_length_eq_zero h0
    have hall := List.flatten_eq_nil_iff.mp hflat
    rw [specSubAll] at harg
    exact Ypos_nil_allX (hall _ (List.mem_map_of_mem Ypos harg))
  | cons r rs ih =>
    intro arg harg
    have hstep := contract_step hInv
    exact ih hstep.2 arg (by rw [specSubAll] at harg; exact harg)

/-! ## Consecutive runs inside a sorted list land inside one component -/

theorem sorted_adjacent_split {l : List Nat} (hl : l.Chain' (· < ·)) {x : Nat}
    (hx : x ∈ l) (hx1 : x + 1 ∈ l) :
    ∃ u v, l = u ++ x :: (x + 1) :: v := by
  induction l with
  | nil => simp at hx
  | cons y ys ih =>
    rcases List.mem_cons.mp hx with rfl | hxm
    · have hx1' : x + 1 ∈ ys := by
        rcases List.mem_cons.mp hx1 with h | h
        · omega
        · exact h
      cases ys with
      | nil => simp at hx1'
      | cons z zs =>
        have hxz : x < z := (List.chain'_cons.mp hl).1
        have hz : z = x + 1 := by
          rcases List.mem_cons.mp hx1' with h | h
          · omega
          · have hpw : (z :: zs).Pairwise (· < ·) :=
              List.chain'_iff_pairwise.mp (List.chain'_cons.mp hl).2
            have := (List.pairwise_cons.mp hpw).1 (x + 1) h
            omega
        exact ⟨[], zs, by rw [hz]; rfl⟩
    · have hx1' : x + 1 ∈ ys := by
        rcases List.mem_cons.mp hx1 with h | h
        · exfalso
          have hpw : (y :: ys).Pairwise (· < ·) := List.chain'_iff_pairwise.mp hl
          have := (List.pairwise_cons.mp hpw).1 x hxm
          omega
        · exact h
      rcases ih hl.tail hxm hx1' with ⟨u, v, huv⟩
      exact ⟨y :: u, v, by rw [huv]; rfl⟩

theorem flat_adj : ∀ (rs : List (List Nat)) (u v : List Nat) (x : Nat),
    (∀ c ∈ rs, c ≠ []) → rs.Chain' RunGap → rs.flatten = u ++ x :: (x + 1) :: v →
    ∃ c ∈ rs, ∃ w w', c = w ++ x :: (x + 1) :: w' := by
  intro rs
  induction rs with
  | nil =>
    intro u v x hne hch h
    rw [List.flatten_nil] at h
    exact absurd h.symm (by simp)
  | cons c cs ih =>
    intro u v x hne hch h
    rw [List.flatten_cons] at h
    rcases List.append_eq_append_iff.mp h with ⟨a', ha1, ha2⟩ | ⟨c', hc1, hc2⟩
    · -- the adjacent pair sits beyond `c`
      rcases ih a' v x (fun c hc => hne c (List.mem_cons_of_mem _ hc)) hch.tail ha2 with
        ⟨c₀, hc₀, w, w', hw⟩
      exact ⟨c₀, List.mem_cons_of_mem _ hc₀, w, w', hw⟩
    · cases c' with
      | nil =>
        rcases ih [] v x (fun c hc => hne c (List.mem_cons_of_mem _ hc)) hch.tail
          (by simpa using hc2.symm) with ⟨c₀, hc₀, w, w', hw⟩
        exact ⟨c₀, List.mem_cons_of_mem _ hc₀, w, w', hw⟩
      | cons h1 t1 =>
        have hh1 : h1 = x := by
          simpa using (congrArg (fun s => s.headD 0) hc2).symm
        cases t1 with
        | nil =>
          -- boundary straddle: forbidden by the gap relation
          exfalso
          have hflat2 : cs.flatten = (x + 1) :: v := by
            rw [hh1] at hc2
            simpa using hc2.symm
          cases cs with
          | nil => simp at hflat2
          | cons c₂ cs' =>
            have hc₂ne : c₂ ≠ [] := hne c₂ (by simp)
            rcases List.exists_cons_of_ne_nil hc₂ne with ⟨h₂, t₂, hc₂⟩
            have hh₂ : h₂ = x + 1 := by
              rw [List.flatten_cons, hc₂] at hflat2
              simpa using congrArg (fun s => s.headD 0) hflat2
            have hrel := (List.chain'_cons.mp hch).1
            have hlast : c.getLast? = some x := by
              rw [hc1, hh1]
              exact List.getLast?_concat _
            have hhead : c₂.head? = some (x + 1) := by
              rw [hc₂, hh₂]
              rfl
            exact hrel x (x + 1) hlast hhead rfl
        | cons h2 t2 =>
          have hh2 : h2 = x + 1 := by
            have := congrArg (fun s => s.headD 0) (congrArg List.tail hc2)
            simpa using this.symm
          refine ⟨c, by simp, u, t2, ?_⟩
          rw [hc1, hh1, hh2]

theorem mem_unique_comp : ∀ {rs : List (List Nat)} {x : Nat} {c₁ c₂ : List Nat},
    (rs.flatten).Nodup → c₁ ∈ rs → c₂ ∈ rs → x ∈ c₁ → x ∈ c₂ → c₁ = c₂ := by
  intro rs
  induction rs with
  | nil =>
    intro x c₁ c₂ _ h
    simp at h
  | cons c cs ih =>
    intro x c₁ c₂ hnd h1 h2 hx1 hx2
    rw [List.flatten_cons, List.nodup_append] at hnd
    rcases List.mem_cons.mp h1 with h1e | h1m
    · rcases List.mem_cons.mp h2 with h2e | h2m
      · rw [h1e, h2e]
      · exact absurd (List.mem_flatten.mpr ⟨c₂, h2m, hx2⟩) (hnd.2.2 (h1e ▸ hx1))
    · rcases List.mem_cons.mp h2 with h2e | h2m
      · exact absurd (List.mem_flatten.mpr ⟨c₁, h1m, hx1⟩) (hnd.2.2 (h2e ▸ hx2))
      · exact ih hnd.2.1 h1m h2m hx1 hx2

/-- A non-empty consecutive run whose positions all lie in a sorted list is an
infix of one of its maximal contiguous runs. -/
theorem run_infix_comp {l : List Nat} (hl : l.Chain' (· < ·)) :
    ∀ {r : List Nat}, r ≠ [] → r.Chain' StepOne → (∀ x ∈ r, x ∈ l) →
      ∃ c ∈ specMaximalRuns l, ∃ w w', c = w ++ r ++ w' := by
  have hflat := specMaximalRuns_flatten l
  have hprops := specMaximalRuns_props l
  have hnd : l.Nodup := (List.chain'_iff_pairwise.mp hl).imp (fun h => Nat.ne_of_lt h)
  have hflatnd : ((specMaximalRuns l).flatten).Nodup := by
    rw [hflat]
    exact hnd
  intro r
  induction r using List.reverseRecOn with
  | nil => intro h; exact absurd rfl h
  | append_singleton r₀ y ih =>
    intro hne hchain hsub
    cases r₀ with
    | nil =>
      -- a singleton run
      have hy : y ∈ l := hsub y (by simp)
      rw [← hflat] at hy
      rcases List.mem_flatten.mp hy with ⟨c, hc, hyc⟩
      rcases List.append_of_mem hyc with ⟨t₁, t₂, hst⟩
      exact ⟨c, hc, t₁, t₂, by rw [hst]; simp⟩
    | cons a r₁ =>
      have hr₀ne : (a :: r₁) ≠ [] := by simp
      have hlasts : (a :: r₁).getLast? = some ((a :: r₁).getLast hr₀ne) :=
        List.getLast?_eq_getLast _ hr₀ne
      have hy : y = (a :: r₁).getLast hr₀ne + 1 := by
        have hch := List.chain'_append.mp hchain
        exact hch.2.2 _ (by rw [hlasts]; rfl) y (by simp)
      have hsplitg : a :: r₁ = (a :: r₁).dropLast ++ [(a :: r₁).getLast hr₀ne] :=
        (List.dropLast_append_getLast hr₀ne).symm
      have hchain₀ : (a :: r₁).Chain' StepOne := (List.chain'_append.mp hchain).1
      have hsub₀ : ∀ x ∈ a :: r₁, x ∈ l := fun x hx => hsub x (List.mem_append_left _ hx)
      rcases ih hr₀ne hchain₀ hsub₀ with ⟨c, hc, w, w', hw⟩
      have hgl : (a :: r₁).getLast hr₀ne ∈ l := hsub₀ _ (List.getLast_mem hr₀ne)
      have hyl : (a :: r₁).getLast hr₀ne + 1 ∈ l := by
        rw [← hy]
        exact hsub y (by simp)
      rcases sorted_adjacent_split hl hgl hyl with ⟨U, V, hUV⟩
      rcases flat_adj (specMaximalRuns l) U V ((a :: r₁).getLast hr₀ne)
        (fun c hc => (hprops.1 c hc).1) hprops.2 (by rw [hflat, hUV]) with
        ⟨c₂, hc₂, w₂, w₂', hw₂⟩
      have hgc : (a :: r₁).getLast hr₀ne ∈ c := by
        rw [hw]
        have h3 : (a :: r₁).getLast hr₀ne ∈ a :: r₁ := List.getLast_mem hr₀ne
        rcases List.mem_cons.mp h3 with h | h
        · simp [h]
        · simp [h]
      have hgc₂ : (a :: r₁).getLast hr₀ne ∈ c₂ := by
        rw [hw₂]
        simp
      have hceq : c = c₂ := mem_unique_comp hflatnd hc hc₂ hgc hgc₂
      have hcnd : c.Nodup := hflatnd.sublist (List.sublist_flatten_of_mem hc)
      have hcount : c.count ((a :: r₁).getLast hr₀ne) ≤ 1 :=
        List.nodup_iff_count_le_one.mp hcnd _
      have hdec1 : c = (w ++ (a :: r₁).dropLast) ++ (a :: r₁).getLast hr₀ne :: w' := by
        rw [hw]
        conv_lhs => rw [hsplitg]
        simp
      have hdec2 : c = w₂ ++ (a :: r₁).getLast hr₀ne ::
          (((a :: r₁).getLast hr₀ne + 1) :: w₂') := by
        rw [← hceq] at hw₂
        exact hw₂
      rcases split_unique_count hcount hdec1 hdec2 with ⟨hpeq, hseq⟩
      refine ⟨c, hc, w, w₂', ?_⟩
      rw [hdec1, hseq, ← hy]
      conv_rhs => rw [hsplitg]
      simp

/-! ## Internal-node rule construction: the top-level bridge -/

/-- The daughters of a node, resolved through the arena. -/
def daughtersOf (heap : List PNode) (node : PNode) : List PNode :=
  node.daughters.map (fun d => heap.getD d default)

/-- Each daughter's label paired with the maximal runs of its span, in
daughter order. -/
def psOf (heap : List PNode) (node : PNode) : List (PyStr × List (List Nat)) :=
  (daughtersOf heap node).map (fun d => (d.label, specMaximalRuns d.strID))

/-- All runs of all daughters, in the order the contraction processes them. -/
def runsOf (heap : List PNode) (node : PNode) : List (List Nat) :=
  ((psOf heap node).map Prod.snd).flatten

/-- The spec-worded contraction: starting from the tokenised components of
the node's own span, substitute each daughter run, in order, by a fresh
variable token. -/
def specContractLhs (heap : List PNode) (node : PNode) : List (List Tok) :=
  specSubAll ((specMaximalRuns node.strID).map (List.map Tok.Y)) 0 (runsOf heap node)

/-- The well-formed-tree invariant at one internal node, as established by
span propagation: the node's span and every daughter span is strictly
ascending, daughter spans are non-empty, and together the daughter spans are
a permutation of (exactly cover) the node's span. -/
abbrev SpanCover (heap : List PNode) (node : PNode) : Prop :=
  node.strID.Chain' (· < ·) ∧
  (∀ d ∈ daughtersOf heap node, d.strID.Chain' (· < ·) ∧ d.strID ≠ []) ∧
  (((daughtersOf heap node).map PNode.strID).flatten).Perm node.strID

theorem targs0_Ypos (l : List Nat) :
    (((specMaximalRuns l).map (List.map Tok.Y)).map Ypos).flatten = l := by
  rw [List.map_map]
  have h : ∀ r ∈ specMaximalRuns l, (Ypos ∘ List.map Tok.Y) r = id r :=
    fun r _ => Ypos_mapY r
  rw [List.map_congr_left h, List.map_id, specMaximalRuns_flatten]

theorem targs0_Xidx (l : List Nat) :
    (((specMaximalRuns l).map (List.map Tok.Y)).map Xidx).flatten = [] := by
  rw [List.map_map]
  have h : ∀ r ∈ specMaximalRuns l,
      (Xidx ∘ List.map Tok.Y) r = (fun _ => ([] : List Nat)) r :=
    fun r _ => Xidx_mapY r
  rw [List.map_congr_left h]
  simp

theorem mem_runsOf {heap : List PNode} {node : PNode} {r : List Nat} :
    r ∈ runsOf heap node ↔ ∃ d ∈ daughtersOf heap node, r ∈ specMaximalRuns d.strID := by
  rw [runsOf, psOf, List.map_map]
  constructor
  · intro h
    rcases List.mem_flatten.mp h with ⟨c, hc, hrc⟩
    rcases List.mem_map.mp hc with ⟨d, hdm, hdc⟩
    exact ⟨d, hdm, by rw [← hdc] at hrc; exact hrc⟩
  · intro h
    rcases h with ⟨d, hdm, hrd⟩
    exact List.mem_flatten.mpr ⟨specMaximalRuns d.strID,
      List.mem_map.mpr ⟨d, hdm, rfl⟩, hrd⟩

theorem runsOf_flatten (heap : List PNode) (node : PNode) :
    (runsOf heap node).flatten = ((daughtersOf heap node).map PNode.strID).flatten := by
  rw [runsOf, List.flatten_flatten, psOf, List.map_map, List.map_map]
  refine congrArg List.flatten ?_
  refine List.map_congr_left fun d _ => ?_
  simp only [Function.comp]
  exact specMaximalRuns_flatten d.strID

/-- The covering invariant of an internal node establishes the contraction
invariant at the start of the predicate loop. -/
theorem initInv (heap : List PNode) (node : PNode) (hcov : SpanCover heap node) :
    ContractInv ((specMaximalRuns node.strID).map (List.map Tok.Y)) 0
      (runsOf heap node) := by
  obtain ⟨hS, hd, hperm⟩ := hcov
  have hSnd : node.strID.Nodup :=
    (List.chain'_iff_pairwise.mp hS).imp fun h => Nat.ne_of_lt h
  refine ⟨?_, ?_, ?_, ?_, ?_, ?_⟩
  · rw [targs0_Ypos]
    exact List.chain'_iff_pairwise.mp hS
  · rw [targs0_Xidx]
    intro v hv
    simp at hv
  · intro r hr
    rcases mem_runsOf.mp hr with ⟨d, _, hrd⟩
    exact ((specMaximalRuns_props d.strID).1 r hrd).1
  · intro r hr
    rcases mem_runsOf.mp hr with ⟨d, hdm, hrd⟩
    have hrprops := (specMaximalRuns_props d.strID).1 r hrd
    have hsubl : ∀ x ∈ r, x ∈ node.strID := by
      intro x hx
      have hx1 : x ∈ d.strID := by
        rw [← specMaximalRuns_flatten d.strID]
        exact List.mem_flatten.mpr ⟨r, hrd, hx⟩
      have hx2 : x ∈ ((daughtersOf heap node).map PNode.strID).flatten :=
        List.mem_flatten.mpr ⟨d.strID, List.mem_map_of_mem PNode.strID hdm, hx1⟩
      exact hperm.mem_iff.mp hx2
    rcases run_infix_comp hS hrprops.1 hrprops.2 hsubl with ⟨c, hc, w, w', hw⟩
    refine ⟨c.map Tok.Y, List.mem_map_of_mem (List.map Tok.Y) hc, ?_⟩
    rw [strIn_iff]
    exact ⟨w.map Tok.Y, w'.map Tok.Y, by rw [hw]; simp⟩
  · rw [runsOf_flatten]
    exact hperm.symm.nodup hSnd
  · rw [targs0_Ypos, runsOf_flatten]
    exact hperm.length_eq.symm

/-- For an internal node satisfying the covering invariant, `mkRule` computes
exactly the structural substitution of every daughter run by a fresh variable,
and one predicate per daughter whose arguments are the fresh variables in
allocation order. -/
theorem mkRule_internal (heap : List PNode) (node : PNode)
    (hid : node.id.headD ' ' = '#') (hcov : SpanCover heap node)
    (hne : node.strID ≠ []) :
    mkRule heap node =
      { lhs := ⟨node.label, (specContractLhs heap node).map rTs⟩,
        rhs := .preds (specPredList 0 (psOf heap node)),
        form := ruleForm ⟨node.label, (specContractLhs heap node).map rTs⟩
          (.preds (specPredList 0 (psOf heap node))) } := by
  have hInv := initInv heap node hcov
  have hpred := predloop_sim (psOf heap node)
      ((specMaximalRuns node.strID).map (List.map Tok.Y)) 0 hInv
  have hargs : findArgs node.strID =
      ((specMaximalRuns node.strID).map (List.map Tok.Y)).map rTs := by
    rw [findArgs_eq_runs node.strID hne, List.map_map]
    exact List.map_congr_left fun r _ => rfl
  have hrhs0 : (node.daughters.map (fun d => heap.getD d default)).map
        (fun d => (⟨d.label, findArgs d.strID⟩ : Predicate)) =
      (psOf heap node).map (fun q => (⟨q.1, q.2.map renderRun⟩ : Predicate)) := by
    rw [psOf, daughtersOf, List.map_map, List.map_map, List.map_map]
    refine List.map_congr_left fun i him => ?_
    simp only [Function.comp]
    rw [findArgs_eq_runs (heap.getD i default).strID
      (hcov.2.1 (heap.getD i default)
        (List.mem_map_of_mem (fun d => heap.getD d default) him)).2]
  rw [mkRule, if_neg (by rw [hid]; simp)]
  simp only []
  rw [hargs, hrhs0, hpred]
  rfl

/-- The variable names are pairwise distinct strings. -/
theorem xVar_injective : Function.Injective xVar := by
  intro a b h
  rw [xVar, xVar, rT, rT] at h
  simp only [headCh, num, List.cons.injEq, true_and] at h
  exact decRepr_injective h

/-- The arguments of the spec-side predicate list are the fresh variables in
one consecutive block, in allocation order. -/
theorem specPredList_args :
    ∀ (ps : List (PyStr × List (List Nat))) (cnt : Nat),
      ((specPredList cnt ps).map Predicate.args).flatten =
        (List.range' cnt ((ps.map Prod.snd).flatten).length).map xVar := by
  intro ps
  induction ps with
  | nil =>
    intro cnt
    simp [specPredList]
  | cons q qs ih =>
    intro cnt
    rw [specPredList, List.map_cons, List.flatten_cons]
    simp only []
    rw [ih (cnt + q.2.length), ← List.map_append]
    have hr : List.range' cnt q.2.length ++
        List.range' (cnt + q.2.length) (((qs.map Prod.snd).flatten).length) =
        List.range' cnt ((((qs.map Prod.snd).flatten).length) + q.2.length) := by
      have h := List.range'_append cnt q.2.length (((qs.map Prod.snd).flatten).length) 1
      rw [one_mul] at h
      exact h
    rw [hr]
    congr 2
    simp
    omega

/-- A character of a rendered variable-only token list. -/
theorem mem_rTs_X {c : Char} :
    ∀ {vs : List Nat}, c ∈ rTs (vs.map Tok.X) →
      c = 'X' ∨ c = '_' ∨ c.isDigit = true := by
  intro vs
  induction vs with
  | nil =>
    intro h
    simp [rTs] at h
  | cons v vs ih =>
    intro h
    rw [List.map_cons, rTs_cons] at h
    rcases List.mem_append.mp h with h | h
    · rw [rT] at h
      simp only [headCh, num] at h
      rcases List.mem_cons.mp h with rfl | h
      · exact Or.inl rfl
      rcases List.mem_cons.mp h with rfl | h
      · exact Or.inr (Or.inl rfl)
      · exact Or.inr (Or.inr (decRepr_isDigit v c h))
    · exact ih h

/-- No raw position token occurs in a variable-only argument string. -/
theorem yTok_not_in_vars (q : Nat) (vs : List Nat) :
    strIn (yTok q) (rTs (vs.map Tok.X)) = false := by
  rcases Bool.eq_false_or_eq_true (strIn (yTok q) (rTs (vs.map Tok.X))) with h | h
  swap
  · exact h
  exfalso
  rcases (strIn_iff _ _).mp h with ⟨u, v, huv⟩
  have hY : 'Y' ∈ rTs (vs.map Tok.X) := by
    rw [← huv, yTok, rT]
    simp [headCh]
  rcases mem_rTs_X hY with h1 | h1 | h1
  · exact absurd h1 (by decide)
  · exact absurd h1 (by decide)
  · exact absurd h1 (by decide)

/-- C1: for an internal node whose daughters' spans exactly cover its own
span, the constructed rule's left-hand-side argument strings consist of
variable tokens only (no raw position token `Y_k` survives as a substring),
every right-hand-side predicate argument is exactly one variable string, and
the variables used across the right-hand side are pairwise distinct. -/
theorem claim_C1 (heap : List PNode) (node : PNode)
    (hid : node.id.headD ' ' = '#') (hcov : SpanCover heap node)
    (hne : node.strID ≠ []) :
    (∀ arg ∈ (mkRule heap node).lhs.args,
      (∃ vs : List Nat, arg = rTs (vs.map Tok.X)) ∧
      ∀ q : Nat, strIn (yTok q) arg = false) ∧
    (∃ ps, (mkRule heap node).rhs = Rhs.preds ps ∧
      (∀ p ∈ ps, ∀ a ∈ p.args, ∃ c : Nat, a = xVar c) ∧
      ((ps.map Predicate.args).flatten).Pairwise (· ≠ ·)) := by
  have hInv := initInv heap node hcov
  rw [mkRule_internal heap node hid hcov hne]
  constructor
  · intro arg harg
    rcases List.mem_map.mp harg with ⟨arg', harg', rfl⟩
    rcases specSubAll_final hInv arg' harg' with ⟨vs, rfl⟩
    exact ⟨⟨vs, rfl⟩, fun q => yTok_not_in_vars q vs⟩
  · refine ⟨specPredList 0 (psOf heap node), rfl, ?_, ?_⟩
    · intro p hp a ha
      have hmem : a ∈ ((specPredList 0 (psOf heap node)).map Predicate.args).flatten :=
        List.mem_flatten.mpr ⟨p.args, List.mem_map_of_mem Predicate.args hp, ha⟩
      rw [specPredList_args] at hmem
      rcases List.mem_map.mp hmem with ⟨c, _, rfl⟩
      exact ⟨c, rfl⟩
    · rw [specPredList_args]
      exact List.Nodup.map xVar_injective (List.nodup_range' 0 _)

/-- A two-daughter internal node used to instantiate the internal-node
claims: the node spans positions 0, 2 and 3, the first daughter position 0
and the second positions 2 and 3. -/
def wHeap : List PNode :=
  [⟨str "w0", str "A", str "#500", [0], []⟩,
   ⟨str "#501", str "VP", str "#500", [2, 3], []⟩]

def wNode : PNode := ⟨str "#500", str "S", str "0", [0, 2, 3], [0, 1]⟩

theorem wcov : SpanCover wHeap wNode := by
  refine ⟨?_, ?_, ?_⟩
  · norm_num [wNode]
  · intro d hd
    simp only [daughtersOf, wHeap, wNode, List.map_cons, List.map_nil,
      List.getD, List.getElem?_cons_zero, List.getElem?_cons_succ,
      Option.getD_some, List.mem_cons, List.not_mem_nil, or_false] at hd
    rcases hd with rfl | rfl
    · exact ⟨by norm_num, by simp⟩
    · exact ⟨by norm_num, by simp⟩
  · simp only [daughtersOf, wHeap, wNode, List.map_cons, List.map_nil,
      List.getD, List.getElem?_cons_zero, List.getElem?_cons_succ,
      Option.getD_some, List.flatten]
    exact List.Perm.refl _

/-- Witness for C1 at a concrete internal node. -/
theorem claim_C1_witness :
    (wNode.id.headD ' ' = '#' ∧ SpanCover wHeap wNode ∧ wNode.strID ≠ []) ∧
    ((∀ arg ∈ (mkRule wHeap wNode).lhs.args,
        (∃ vs : List Nat, arg = rTs (vs.map Tok.X)) ∧
        ∀ q : Nat, strIn (yTok q) arg = false) ∧
      (∃ ps, (mkRule wHeap wNode).rhs = Rhs.preds ps ∧
        (∀ p ∈ ps, ∀ a ∈ p.args, ∃ c : Nat, a = xVar c) ∧
        ((ps.map Predicate.args).flatten).Pairwise (· ≠ ·))) :=
  ⟨⟨by decide, wcov, by decide⟩,
    claim_C1 wHeap wNode (by decide) wcov (by decide)⟩

/-- C2: the string-splicing contraction performed by `mkRule` on an internal
node agrees exactly with the structural, token-boundary-respecting
substitution `specSubAll`: each daughter run is replaced as a whole token run
by the fresh variable (so a token that is a textual prefix of a longer token
is never replaced inside the longer one), nothing else in any left-hand-side
argument is altered, and each right-hand-side argument becomes exactly the
fresh variable. -/
theorem claim_C2 (heap : List PNode) (node : PNode)
    (hid : node.id.headD ' ' = '#') (hcov : SpanCover heap node)
    (hne : node.strID ≠ []) :
    (mkRule heap node).lhs.args = (specContractLhs heap node).map rTs ∧
    (mkRule heap node).rhs = Rhs.preds (specPredList 0 (psOf heap node)) := by
  rw [mkRule_internal heap node hid hcov hne]
  exact ⟨rfl, rfl⟩

/-- Witness for C2 at a concrete internal node. -/
theorem claim_C2_witness :
    (wNode.id.headD ' ' = '#' ∧ SpanCover wHeap wNode ∧ wNode.strID ≠ []) ∧
    ((mkRule wHeap wNode).lhs.args = (specContractLhs wHeap wNode).map rTs ∧
      (mkRule wHeap wNode).rhs = Rhs.preds (specPredList 0 (psOf wHeap wNode))) :=
  ⟨⟨by decide, wcov, by decide⟩,
    claim_C2 wHeap wNode (by decide) wcov (by decide)⟩

/-! ## C4: `findArgs` and maximal contiguous runs -/

/-- C4 (amended with non-emptiness): for a non-empty strictly increasing
span, `findArgs` renders exactly the maximal contiguous runs in left-to-right
order — runs are non-empty and internally gap-free, consecutive runs are
separated by a genuine gap, concatenating the runs reproduces the span
exactly, and the number of returned arguments equals the number of
contiguous components (the fan-out). -/
theorem claim_C4 (l : List Nat) (_hl : l.Chain' (· < ·)) (hne : l ≠ []) :
    findArgs l = (specMaximalRuns l).map renderRun ∧
    (∀ r ∈ specMaximalRuns l, r ≠ [] ∧ r.Chain' StepOne) ∧
    (specMaximalRuns l).Chain' RunGap ∧
    (specMaximalRuns l).flatten = l ∧
    (findArgs l).length = (specMaximalRuns l).length := by
  have hprops := specMaximalRuns_props l
  refine ⟨findArgs_eq_runs l hne, hprops.1, hprops.2, specMaximalRuns_flatten l, ?_⟩
  rw [findArgs_eq_runs l hne, List.length_map]

/-- Witness for C4 on the concrete span `[0, 2, 3]`. -/
theorem claim_C4_witness :
    (([0, 2, 3] : List Nat).Chain' (· < ·) ∧ ([0, 2, 3] : List Nat) ≠ []) ∧
    (findArgs [0, 2, 3] = (specMaximalRuns [0, 2, 3]).map renderRun ∧
      (∀ r ∈ specMaximalRuns [0, 2, 3], r ≠ [] ∧ r.Chain' StepOne) ∧
      (specMaximalRuns ([0, 2, 3] : List Nat)).Chain' RunGap ∧
      (specMaximalRuns ([0, 2, 3] : List Nat)).flatten = [0, 2, 3] ∧
      (findArgs ([0, 2, 3] : List Nat)).length =
        (specMaximalRuns ([0, 2, 3] : List Nat)).length) :=
  ⟨⟨by simp, by decide⟩, claim_C4 [0, 2, 3] (by simp) (by decide)⟩

/-- C4 counterexample: the empty span is strictly increasing and has zero
contiguous components, yet `findArgs` returns one argument (the empty
string), because the trailing `args.append(arg)` runs unconditionally; so
the argument count does not equal the fan-out on the empty span. -/
theorem claim_C4_cex :
    ([] : List Nat).Chain' (· < ·) ∧
    findArgs ([] : List Nat) = [[]] ∧
    specMaximalRuns ([] : List Nat) = [] ∧
    (findArgs ([] : List Nat)).length ≠ (specMaximalRuns ([] : List Nat)).length := by
  refine ⟨by simp, findArgs_nil, rfl, ?_⟩
  rw [findArgs_nil]
  simp [specMaximalRuns]

/-! ## C10: `Predicate.mkform` under the distinct-last precondition -/

/-- The spec-worded rendering of an argument list: the arguments joined by
commas. -/
def specJoin : List PyStr → PyStr
  | [] => []
  | [a] => a
  | a :: rest => a ++ ',' :: specJoin rest

theorem specJoin_cons₂ (a b : PyStr) (rest : List PyStr) :
    specJoin (a :: b :: rest) = a ++ ',' :: specJoin (b :: rest) := rfl

theorem mkformArgs_eq (last : PyStr) :
    ∀ (xs : List PyStr), xs ≠ [] → xs.getLast? = some last →
      (∀ a ∈ xs.dropLast, a ≠ last) →
      mkformArgs last xs = specJoin xs ++ [')'] := by
  intro xs
  induction xs with
  | nil => intro h; exact absurd rfl h
  | cons a rest ih =>
    intro _ hlast hdist
    cases rest with
    | nil =>
      have ha : a = last := by
        rw [List.getLast?_singleton] at hlast
        exact Option.some.inj hlast
      rw [mkformArgs, if_pos ha, mkformArgs, specJoin]
      simp
    | cons b rest' =>
      have hane : a ≠ last := hdist a (by rw [List.dropLast_cons₂]; simp)
      have hlast' : (b :: rest').getLast? = some last := by
        rw [List.getLast?_cons_cons] at hlast
        exact hlast
      have hdist' : ∀ x ∈ (b :: rest').dropLast, x ≠ last := by
        intro x hx
        exact hdist x (by rw [List.dropLast_cons₂]; exact List.mem_cons_of_mem a hx)
      rw [mkformArgs, if_neg hane, ih (by simp) hlast' hdist', specJoin_cons₂]
      simp

/-- C10: when the argument list is non-empty and its last value occurs at no
earlier index, `mkform` prints the name, an opening parenthesis, the
arguments joined by commas, and one closing parenthesis; and the
distinctness precondition is not vacuous — a predicate whose last argument
value recurs earlier is printed differently, because the code compares each
argument by value to the last element. -/
theorem claim_C10 (p : Predicate) (hne : p.args ≠ [])
    (hdist : ∀ a ∈ p.args.dropLast, a ≠ p.args.getLastD []) :
    p.mkform = p.name ++ '(' :: (specJoin p.args ++ [')']) ∧
    ∃ q : Predicate, q.args ≠ [] ∧
      (¬ ∀ a ∈ q.args.dropLast, a ≠ q.args.getLastD []) ∧
      q.mkform ≠ q.name ++ '(' :: (specJoin q.args ++ [')']) := by
  constructor
  · have hlast : p.args.getLast? = some (p.args.getLastD []) := by
      cases h : p.args with
      | nil => exact absurd h hne
      | cons a rest =>
        rw [List.getLastD_eq_getLast?, List.getLast?_cons]
        simp
    rw [Predicate.mkform, mkformArgs_eq (p.args.getLastD []) p.args hne hlast hdist]
    simp
  · refine ⟨⟨['N'], [['a'], ['a']]⟩, by decide, by decide, by decide⟩

/-- Witness for C10 on a concrete two-argument predicate. -/
theorem claim_C10_witness :
    ((⟨['P'], [['a'], ['b']]⟩ : Predicate).args ≠ [] ∧
      (∀ a ∈ (⟨['P'], [['a'], ['b']]⟩ : Predicate).args.dropLast,
        a ≠ (⟨['P'], [['a'], ['b']]⟩ : Predicate).args.getLastD [])) ∧
    ((⟨['P'], [['a'], ['b']]⟩ : Predicate).mkform =
        (⟨['P'], [['a'], ['b']]⟩ : Predicate).name ++
          '(' :: (specJoin (⟨['P'], [['a'], ['b']]⟩ : Predicate).args ++ [')']) ∧
      ∃ q : Predicate, q.args ≠ [] ∧
        (¬ ∀ a ∈ q.args.dropLast, a ≠ q.args.getLastD []) ∧
        q.mkform ≠ q.name ++ '(' :: (specJoin q.args ++ [')'])) :=
  ⟨⟨by decide, by decide⟩,
    claim_C10 ⟨['P'], [['a'], ['b']]⟩ (by decide) (by decide)⟩

/-! ## `Grammar.induce`: tree building, span propagation, rule collection

A NeGra record line contributes exactly its fields 0 (`id`), 2 (`label`) and
5 (`mother`) to `Node.__init__` (source lines 246–252); a tree is the list
of its records in file order.  Node objects are modelled by an arena
(`List PNode`) indexed by record position; object references are arena
indices.  The node dictionary is an association list with Python's
overwrite-keeps-position semantics, and exceptions (the uncaught `KeyError`
of the mother lookups) are modelled with `Except`. -/

structure Rec where
  id : PyStr
  label : PyStr
  mother : PyStr
deriving DecidableEq, Inhabited

/-- `Node.__init__` (source lines 246–252). -/
def Node_init (r : Rec) : PNode :=
  ⟨r.id, r.label, r.mother, [], []⟩

/-- Python dict assignment `d[k] = v`: an existing key keeps its position and
gets the new value; a new key is appended. -/
def dictInsert (k : PyStr) (v : Nat) : List (PyStr × Nat) → List (PyStr × Nat)
  | [] => [(k, v)]
  | (k', v') :: rest =>
    if k' = k then (k, v) :: rest else (k', v') :: dictInsert k v rest

/-- Python dict lookup `d[k]`, `none` when the key is absent (`KeyError`). -/
def dictGet (k : PyStr) : List (PyStr × Nat) → Option Nat
  | [] => none
  | (k', v) :: rest => if k' = k then some v else dictGet k rest

/-- The record loop of `Grammar.induce` (source lines 48–56): internal
records (id starting with `#`) go into the dictionary under the id with the
`#` sliced off; the others are appended to the leaf list. -/
def buildDictGo (acc : List (PyStr × Nat) × List Nat) :
    List Rec → Nat → List (PyStr × Nat) × List Nat
  | [], _ => acc
  | r :: rest, i =>
    if r.id.headD ' ' = '#'
    then buildDictGo (dictInsert (r.id.drop 1) i acc.1, acc.2) rest (i + 1)
    else buildDictGo (acc.1, acc.2 ++ [i]) rest (i + 1)

def buildDict (tree : List Rec) : List (PyStr × Nat) × List Nat :=
  buildDictGo ([], []) tree 0

/-- Assignment to a node's `strID` field. -/
def setStrID (heap : List PNode) (i : Nat) (s : List Nat) : List PNode :=
  heap.set i { heap.getD i default with strID := s }

/-- `mother.daughters.append(...)`. -/
def addDaughter (heap : List PNode) (m i : Nat) : List PNode :=
  heap.set m
    { heap.getD m default with daughters := (heap.getD m default).daughters ++ [i] }

/-- The leaf loop of `Grammar.induce` (source lines 57–62): the `s`-th leaf
gets `strID = [s]` and is appended to the daughters of `nodes[leaf.mother]`;
a missing mother key raises `KeyError` (uncaught). -/
def phaseB (dict : List (PyStr × Nat)) :
    List PNode → List Nat → Nat → Except PyStr (List PNode)
  | heap, [], _ => .ok heap
  | heap, lf :: rest, s =>
    let heap1 := setStrID heap lf [s]
    match dictGet (heap1.getD lf default).mother dict with
    | none => .error (heap1.getD lf default).mother
    | some m => phaseB dict (addDaughter heap1 m lf) rest (s + 1)

/-- The internal-node loop of `Grammar.induce` (source lines 63–66): every
dictionary value whose mother is not the root sentinel `"0"` is appended to
the daughters of `nodes[node.mother]`; a missing key raises `KeyError`. -/
def phaseC (dict : List (PyStr × Nat)) :
    List PNode → List Nat → Except PyStr (List PNode)
  | heap, [] => .ok heap
  | heap, n :: rest =>
    if (heap.getD n default).mother ≠ str "0" then
      match dictGet (heap.getD n default).mother dict with
      | none => .error (heap.getD n default).mother
      | some m => phaseC dict (addDaughter heap m n) rest
    else phaseC dict heap rest

/-- Building a tree: arena allocation, the record loop, the leaf loop and
the internal-node loop; the result is the heap together with the dictionary
and the leaf list. -/
def buildTree (tree : List Rec) :
    Except PyStr (List PNode × List (PyStr × Nat) × List Nat) :=
  let heap0 := tree.map Node_init
  let bd := buildDict tree
  match phaseB bd.1 heap0 bd.2 0 with
  | .error k => .error k
  | .ok heap1 =>
    match phaseC bd.1 heap1 (bd.1.map Prod.snd) with
    | .error k => .error k
    | .ok heap2 => .ok (heap2, bd.1, bd.2)

/-- `Node.allDaughtersHaveStrID` (source lines 255–264). -/
def allDHS (heap : List PNode) (n : Nat) : Bool :=
  (heap.getD n default).daughters.all (fun d => !((heap.getD d default).strID.isEmpty))

/-- `Node.getStrID` (source lines 266–277): with a single daughter the
daughter's `strID` is taken as is; otherwise the daughters' `strID`s are
concatenated and sorted ascending (Python's stable `list.sort`; on a list of
naturals any correct sort produces the unique sorted permutation, here
written as insertion sort). -/
def getStrID (heap : List PNode) (n : Nat) : List PNode :=
  let node := heap.getD n default
  if node.daughters.length = 1 then
    setStrID heap n (heap.getD (node.daughters.getD 0 0) default).strID
  else
    setStrID heap n
      (List.insertionSort (fun a b => a ≤ b)
        ((node.daughters.map (fun d => (heap.getD d default).strID)).flatten))

/-- One traversal of the `for node in nodesval:` loop inside the `while`
(source lines 68–74), with CPython's list-iterator semantics: the iterator
fetches position `i` and advances to `i + 1`; `nodesval.remove(node)`
deletes the first occurrence of the processed element, so after a removal
the element that followed the removed one is skipped. -/
def forPassF (heap : List PNode) (done L : List Nat) (i : Nat) :
    Nat → List PNode × List Nat × List Nat
  | 0 => (heap, done, L)
  | fuel + 1 =>
    if i < L.length then
      let n := L.getD i 0
      if allDHS heap n then
        forPassF (getStrID heap n) (done ++ [n]) (L.erase n) (i + 1) fuel
      else
        forPassF heap done L (i + 1) fuel
    else (heap, done, L)

/-- The traversal makes at most `L.length - i` iterations (`i` grows by one
each step and the list never grows), so that much fuel always suffices. -/
def forPass (heap : List PNode) (done L : List Nat) (i : Nat) :
    List PNode × List Nat × List Nat :=
  forPassF heap done L i (L.length - i)

theorem forPassF_fuel :
    ∀ (f₁ f₂ : Nat) (heap : List PNode) (done L : List Nat) (i : Nat),
      L.length - i ≤ f₁ → L.length - i ≤ f₂ →
      forPassF heap done L i f₁ = forPassF heap done L i f₂ := by
  intro f₁
  induction f₁ with
  | zero =>
    intro f₂ heap done L i h1 _
    have hi : ¬ i < L.length := by omega
    cases f₂ with
    | zero => rfl
    | succ f =>
      show (heap, done, L) = forPassF heap done L i (f + 1)
      rw [forPassF, if_neg hi]
  | succ f₁ ih =>
    intro f₂ heap done L i h1 h2
    by_cases hi : i < L.length
    · cases f₂ with
      | zero => omega
      | succ f₂ =>
        rw [forPassF, forPassF, if_pos hi, if_pos hi]
        simp only []
        have hmem : L.getD i 0 ∈ L := by
          rw [List.getD_eq_getElem L 0 hi]
          exact L.getElem_mem hi
        have herase := List.length_erase_of_mem hmem
        by_cases hd : allDHS heap (L.getD i 0)
        · rw [if_pos hd, if_pos hd]
          apply ih <;> omega
        · rw [if_neg hd, if_neg hd]
          apply ih <;> omega
    · cases f₂ with
      | zero =>
        show forPassF heap done L i (f₁ + 1) = (heap, done, L)
        rw [forPassF, if_neg hi]
      | succ f₂ =>
        rw [forPassF, forPassF, if_neg hi, if_neg hi]

/-- The unfolding equation of one loop iteration. -/
theorem forPass_eq (heap : List PNode) (done L : List Nat) (i : Nat) :
    forPass heap done L i =
      if i < L.length then
        if allDHS heap (L.getD i 0) then
          forPass (getStrID heap (L.getD i 0)) (done ++ [L.getD i 0])
            (L.erase (L.getD i 0)) (i + 1)
        else forPass heap done L (i + 1)
      else (heap, done, L) := by
  rw [forPass]
  by_cases hi : i < L.length
  · have hlen : L.length - i = (L.length - i - 1) + 1 := by omega
    rw [hlen, forPassF, if_pos hi, if_pos hi]
    simp only []
    have hmem : L.getD i 0 ∈ L := by
      rw [List.getD_eq_getElem L 0 hi]
      exact L.getElem_mem hi
    have herase := List.length_erase_of_mem hmem
    by_cases hd : allDHS heap (L.getD i 0)
    · rw [if_pos hd, if_pos hd, forPass]
      apply forPassF_fuel <;> omega
    · rw [if_neg hd, if_neg hd, forPass]
      apply forPassF_fuel <;> omega
  · rw [if_neg hi]
    have hlen : L.length - i = 0 := by omega
    rw [hlen, forPassF]

/-- The state of the span-propagation loop: heap, resolved nodes (`nodes2`)
and pending nodes (`nodesval`). -/
abbrev PropState := List PNode × List Nat × List Nat

/-- One iteration of `while nodesval != []` (source lines 69–74). -/
def passStep (s : PropState) : PropState :=
  if s.2.2 = [] then s
  else
    let r := forPass s.1 s.2.1 s.2.2 0
    (r.1, r.2.1, r.2.2)

def passN (s : PropState) : Nat → PropState
  | 0 => s
  | n + 1 => passN (passStep s) n

/-- The pending list never empties: the concrete `while` loop runs forever. -/
def divergesFrom (s : PropState) : Prop :=
  ∀ n, (passN s n).2.2 ≠ []

/-- The span-propagation fixpoint.  Each iteration that changes anything
strictly shrinks the pending list, so `length + 1` iterations reach either
the empty pending list or a state the loop can never leave; in the latter
case the Python loop diverges and the result is `none`. -/
def propagate (heap : List PNode) (done L : List Nat) :
    Option (List PNode × List Nat) :=
  let r := passN (heap, done, L) (L.length + 1)
  if r.2.2 = [] then some (r.1, r.2.1) else none

/-- The duplicate check of `Grammar.induce` (source lines 76–98): the new
rule is appended when the store is empty or when no stored rule has the same
form. -/
def addRule (rules : List Rule) (newrule : Rule) : List Rule :=
  if rules = [] then rules ++ [newrule]
  else if rules.any (fun r => r.form = newrule.form) then rules
  else rules ++ [newrule]

def induceRules (heap : List PNode) (ns : List Nat) (rules : List Rule) : List Rule :=
  ns.foldl (fun rs n => addRule rs (mkRule heap (heap.getD n default))) rules

/-- The outcome of one `induce` call: normal return, an uncaught `KeyError`
carrying the missing mother id, or non-termination of the span fixpoint. -/
inductive Outcome where
  | ok (rules : List Rule)
  | exn (key : PyStr)
  | hang
deriving DecidableEq

/-- `Grammar.induce` (source lines 42–98). -/
def induce (rules : List Rule) (tree : List Rec) : Outcome :=
  match buildTree tree with
  | .error k => .exn k
  | .ok (heap2, dict, leaves) =>
    match propagate heap2 [] (dict.map Prod.snd) with
    | none => .hang
    | some (heap3, nodes2) =>
      .ok (induceRules heap3 nodes2 (induceRules heap3 leaves rules))

/-- How a corpus run ends: all trees processed, or aborted by an uncaught
exception, or hung inside one tree. -/
inductive Stop where
  | done
  | exn (key : PyStr)
  | hang
deriving DecidableEq

/-- The corpus loop of `Grammar.__init__` (source lines 34–40): trees are
processed in order; there is no `try`/`except`, so an exception (or a hang)
stops the whole loop and later trees are never reached. -/
def corpusRun : List Rule → List (List Rec) → List Rule × Stop
  | rules, [] => (rules, .done)
  | rules, t :: ts =>
    match induce rules t with
    | .ok rules' => corpusRun rules' ts
    | .exn k => (rules, .exn k)
    | .hang => (rules, .hang)

/-! ### Heap update lemmas -/

theorem getD_set_self {h : List PNode} {i : Nat} {a : PNode} (hlt : i < h.length) :
    (h.set i a).getD i default = a := by
  rw [List.getD_eq_getElem?_getD, List.getElem?_set]
  simp [hlt]

theorem getD_set_other {h : List PNode} {i x : Nat} {a : PNode} (hne : i ≠ x) :
    (h.set i a).getD x default = h.getD x default := by
  rw [List.getD_eq_getElem?_getD, List.getElem?_set, if_neg hne,
    ← List.getD_eq_getElem?_getD]

theorem getD_set_field {β : Type} (g : PNode → β) (h : List PNode) (i : Nat)
    (f : PNode → PNode) (hf : ∀ nd, g (f nd) = g nd) (x : Nat) :
    g ((h.set i (f (h.getD i default))).getD x default) = g (h.getD x default) := by
  by_cases hix : i = x
  · subst hix
    by_cases hlt : i < h.length
    · rw [getD_set_self hlt, hf]
    · rw [List.set_eq_of_length_le (Nat.le_of_not_lt hlt)]
  · rw [getD_set_other hix]

theorem setStrID_mother (h : List PNode) (i : Nat) (s : List Nat) (x : Nat) :
    ((setStrID h i s).getD x default).mother = (h.getD x default).mother :=
  getD_set_field PNode.mother h i (fun nd => { nd with strID := s })
    (fun _ => rfl) x

theorem setStrID_id (h : List PNode) (i : Nat) (s : List Nat) (x : Nat) :
    ((setStrID h i s).getD x default).id = (h.getD x default).id :=
  getD_set_field PNode.id h i (fun nd => { nd with strID := s }) (fun _ => rfl) x

theorem setStrID_label (h : List PNode) (i : Nat) (s : List Nat) (x : Nat) :
    ((setStrID h i s).getD x default).label = (h.getD x default).label :=
  getD_set_field PNode.label h i (fun nd => { nd with strID := s }) (fun _ => rfl) x

theorem setStrID_daughters (h : List PNode) (i : Nat) (s : List Nat) (x : Nat) :
    ((setStrID h i s).getD x default).daughters = (h.getD x default).daughters :=
  getD_set_field PNode.daughters h i (fun nd => { nd with strID := s })
    (fun _ => rfl) x

theorem addDaughter_mother (h : List PNode) (m i x : Nat) :
    ((addDaughter h m i).getD x default).mother = (h.getD x default).mother :=
  getD_set_field PNode.mother h m
    (fun nd => { nd with daughters := nd.daughters ++ [i] }) (fun _ => rfl) x

theorem addDaughter_id (h : List PNode) (m i x : Nat) :
    ((addDaughter h m i).getD x default).id = (h.getD x default).id :=
  getD_set_field PNode.id h m
    (fun nd => { nd with daughters := nd.daughters ++ [i] }) (fun _ => rfl) x

theorem addDaughter_label (h : List PNode) (m i x : Nat) :
    ((addDaughter h m i).getD x default).label = (h.getD x default).label :=
  getD_set_field PNode.label h m
    (fun nd => { nd with daughters := nd.daughters ++ [i] }) (fun _ => rfl) x

theorem addDaughter_strID (h : List PNode) (m i x : Nat) :
    ((addDaughter h m i).getD x default).strID = (h.getD x default).strID :=
  getD_set_field PNode.strID h m
    (fun nd => { nd with daughters := nd.daughters ++ [i] }) (fun _ => rfl) x

/-! ### Dictionary lemmas -/

theorem dictGet_mem {k : PyStr} {v : Nat} :
    ∀ {d : List (PyStr × Nat)}, dictGet k d = some v → (k, v) ∈ d := by
  intro d
  induction d with
  | nil => intro h; exact absurd h (by rw [dictGet]; simp)
  | cons e rest ih =>
    intro h
    cases e with
    | mk a b =>
      rw [dictGet] at h
      by_cases he : a = k
      · rw [if_pos he] at h
        have hb := Option.some.inj h
        rw [he, hb]
        exact List.mem_cons_self _ _
      · rw [if_neg he] at h
        exact List.mem_cons_of_mem _ (ih h)

theorem dictGet_insert_self (k : PyStr) (v : Nat) :
    ∀ (d : List (PyStr × Nat)), dictGet k (dictInsert k v d) = some v := by
  intro d
  induction d with
  | nil => rw [dictInsert, dictGet]; simp
  | cons e rest ih =>
    cases e with
    | mk k' v' =>
      rw [dictInsert]
      by_cases he : k' = k
      · rw [if_pos he, dictGet]
        simp
      · rw [if_neg he, dictGet, if_neg he]
        exact ih

theorem dictGet_insert_ne {q k : PyStr} (hne : q ≠ k) (v : Nat) :
    ∀ (d : List (PyStr × Nat)), dictGet q (dictInsert k v d) = dictGet q d := by
  intro d
  induction d with
  | nil =>
    rw [dictInsert]
    rw [show dictGet q [(k, v)] = if k = q then some v else dictGet q [] from rfl]
    rw [if_neg (fun h => hne h.symm)]
  | cons e rest ih =>
    cases e with
    | mk k' v' =>
      rw [dictInsert]
      by_cases he : k' = k
      · rw [if_pos he, dictGet, dictGet, if_neg (fun h => hne h.symm),
          if_neg (by rw [he]; exact fun h => hne h.symm)]
      · rw [if_neg he, dictGet, dictGet]
        by_cases hq : k' = q
        · rw [if_pos hq, if_pos hq]
        · rw [if_neg hq, if_neg hq, ih]

theorem mem_dictInsert {e : PyStr × Nat} {k : PyStr} {v : Nat} :
    ∀ {d : List (PyStr × Nat)}, e ∈ dictInsert k v d → e = (k, v) ∨ e ∈ d := by
  intro d
  induction d with
  | nil =>
    intro h
    rw [dictInsert] at h
    simp at h
    exact Or.inl h
  | cons f rest ih =>
    intro h
    cases f with
    | mk k' v' =>
      rw [dictInsert] at h
      by_cases he : k' = k
      · rw [if_pos he] at h
        rcases List.mem_cons.mp h with h | h
        · exact Or.inl h
        · exact Or.inr (List.mem_cons_of_mem _ h)
      · rw [if_neg he] at h
        rcases List.mem_cons.mp h with h | h
        · exact Or.inr (by rw [h]; exact List.mem_cons_self _ _)
        · rcases ih h with h | h
          · exact Or.inl h
          · exact Or.inr (List.mem_cons_of_mem _ h)

/-! ### Record-loop characterizations -/

/-- The ids of a tree's internal records, with `#` stripped, in record
order. -/
def internalIds (tree : List Rec) : List PyStr :=
  (tree.filter (fun r => r.id.headD ' ' = '#')).map (fun r => r.id.drop 1)

theorem internalIds_cons_pos {r : Rec} (rest : List Rec)
    (hr : r.id.headD ' ' = '#') :
    internalIds (r :: rest) = r.id.drop 1 :: internalIds rest := by
  rw [internalIds, internalIds, List.filter_cons, if_pos (decide_eq_true hr),
    List.map_cons]

theorem internalIds_cons_neg {r : Rec} (rest : List Rec)
    (hr : ¬ r.id.headD ' ' = '#') :
    internalIds (r :: rest) = internalIds rest := by
  rw [internalIds, internalIds, List.filter_cons, if_neg (fun hdec => hr (of_decide_eq_true hdec))]

theorem mem_internalIds {r : Rec} {tree : List Rec} (hm : r ∈ tree)
    (hr : r.id.headD ' ' = '#') : r.id.drop 1 ∈ internalIds tree := by
  exact List.mem_map_of_mem _ (List.mem_filter.mpr ⟨hm, decide_eq_true hr⟩)

theorem buildDictGo_keys :
    ∀ (tree : List Rec) (i : Nat) (acc : List (PyStr × Nat) × List Nat)
      (k : PyStr) (v : Nat),
      (k, v) ∈ (buildDictGo acc tree i).1 → (k, v) ∈ acc.1 ∨ k ∈ internalIds tree := by
  intro tree
  induction tree with
  | nil =>
    intro i acc k v h
    rw [buildDictGo] at h
    exact Or.inl h
  | cons r rest ih =>
    intro i acc k v h
    rw [buildDictGo] at h
    by_cases hr : r.id.headD ' ' = '#'
    · rw [if_pos hr] at h
      rcases ih _ _ _ _ h with h1 | h1
      · rcases mem_dictInsert h1 with h2 | h2
        · right
          rw [internalIds_cons_pos rest hr]
          rw [Prod.mk.injEq] at h2
          rw [h2.1]
          exact List.mem_cons_self _ _
        · exact Or.inl h2
      · right
        rw [internalIds_cons_pos rest hr]
        exact List.mem_cons_of_mem _ h1
    · rw [if_neg hr] at h
      rcases ih _ _ _ _ h with h1 | h1
      · exact Or.inl h1
      · right
        rw [internalIds_cons_neg rest hr]
        exact h1

theorem dictGet_none_of_not_internal {tree : List Rec} {k : PyStr}
    (h : k ∉ internalIds tree) : dictGet k (buildDict tree).1 = none := by
  cases heq : dictGet k (buildDict tree).1 with
  | none => rfl
  | some v =>
    have hm := dictGet_mem heq
    rcases buildDictGo_keys tree 0 ([], []) k v hm with h1 | h1
    · exact absurd h1 (by simp)
    · exact absurd h1 h

theorem buildDictGo_get_frozen :
    ∀ (tree : List Rec) (i : Nat) (acc : List (PyStr × Nat) × List Nat) (k : PyStr),
      (∀ r ∈ tree, r.id.headD ' ' = '#' → r.id.drop 1 ≠ k) →
      dictGet k (buildDictGo acc tree i).1 = dictGet k acc.1 := by
  intro tree
  induction tree with
  | nil => intro i acc k _; rw [buildDictGo]
  | cons r rest ih =>
    intro i acc k h
    rw [buildDictGo]
    by_cases hr : r.id.headD ' ' = '#'
    · rw [if_pos hr, ih _ _ _ (fun r' hr' => h r' (List.mem_cons_of_mem _ hr'))]
      exact dictGet_insert_ne (fun he => h r (List.mem_cons_self _ _) hr he.symm) i acc.1
    · rw [if_neg hr]
      exact ih _ _ _ (fun r' hr' => h r' (List.mem_cons_of_mem _ hr'))

theorem buildDictGo_leaves_mono :
    ∀ (tree : List Rec) (i : Nat) (acc : List (PyStr × Nat) × List Nat),
      ∃ ext, (buildDictGo acc tree i).2 = acc.2 ++ ext := by
  intro tree
  induction tree with
  | nil => intro i acc; exact ⟨[], by rw [buildDictGo]; simp⟩
  | cons r rest ih =>
    intro i acc
    rw [buildDictGo]
    by_cases hr : r.id.headD ' ' = '#'
    · rw [if_pos hr]
      exact ih _ _
    · rw [if_neg hr]
      rcases ih (i + 1) (acc.1, acc.2 ++ [i]) with ⟨ext, hext⟩
      exact ⟨[i] ++ ext, by rw [hext]; simp⟩

theorem buildDictGo_leaf_mem :
    ∀ (tree : List Rec) (i : Nat) (acc : List (PyStr × Nat) × List Nat) (r : Rec),
      r ∈ tree → ¬ r.id.headD ' ' = '#' →
      ∃ j ∈ (buildDictGo acc tree i).2, i ≤ j ∧ j - i < tree.length ∧
        tree.getD (j - i) default = r := by
  intro tree
  induction tree with
  | nil => intro i acc r h; exact absurd h (by simp)
  | cons r0 rest ih =>
    intro i acc r hm hr
    rw [buildDictGo]
    by_cases hr0 : r0.id.headD ' ' = '#'
    · rw [if_pos hr0]
      have hmrest : r ∈ rest := by
        rcases List.mem_cons.mp hm with rfl | h
        · exact absurd hr0 hr
        · exact h
      rcases ih (i + 1) _ r hmrest hr with ⟨j, hj, hij, hlen, hget⟩
      refine ⟨j, hj, by omega, by simp; omega, ?_⟩
      have hji : j - i = (j - (i + 1)) + 1 := by omega
      rw [hji, List.getD_cons_succ]
      exact hget
    · rw [if_neg hr0]
      rcases List.mem_cons.mp hm with rfl | hmrest
      · rcases buildDictGo_leaves_mono rest (i + 1) (acc.1, acc.2 ++ [i]) with ⟨ext, hext⟩
        refine ⟨i, ?_, le_refl i, by simp, by simp⟩
        rw [hext]
        simp
      · rcases ih (i + 1) _ r hmrest hr with ⟨j, hj, hij, hlen, hget⟩
        refine ⟨j, hj, by omega, by simp; omega, ?_⟩
        have hji : j - i = (j - (i + 1)) + 1 := by omega
        rw [hji, List.getD_cons_succ]
        exact hget

theorem buildDictGo_lookup :
    ∀ (tree : List Rec) (i : Nat) (acc : List (PyStr × Nat) × List Nat) (r : Rec),
      r ∈ tree → r.id.headD ' ' = '#' → (internalIds tree).Nodup →
      (∀ v, (r.id.drop 1, v) ∉ acc.1) →
      ∃ j, dictGet (r.id.drop 1) (buildDictGo acc tree i).1 = some j ∧
        i ≤ j ∧ j - i < tree.length ∧ tree.getD (j - i) default = r := by
  intro tree
  induction tree with
  | nil => intro i acc r h; exact absurd h (by simp)
  | cons r0 rest ih =>
    intro i acc r hm hr hnd hacc
    rw [buildDictGo]
    by_cases hr0 : r0.id.headD ' ' = '#'
    · rw [internalIds_cons_pos rest hr0, List.nodup_cons] at hnd
      rw [if_pos hr0]
      by_cases hkey : r0.id.drop 1 = r.id.drop 1
      · -- the head record carries the target key; it must be `r` itself
        have hreq : r = r0 := by
          rcases List.mem_cons.mp hm with rfl | hmrest
          · rfl
          · exact absurd (hkey ▸ mem_internalIds hmrest hr) hnd.1
        have hfrozen : ∀ r' ∈ rest, r'.id.headD ' ' = '#' → r'.id.drop 1 ≠ r.id.drop 1 := by
          intro r' hr' hint he
          exact hnd.1 (hkey ▸ he ▸ mem_internalIds hr' hint)
        rw [buildDictGo_get_frozen rest (i + 1) _ _ hfrozen]
        refine ⟨i, ?_, le_refl i, by simp, by rw [hreq]; simp⟩
        have : dictGet (r.id.drop 1) (dictInsert (r0.id.drop 1) i acc.1) =
            dictGet (r.id.drop 1) (dictInsert (r.id.drop 1) i acc.1) := by rw [hkey]
        rw [this]
        exact dictGet_insert_self _ _ _
      · have hmrest : r ∈ rest := by
          rcases List.mem_cons.mp hm with rfl | h
          · exact absurd rfl hkey
          · exact h
        have hacc' : ∀ v, (r.id.drop 1, v) ∉ (dictInsert (r0.id.drop 1) i acc.1) := by
          intro v hv
          rcases mem_dictInsert hv with h | h
          · rw [Prod.mk.injEq] at h
            exact hkey h.1.symm
          · exact hacc v h
        rcases ih (i + 1) (dictInsert (r0.id.drop 1) i acc.1, acc.2) r hmrest hr
            hnd.2 hacc' with ⟨j, hj, hij, hlen, hget⟩
        refine ⟨j, hj, by omega, by simp; omega, ?_⟩
        have hji : j - i = (j - (i + 1)) + 1 := by omega
        rw [hji, List.getD_cons_succ]
        exact hget
    · rw [internalIds_cons_neg rest hr0] at hnd
      rw [if_neg hr0]
      have hmrest : r ∈ rest := by
        rcases List.mem_cons.mp hm with rfl | h
        · exact absurd hr hr0
        · exact h
      rcases ih (i + 1) (acc.1, acc.2 ++ [i]) r hmrest hr hnd hacc with
        ⟨j, hj, hij, hlen, hget⟩
      refine ⟨j, hj, by omega, by simp; omega, ?_⟩
      have hji : j - i = (j - (i + 1)) + 1 := by omega
      rw [hji, List.getD_cons_succ]
      exact hget

/-! ### Error propagation through the mother-linking phases -/

theorem phaseB_error (dict : List (PyStr × Nat)) :
    ∀ (L : List Nat) (heap : List PNode) (s : Nat),
      (∃ lf ∈ L, dictGet ((heap.getD lf default).mother) dict = none) →
      ∃ k, phaseB dict heap L s = .error k := by
  intro L
  induction L with
  | nil =>
    intro heap s h
    rcases h with ⟨lf, hlf, _⟩
    exact absurd hlf (List.not_mem_nil lf)
  | cons lf0 rest ih =>
    intro heap s h
    rw [phaseB]
    cases hlook : dictGet (((setStrID heap lf0 [s]).getD lf0 default).mother) dict with
    | none => exact ⟨_, rfl⟩
    | some m =>
      show ∃ k, phaseB dict (addDaughter (setStrID heap lf0 [s]) m lf0) rest (s + 1) =
        .error k
      apply ih
      rcases h with ⟨lf, hlf, hnone⟩
      rcases List.mem_cons.mp hlf with rfl | hmem
      · rw [setStrID_mother] at hlook
        rw [hnone] at hlook
        exact absurd hlook (by simp)
      · exact ⟨lf, hmem, by rw [addDaughter_mother, setStrID_mother]; exact hnone⟩

theorem phaseC_error (dict : List (PyStr × Nat)) :
    ∀ (ns : List Nat) (heap : List PNode),
      (∃ n ∈ ns, (heap.getD n default).mother ≠ str "0" ∧
        dictGet ((heap.getD n default).mother) dict = none) →
      ∃ k, phaseC dict heap ns = .error k := by
  intro ns
  induction ns with
  | nil =>
    intro heap h
    rcases h with ⟨n, hn, _⟩
    exact absurd hn (List.not_mem_nil n)
  | cons n0 rest ih =>
    intro heap h
    rw [phaseC]
    by_cases hm0 : (heap.getD n0 default).mother ≠ str "0"
    · rw [if_pos hm0]
      cases hlook : dictGet ((heap.getD n0 default).mother) dict with
      | none => exact ⟨_, rfl⟩
      | some m =>
        show ∃ k, phaseC dict (addDaughter heap m n0) rest = .error k
        apply ih
        rcases h with ⟨n, hn, hne, hnone⟩
        rcases List.mem_cons.mp hn with rfl | hmem
        · rw [hnone] at hlook
          exact absurd hlook (by simp)
        · exact ⟨n, hmem, by rw [addDaughter_mother]; exact hne,
            by rw [addDaughter_mother]; exact hnone⟩
    · rw [if_neg hm0]
      apply ih
      rcases h with ⟨n, hn, hne, hnone⟩
      rcases List.mem_cons.mp hn with rfl | hmem
      · exact absurd hne hm0
      · exact ⟨n, hmem, hne, hnone⟩

theorem phaseB_mother (dict : List (PyStr × Nat)) :
    ∀ (L : List Nat) (heap heap' : List PNode) (s : Nat),
      phaseB dict heap L s = .ok heap' →
      ∀ x, (heap'.getD x default).mother = (heap.getD x default).mother := by
  intro L
  induction L with
  | nil =>
    intro heap heap' s h x
    rw [phaseB] at h
    cases h
    rfl
  | cons lf0 rest ih =>
    intro heap heap' s h x
    rw [phaseB] at h
    cases hlook : dictGet (((setStrID heap lf0 [s]).getD lf0 default).mother) dict with
    | none => rw [hlook] at h; cases h
    | some m =>
      rw [hlook] at h
      rw [ih _ _ _ h x, addDaughter_mother, setStrID_mother]

theorem heap0_getD {tree : List Rec} {j : Nat} (hj : j < tree.length) :
    (tree.map Node_init).getD j default = Node_init (tree.getD j default) := by
  rw [List.getD_eq_getElem _ _ (by simpa using hj), List.getElem_map,
    List.getD_eq_getElem _ _ hj]

theorem buildTree_phaseB_error {tree : List Rec} {k : PyStr}
    (hB : phaseB (buildDict tree).1 (tree.map Node_init) (buildDict tree).2 0 =
      .error k) : buildTree tree = .error k := by
  simp only [buildTree, hB]

theorem buildTree_phaseC_error {tree : List Rec} {heap1 : List PNode} {k : PyStr}
    (hB : phaseB (buildDict tree).1 (tree.map Node_init) (buildDict tree).2 0 =
      .ok heap1)
    (hC : phaseC (buildDict tree).1 heap1 ((buildDict tree).1.map Prod.snd) =
      .error k) : buildTree tree = .error k := by
  simp only [buildTree, hB, hC]

/-- C5 (corrected): a record whose mother id is neither the root sentinel
`"0"` nor any internal node's id makes `induce` raise an uncaught `KeyError`
(there is no `MalformedTree` error in the code); the failing tree contributes
no rules, but contrary to the specified policy the corpus-level loop does
*not* continue: the exception aborts it and all subsequent trees are never
processed.  (Internal ids are assumed pairwise distinct; a duplicated id
shadows the earlier record in the node dictionary.) -/
theorem claim_C5 (rules : List Rule) (tree : List Rec) (ts : List (List Rec))
    (hnd : (internalIds tree).Nodup)
    (hbad : ∃ r ∈ tree, r.mother ≠ str "0" ∧ r.mother ∉ internalIds tree) :
    ∃ k, induce rules tree = .exn k ∧
      corpusRun rules (tree :: ts) = (rules, .exn k) := by
  rcases hbad with ⟨r, hm, hne0, hnotin⟩
  have hnone : dictGet r.mother (buildDict tree).1 = none :=
    dictGet_none_of_not_internal hnotin
  have herr : ∃ k, buildTree tree = .error k := by
    by_cases hleaf : r.id.headD ' ' = '#'
    · rcases buildDictGo_lookup tree 0 ([], []) r hm hleaf hnd (by simp) with
        ⟨j, hjget, _, hjlen, hget⟩
      rw [Nat.sub_zero] at hjlen hget
      cases hB : phaseB (buildDict tree).1 (tree.map Node_init) (buildDict tree).2 0 with
      | error k => exact ⟨k, buildTree_phaseB_error hB⟩
      | ok heap1 =>
        have hC : ∃ k, phaseC (buildDict tree).1 heap1
            ((buildDict tree).1.map Prod.snd) = .error k := by
          apply phaseC_error
          refine ⟨j, List.mem_map_of_mem Prod.snd (dictGet_mem hjget), ?_, ?_⟩
          · rw [phaseB_mother _ _ _ _ _ hB, heap0_getD hjlen, hget]
            exact hne0
          · rw [phaseB_mother _ _ _ _ _ hB, heap0_getD hjlen, hget]
            exact hnone
        rcases hC with ⟨k, hk⟩
        exact ⟨k, buildTree_phaseC_error hB hk⟩
    · rcases buildDictGo_leaf_mem tree 0 ([], []) r hm hleaf with
        ⟨j, hj, _, hjlen, hget⟩
      rw [Nat.sub_zero] at hjlen hget
      have hB : ∃ k, phaseB (buildDict tree).1 (tree.map Node_init)
          (buildDict tree).2 0 = .error k := by
        apply phaseB_error
        refine ⟨j, hj, ?_⟩
        rw [heap0_getD hjlen, hget]
        exact hnone
      rcases hB with ⟨k, hk⟩
      exact ⟨k, buildTree_phaseB_error hk⟩
  rcases herr with ⟨k, hk⟩
  have hind : induce rules tree = .exn k := by
    rw [induce, hk]
  exact ⟨k, hind, by rw [corpusRun, hind]⟩

/-- A tree whose single record names a non-existent mother `999`. -/
def badTree : List Rec := [⟨str "w0", str "A", str "999"⟩]

/-- Witness for C5: the bad tree aborts the whole corpus run. -/
theorem claim_C5_witness :
    ((internalIds badTree).Nodup ∧
      ∃ r ∈ badTree, r.mother ≠ str "0" ∧ r.mother ∉ internalIds badTree) ∧
    (∃ k, induce [] badTree = .exn k ∧
      corpusRun [] (badTree :: [[]]) = ([], .exn k)) :=
  ⟨⟨by decide, by decide⟩, claim_C5 [] badTree [[]] (by decide) (by decide)⟩

/-- C5 counterexample to the specified corpus policy: with the bad tree
first, the run aborts with the `KeyError` and the following (well-formed,
empty) tree is never processed — the final status is the exception, whereas
the same subsequent tree alone finishes with a normal completion status. -/
theorem claim_C5_cex :
    corpusRun [] [badTree, []] = ([], .exn (str "999")) ∧
    corpusRun [] [[]] = ([], .done) := ⟨rfl, rfl⟩

/-! ### The rule store: duplicate suppression, first-seen order, idempotence -/

theorem addRule_append_iff (rs : List Rule) (r : Rule) :
    addRule rs r = rs ++ [r] ↔ ∀ r' ∈ rs, r'.form ≠ r.form := by
  rw [addRule]
  by_cases h0 : rs = []
  · rw [if_pos h0, h0]
    simp
  · rw [if_neg h0]
    by_cases hany : rs.any (fun r' => r'.form = r.form) = true
    · rw [if_pos hany]
      constructor
      · intro he
        exact absurd (congrArg List.length he) (by simp)
      · intro hall
        rcases List.any_eq_true.mp hany with ⟨r', hr', hform⟩
        exact absurd (of_decide_eq_true hform) (hall r' hr')
    · rw [if_neg hany]
      constructor
      · intro _ r' hr' hform
        exact hany (List.any_eq_true.mpr ⟨r', hr', decide_eq_true hform⟩)
      · intro _
        rfl

theorem addRule_cases (rs : List Rule) (r : Rule) :
    addRule rs r = rs ++ [r] ∨ addRule rs r = rs := by
  rw [addRule]
  by_cases h0 : rs = []
  · rw [if_pos h0]
    exact Or.inl rfl
  · rw [if_neg h0]
    by_cases hany : rs.any (fun r' => r'.form = r.form) = true
    · rw [if_pos hany]
      exact Or.inr rfl
    · rw [if_neg hany]
      exact Or.inl rfl

theorem addRule_pairwise {rs : List Rule} {r : Rule}
    (h : rs.Pairwise (fun a b => a.form ≠ b.form)) :
    (addRule rs r).Pairwise (fun a b => a.form ≠ b.form) := by
  rcases addRule_cases rs r with he | he
  · have hall := (addRule_append_iff rs r).mp he
    rw [he, List.pairwise_append]
    exact ⟨h, by simp, fun a ha b hb => by
      rw [List.mem_singleton] at hb
      rw [hb]
      exact hall a ha⟩
  · rw [he]
    exact h

theorem addRule_mem_form (rs : List Rule) (r : Rule) :
    ∃ r' ∈ addRule rs r, r'.form = r.form := by
  by_cases h0 : rs = []
  · refine ⟨r, ?_, rfl⟩
    rw [addRule, if_pos h0]
    simp
  · by_cases hany : rs.any (fun r' => r'.form = r.form) = true
    · rcases List.any_eq_true.mp hany with ⟨r', hr', hform⟩
      refine ⟨r', ?_, of_decide_eq_true hform⟩
      rw [addRule, if_neg h0, if_pos hany]
      exact hr'
    · refine ⟨r, ?_, rfl⟩
      rw [addRule, if_neg h0, if_neg hany]
      simp

theorem addRule_noop {rs : List Rule} {r : Rule}
    (h : ∃ r' ∈ rs, r'.form = r.form) : addRule rs r = rs := by
  rcases h with ⟨r', hr', hform⟩
  have h0 : rs ≠ [] := by
    intro h0
    rw [h0] at hr'
    exact absurd hr' (List.not_mem_nil r')
  rw [addRule, if_neg h0,
    if_pos (List.any_eq_true.mpr ⟨r', hr', decide_eq_true hform⟩)]

theorem induceRules_extend (heap : List PNode) :
    ∀ (ns : List Nat) (rs : List Rule), ∃ ext, induceRules heap ns rs = rs ++ ext := by
  intro ns
  induction ns with
  | nil => intro rs; exact ⟨[], by rw [induceRules]; simp⟩
  | cons n rest ih =>
    intro rs
    rw [induceRules] at *
    rw [List.foldl_cons]
    rcases addRule_cases rs (mkRule heap (heap.getD n default)) with he | he
    · rcases ih (rs ++ [mkRule heap (heap.getD n default)]) with ⟨ext, hext⟩
      exact ⟨[mkRule heap (heap.getD n default)] ++ ext, by
        rw [he]
        rw [induceRules] at hext
        rw [hext, List.append_assoc]⟩
    · rcases ih rs with ⟨ext, hext⟩
      rw [induceRules] at hext
      exact ⟨ext, by rw [he, hext]⟩

theorem induceRules_pairwise (heap : List PNode) :
    ∀ (ns : List Nat) (rs : List Rule),
      rs.Pairwise (fun a b => a.form ≠ b.form) →
      (induceRules heap ns rs).Pairwise (fun a b => a.form ≠ b.form) := by
  intro ns
  induction ns with
  | nil => intro rs h; rw [induceRules]; exact h
  | cons n rest ih =>
    intro rs h
    rw [induceRules, List.foldl_cons]
    exact ih _ (addRule_pairwise h)

theorem induceRules_mem_form (heap : List PNode) :
    ∀ (ns : List Nat) (rs : List Rule) (n : Nat), n ∈ ns →
      ∃ r' ∈ induceRules heap ns rs,
        r'.form = (mkRule heap (heap.getD n default)).form := by
  intro ns
  induction ns with
  | nil => intro rs n h; exact absurd h (List.not_mem_nil n)
  | cons n0 rest ih =>
    intro rs n h
    rw [induceRules, List.foldl_cons]
    rcases List.mem_cons.mp h with rfl | hmem
    · rcases addRule_mem_form rs (mkRule heap (heap.getD n default)) with ⟨r', hr', hform⟩
      rcases induceRules_extend heap rest (addRule rs (mkRule heap (heap.getD n default)))
        with ⟨ext, hext⟩
      rw [induceRules] at hext
      exact ⟨r', by rw [hext]; exact List.mem_append_left _ hr', hform⟩
    · exact ih _ n hmem

theorem induceRules_idem (heap : List PNode) :
    ∀ (ns : List Nat) (rs : List Rule),
      (∀ n ∈ ns, ∃ r' ∈ rs, r'.form = (mkRule heap (heap.getD n default)).form) →
      induceRules heap ns rs = rs := by
  intro ns
  induction ns with
  | nil => intro rs _; rw [induceRules]; simp
  | cons n0 rest ih =>
    intro rs h
    rw [induceRules, List.foldl_cons, addRule_noop (h n0 (List.mem_cons_self _ _))]
    exact ih rs (fun n hn => h n (List.mem_cons_of_mem _ hn))

/-- The normal return of `induce` in terms of its phases. -/
theorem induce_ok_iff {rules : List Rule} {tree : List Rec} {rules' : List Rule} :
    induce rules tree = .ok rules' ↔
      ∃ heap2 dict leaves heap3 nodes2,
        buildTree tree = .ok (heap2, dict, leaves) ∧
        propagate heap2 [] (dict.map Prod.snd) = some (heap3, nodes2) ∧
        rules' = induceRules heap3 nodes2 (induceRules heap3 leaves rules) := by
  constructor
  · intro h
    cases hbt : buildTree tree with
    | error k =>
      rw [induce, hbt] at h
      exact absurd h (by simp)
    | ok trip =>
      rcases trip with ⟨heap2, dict, leaves⟩
      simp only [induce, hbt] at h
      cases hprop : propagate heap2 [] (dict.map Prod.snd) with
      | none =>
        simp only [hprop] at h
        exact absurd h (by simp)
      | some pr =>
        rcases pr with ⟨heap3, nodes2⟩
        simp only [hprop] at h
        exact ⟨heap2, dict, leaves, heap3, nodes2, rfl, hprop, (Outcome.ok.inj h).symm⟩
  · intro h
    rcases h with ⟨heap2, dict, leaves, heap3, nodes2, hbt, hprop, hr⟩
    simp only [induce, hbt, hprop]
    rw [hr]

/-- C7: the rule store never holds two rules with the same form: a new rule
is appended exactly when its form differs from every stored rule's form,
stored rules are kept in first-seen order (every run only appends), and the
pairwise-distinct-forms invariant is preserved by any corpus run. -/
theorem claim_C7 (rules : List Rule) (trees : List (List Rec))
    (h : rules.Pairwise (fun a b => a.form ≠ b.form)) :
    ((corpusRun rules trees).1.Pairwise (fun a b => a.form ≠ b.form) ∧
      ∃ ext, (corpusRun rules trees).1 = rules ++ ext) ∧
    ∀ (rs : List Rule) (r : Rule),
      (addRule rs r = rs ++ [r] ↔ ∀ r' ∈ rs, r'.form ≠ r.form) ∧
      (addRule rs r = rs ++ [r] ∨ addRule rs r = rs) := by
  refine ⟨?_, fun rs r => ⟨addRule_append_iff rs r, addRule_cases rs r⟩⟩
  induction trees generalizing rules with
  | nil =>
    rw [corpusRun]
    exact ⟨h, [], by simp⟩
  | cons t ts ih =>
    rw [corpusRun]
    cases hind : induce rules t with
    | ok rules1 =>
      rcases induce_ok_iff.mp hind with ⟨h2, d, lv, h3, n2, _, _, hr⟩
      have hp1 : rules1.Pairwise (fun a b => a.form ≠ b.form) := by
        rw [hr]
        exact induceRules_pairwise h3 n2 _ (induceRules_pairwise h3 lv rules h)
      rcases ih rules1 hp1 with ⟨hpw, ext2, hext2⟩
      refine ⟨hpw, ?_⟩
      rcases induceRules_extend h3 lv rules with ⟨e1, he1⟩
      rcases induceRules_extend h3 n2 (induceRules h3 lv rules) with ⟨e2, he2⟩
      exact ⟨e1 ++ e2 ++ ext2, by rw [hext2, hr, he2, he1]; simp⟩
    | exn k => exact ⟨h, [], by simp⟩
    | hang => exact ⟨h, [], by simp⟩

/-- Witness for C7 with an empty store and a one-tree corpus. -/
theorem claim_C7_witness :
    ([] : List Rule).Pairwise (fun a b => a.form ≠ b.form) ∧
    (((corpusRun [] [[]]).1.Pairwise (fun a b => a.form ≠ b.form) ∧
      ∃ ext, (corpusRun [] [[]]).1 = [] ++ ext) ∧
    ∀ (rs : List Rule) (r : Rule),
      (addRule rs r = rs ++ [r] ↔ ∀ r' ∈ rs, r'.form ≠ r.form) ∧
      (addRule rs r = rs ++ [r] ∨ addRule rs r = rs)) :=
  ⟨by simp, claim_C7 [] [[]] (by simp)⟩

/-- C8: induction is idempotent per tree: a successful `induce` run repeated
on the same record lines re-derives rules with the same forms, so the
duplicate check appends nothing and the store is returned unchanged. -/
theorem claim_C8 (rules rules' : List Rule) (tree : List Rec)
    (h : induce rules tree = .ok rules') :
    induce rules' tree = .ok rules' := by
  rcases induce_ok_iff.mp h with ⟨heap2, dict, leaves, heap3, nodes2, hbt, hprop, hr⟩
  have hleafmem : ∀ n ∈ leaves, ∃ r' ∈ rules',
      r'.form = (mkRule heap3 (heap3.getD n default)).form := by
    intro n hn
    rcases induceRules_mem_form heap3 leaves rules n hn with ⟨r', hr', hform⟩
    rcases induceRules_extend heap3 nodes2 (induceRules heap3 leaves rules) with ⟨e, he⟩
    exact ⟨r', by rw [hr, he]; exact List.mem_append_left _ hr', hform⟩
  have hnodemem : ∀ n ∈ nodes2, ∃ r' ∈ rules',
      r'.form = (mkRule heap3 (heap3.getD n default)).form := by
    intro n hn
    rw [hr]
    exact induceRules_mem_form heap3 nodes2 _ n hn
  apply induce_ok_iff.mpr
  refine ⟨heap2, dict, leaves, heap3, nodes2, hbt, hprop, ?_⟩
  rw [induceRules_idem heap3 leaves rules' hleafmem,
    induceRules_idem heap3 nodes2 rules' hnodemem]

/-- Witness for C8 on the empty tree. -/
theorem claim_C8_witness :
    induce [] [] = .ok [] ∧ induce [] [] = .ok [] :=
  ⟨rfl, claim_C8 [] [] [] rfl⟩

/-! ### Termination behaviour of the span-propagation loop -/

theorem forPassF_length_le :
    ∀ (fuel : Nat) (hp : List PNode) (d L : List Nat) (i : Nat),
      (forPassF hp d L i fuel).2.2.length ≤ L.length := by
  intro fuel
  induction fuel with
  | zero => intro hp d L i; exact le_refl _
  | succ fuel ih =>
    intro hp d L i
    rw [forPassF]
    by_cases hi : i < L.length
    · rw [if_pos hi]
      simp only []
      have hmem : L.getD i 0 ∈ L := by
        rw [List.getD_eq_getElem L 0 hi]
        exact L.getElem_mem hi
      have herase := List.length_erase_of_mem hmem
      by_cases hd : allDHS hp (L.getD i 0)
      · rw [if_pos hd]
        have := ih (getStrID hp (L.getD i 0)) (d ++ [L.getD i 0])
          (L.erase (L.getD i 0)) (i + 1)
        omega
      · rw [if_neg hd]
        exact ih hp d L (i + 1)
    · rw [if_neg hi]

theorem forPassF_stall :
    ∀ (fuel : Nat) (hp : List PNode) (d L : List Nat) (i : Nat),
      (forPassF hp d L i fuel).2.2.length = L.length →
      forPassF hp d L i fuel = (hp, d, L) := by
  intro fuel
  induction fuel with
  | zero => intro hp d L i _; rfl
  | succ fuel ih =>
    intro hp d L i h
    rw [forPassF] at h ⊢
    by_cases hi : i < L.length
    · rw [if_pos hi] at h ⊢
      simp only [] at h ⊢
      have hmem : L.getD i 0 ∈ L := by
        rw [List.getD_eq_getElem L 0 hi]
        exact L.getElem_mem hi
      have herase := List.length_erase_of_mem hmem
      by_cases hd : allDHS hp (L.getD i 0)
      · rw [if_pos hd] at h
        have := forPassF_length_le fuel (getStrID hp (L.getD i 0))
          (d ++ [L.getD i 0]) (L.erase (L.getD i 0)) (i + 1)
        omega
      · rw [if_neg hd] at h ⊢
        exact ih hp d L (i + 1) h
    · rw [if_neg hi] at h ⊢

theorem forPass_length_le (hp : List PNode) (d L : List Nat) (i : Nat) :
    (forPass hp d L i).2.2.length ≤ L.length :=
  forPassF_length_le _ hp d L i

theorem forPass_stall {hp : List PNode} {d L : List Nat} {i : Nat}
    (h : (forPass hp d L i).2.2.length = L.length) :
    forPass hp d L i = (hp, d, L) :=
  forPassF_stall _ hp d L i h

theorem passStep_length_le (s : PropState) :
    (passStep s).2.2.length ≤ s.2.2.length := by
  rw [passStep]
  by_cases he : s.2.2 = []
  · rw [if_pos he]
  · rw [if_neg he]
    exact forPass_length_le s.1 s.2.1 s.2.2 0

theorem passStep_stall {s : PropState}
    (h : (passStep s).2.2.length = s.2.2.length) : passStep s = s := by
  rw [passStep] at h ⊢
  by_cases he : s.2.2 = []
  · rw [if_pos he]
  · rw [if_neg he] at h ⊢
    have hs := forPass_stall (i := 0) h
    rw [hs]

theorem passN_fix {s : PropState} (h : passStep s = s) : ∀ n, passN s n = s := by
  intro n
  induction n with
  | zero => rfl
  | succ n ih =>
    rw [passN, h]
    exact ih

theorem passN_add (s : PropState) : ∀ (a b : Nat), passN s (a + b) = passN (passN s a) b := by
  intro a
  induction a generalizing s with
  | zero =>
    intro b
    rw [Nat.zero_add]
    rfl
  | succ a ih =>
    intro b
    rw [Nat.succ_add, passN, passN, ih]

theorem exists_stall :
    ∀ (N : Nat) (s : PropState), (passN s N).2.2 ≠ [] → s.2.2.length < N →
      ∃ j, passStep (passN s j) = passN s j ∧ (passN s j).2.2 ≠ [] := by
  intro N
  induction N with
  | zero => intro s _ h; omega
  | succ N ih =>
    intro s hne hlt
    by_cases hfix : passStep s = s
    · refine ⟨0, hfix, ?_⟩
      rw [passN_fix hfix] at hne
      exact hne
    · have hlen : (passStep s).2.2.length < s.2.2.length := by
        have h1 := passStep_length_le s
        rcases Nat.lt_or_ge (passStep s).2.2.length s.2.2.length with h2 | h2
        · exact h2
        · exact absurd (passStep_stall (by omega)) hfix
      have hne' : (passN (passStep s) N).2.2 ≠ [] := by
        rw [← passN]
        exact hne
      rcases ih (passStep s) hne' (by omega) with ⟨j, hj1, hj2⟩
      exact ⟨j + 1, by rw [show j + 1 = 1 + j from by omega, passN_add]; exact hj1,
        by rw [show j + 1 = 1 + j from by omega, passN_add]; exact hj2⟩

theorem diverges_of_stall {s : PropState} {j : Nat}
    (hfix : passStep (passN s j) = passN s j) (hne : (passN s j).2.2 ≠ []) :
    divergesFrom s := by
  intro n
  by_cases hc : j ≤ n
  · have : passN s n = passN s j := by
      rw [show n = j + (n - j) from by omega, passN_add, passN_fix hfix]
    rw [this]
    exact hne
  · intro hempty
    have hfix0 : passStep (passN s n) = passN s n := by
      rw [passStep, if_pos hempty]
    have : passN s j = passN s n := by
      rw [show j = n + (j - n) from by omega, passN_add, passN_fix hfix0]
    exact hne (by rw [this]; exact hempty)

/-- C6 (corrected): the span-propagation loop of `induce` has exactly two
behaviours: it empties the pending list (the fixpoint is reached), or it
repeats a state forever and never terminates.  The code contains no
`UnresolvableTree` error at all, so on a cyclic or leaf-free daughter
structure the `while` loop runs indefinitely rather than failing. -/
theorem claim_C6 (heap : List PNode) (L : List Nat) :
    propagate heap [] L = none ↔ divergesFrom (heap, [], L) := by
  constructor
  · intro h
    rw [propagate] at h
    by_cases hr : (passN (heap, [], L) (L.length + 1)).2.2 = []
    · rw [if_pos hr] at h
      exact absurd h (by simp)
    · rcases exists_stall (L.length + 1) (heap, [], L) hr (by simp) with ⟨j, hj1, hj2⟩
      exact diverges_of_stall hj1 hj2
  · intro h
    rw [propagate]
    rw [if_neg (h (L.length + 1))]

/-- Two internal records which are each other's mothers. -/
def cycTree : List Rec :=
  [⟨str "#500", str "A", str "501"⟩, ⟨str "#501", str "B", str "500"⟩]

/-- The heap built from `cycTree`. -/
def cycHeap : List PNode :=
  [⟨str "#500", str "A", str "501", [], [1]⟩,
   ⟨str "#501", str "B", str "500", [], [0]⟩]

/-- C6 counterexample: on the cyclic tree, `induce` hangs — span propagation
repeats the initial state forever, and no `UnresolvableTree` (or any other)
error is raised. -/
theorem claim_C6_cex :
    induce [] cycTree = .hang ∧
    buildTree cycTree = .ok (cycHeap, [(str "500", 0), (str "501", 1)], []) ∧
    divergesFrom (cycHeap, [], [0, 1]) := by
  refine ⟨rfl, rfl, ?_⟩
  exact diverges_of_stall (s := (cycHeap, [], [0, 1])) (j := 0) rfl (by decide)

/-! ### Daughter order and right-hand-side predicate order -/

theorem dictInsert_append {k : PyStr} {v : Nat} :
    ∀ {d : List (PyStr × Nat)}, (∀ v', (k, v') ∉ d) → dictInsert k v d = d ++ [(k, v)] := by
  intro d
  induction d with
  | nil => intro _; rfl
  | cons e rest ih =>
    intro h
    cases e with
    | mk a b =>
      rw [dictInsert]
      by_cases he : a = k
      · exact absurd (by rw [he]; exact List.mem_cons_self _ _) (h b)
      · rw [if_neg he, ih (fun v' hv' => h v' (List.mem_cons_of_mem _ hv'))]
        rfl

theorem buildDictGo_values :
    ∀ (tree : List Rec) (i : Nat) (acc : List (PyStr × Nat) × List Nat),
      (∀ r' ∈ tree, r'.id.headD ' ' = '#' → ∀ v, (r'.id.drop 1, v) ∉ acc.1) →
      (internalIds tree).Nodup →
      (buildDictGo acc tree i).1.map Prod.snd =
        acc.1.map Prod.snd ++
          (((List.range tree.length).filter
            (fun j => (tree.getD j default).id.headD ' ' = '#')).map (fun j => i + j)) := by
  intro tree
  induction tree with
  | nil =>
    intro i acc _ _
    rw [buildDictGo]
    simp
  | cons r rest ih =>
    intro i acc hacc hnd
    rw [buildDictGo]
    have hrange : List.range (r :: rest).length = 0 :: (List.range rest.length).map Nat.succ := by
      rw [List.length_cons, List.range_succ_eq_map]
    rw [hrange, List.filter_cons]
    by_cases hr : r.id.headD ' ' = '#'
    · rw [internalIds_cons_pos rest hr, List.nodup_cons] at hnd
      rw [if_pos hr]
      have hacc' : ∀ r' ∈ rest, r'.id.headD ' ' = '#' →
          ∀ v, (r'.id.drop 1, v) ∉ (dictInsert (r.id.drop 1) i acc.1) := by
        intro r' hr' hint v hv
        rcases mem_dictInsert hv with h | h
        · rw [Prod.mk.injEq] at h
          exact hnd.1 (h.1 ▸ mem_internalIds hr' hint)
        · exact hacc r' (List.mem_cons_of_mem _ hr') hint v h
      rw [if_pos (by
        rw [decide_eq_true_eq, List.getD_cons_zero]
        exact hr)]
      have hfun : ((fun j => i + j) ∘ Nat.succ) = (fun j => (i + 1) + j) := by
        funext j
        simp only [Function.comp]
        omega
      have hpred : ((fun j => decide ((((r :: rest).getD j default).id.headD ' ') = '#')) ∘
          Nat.succ) = (fun j => decide (((rest.getD j default).id.headD ' ') = '#')) := by
        funext j
        simp only [Function.comp, List.getD_cons_succ]
      rw [ih (i + 1) _ hacc' hnd.2]
      rw [dictInsert_append (hacc r (List.mem_cons_self _ _) hr)]
      simp only [List.map_append, List.filter_map, List.map_cons, List.map_map, hpred,
        hfun, List.map_nil, Nat.add_zero, List.append_assoc, List.singleton_append,
        List.nil_append]
    · rw [internalIds_cons_neg rest hr] at hnd
      rw [if_neg hr]
      rw [if_neg (by
        rw [decide_eq_true_eq, List.getD_cons_zero]
        exact hr)]
      have hfun : ((fun j => i + j) ∘ Nat.succ) = (fun j => (i + 1) + j) := by
        funext j
        simp only [Function.comp]
        omega
      have hpred : ((fun j => decide ((((r :: rest).getD j default).id.headD ' ') = '#')) ∘
          Nat.succ) = (fun j => decide (((rest.getD j default).id.headD ' ') = '#')) := by
        funext j
        simp only [Function.comp, List.getD_cons_succ]
      rw [ih (i + 1) (acc.1, acc.2 ++ [i])
        (fun r' hr' => hacc r' (List.mem_cons_of_mem _ hr')) hnd]
      rw [List.filter_map, List.map_map, hpred, hfun]

theorem phaseC_mother (dict : List (PyStr × Nat)) :
    ∀ (ns : List Nat) (heap heap' : List PNode),
      phaseC dict heap ns = .ok heap' →
      ∀ x, (heap'.getD x default).mother = (heap.getD x default).mother := by
  intro ns
  induction ns with
  | nil =>
    intro heap heap' h x
    rw [phaseC] at h
    cases h
    rfl
  | cons n0 rest ih =>
    intro heap heap' h x
    rw [phaseC] at h
    by_cases hm0 : (heap.getD n0 default).mother ≠ str "0"
    · rw [if_pos hm0] at h
      cases hlook : dictGet ((heap.getD n0 default).mother) dict with
      | none => rw [hlook] at h; cases h
      | some m =>
        rw [hlook] at h
        rw [ih _ _ h x, addDaughter_mother]
    · rw [if_neg hm0] at h
      exact ih _ _ h x

theorem phaseB_label (dict : List (PyStr × Nat)) :
    ∀ (L : List Nat) (heap heap' : List PNode) (s : Nat),
      phaseB dict heap L s = .ok heap' →
      ∀ x, (heap'.getD x default).label = (heap.getD x default).label := by
  intro L
  induction L with
  | nil =>
    intro heap heap' s h x
    rw [phaseB] at h
    cases h
    rfl
  | cons lf0 rest ih =>
    intro heap heap' s h x
    rw [phaseB] at h
    cases hlook : dictGet (((setStrID heap lf0 [s]).getD lf0 default).mother) dict with
    | none => rw [hlook] at h; cases h
    | some m =>
      rw [hlook] at h
      rw [ih _ _ _ h x, addDaughter_label, setStrID_label]

theorem phaseC_label (dict : List (PyStr × Nat)) :
    ∀ (ns : List Nat) (heap heap' : List PNode),
      phaseC dict heap ns = .ok heap' →
      ∀ x, (heap'.getD x default).label = (heap.getD x default).label := by
  intro ns
  induction ns with
  | nil =>
    intro heap heap' h x
    rw [phaseC] at h
    cases h
    rfl
  | cons n0 rest ih =>
    intro heap heap' h x
    rw [phaseC] at h
    by_cases hm0 : (heap.getD n0 default).mother ≠ str "0"
    · rw [if_pos hm0] at h
      cases hlook : dictGet ((heap.getD n0 default).mother) dict with
      | none => rw [hlook] at h; cases h
      | some m =>
        rw [hlook] at h
        rw [ih _ _ h x, addDaughter_label]
    · rw [if_neg hm0] at h
      exact ih _ _ h x

theorem addDaughter_daughters_self (h : List PNode) (m i : Nat) (hm : m < h.length) :
    ((addDaughter h m i).getD m default).daughters =
      (h.getD m default).daughters ++ [i] := by
  rw [addDaughter, getD_set_self hm]

theorem addDaughter_daughters_other (h : List PNode) (m i x : Nat) (hx : m ≠ x) :
    ((addDaughter h m i).getD x default).daughters =
      (h.getD x default).daughters := by
  rw [addDaughter, getD_set_other hx]

theorem addDaughter_daughters_oob (h : List PNode) (m i : Nat) (hm : ¬ m < h.length) :
    addDaughter h m i = h := by
  rw [addDaughter, List.set_eq_of_length_le (Nat.le_of_not_lt hm)]

theorem phaseB_daughters (dict : List (PyStr × Nat)) :
    ∀ (L : List Nat) (heap heap' : List PNode) (s : Nat),
      phaseB dict heap L s = .ok heap' →
      (∀ m lf, dictGet ((heap.getD lf default).mother) dict = some m → m < heap.length) →
      ∀ n, (heap'.getD n default).daughters =
        (heap.getD n default).daughters ++
          L.filter (fun lf => dictGet ((heap.getD lf default).mother) dict = some n) := by
  intro L
  induction L with
  | nil =>
    intro heap heap' s h _ n
    rw [phaseB] at h
    cases h
    simp
  | cons lf0 rest ih =>
    intro heap heap' s h hbound n
    rw [phaseB] at h
    cases hlook : dictGet (((setStrID heap lf0 [s]).getD lf0 default).mother) dict with
    | none => rw [hlook] at h; cases h
    | some m =>
      rw [hlook] at h
      rw [setStrID_mother] at hlook
      have hmlt : m < heap.length := hbound m lf0 hlook
      have hlen1 : (addDaughter (setStrID heap lf0 [s]) m lf0).length = heap.length := by
        rw [addDaughter, setStrID, List.length_set, List.length_set]
      have hbound' : ∀ m' lf,
          dictGet (((addDaughter (setStrID heap lf0 [s]) m lf0).getD lf default).mother)
            dict = some m' → m' < (addDaughter (setStrID heap lf0 [s]) m lf0).length := by
        intro m' lf hl
        rw [addDaughter_mother, setStrID_mother] at hl
        rw [hlen1]
        exact hbound m' lf hl
      have hrec := ih _ _ _ h hbound' n
      have hfc : (rest.filter (fun lf =>
          dictGet (((addDaughter (setStrID heap lf0 [s]) m lf0).getD lf default).mother)
            dict = some n)) =
          rest.filter (fun lf => dictGet ((heap.getD lf default).mother) dict = some n) := by
        apply List.filter_congr
        intro lf _
        rw [addDaughter_mother, setStrID_mother]
      rw [hrec, hfc, List.filter_cons]
      by_cases hmn : m = n
      · rw [if_pos (by
          rw [decide_eq_true_eq, hlook, hmn])]
        rw [hmn] at hmlt ⊢
        rw [addDaughter_daughters_self _ _ _ (by rw [setStrID, List.length_set]; exact hmlt),
          setStrID_daughters]
        simp
      · rw [if_neg (by
          rw [decide_eq_true_eq, hlook]
          intro hcon
          exact hmn (Option.some.inj hcon))]
        rw [addDaughter_daughters_other _ _ _ _ hmn, setStrID_daughters]

theorem phaseC_daughters (dict : List (PyStr × Nat)) :
    ∀ (ns : List Nat) (heap heap' : List PNode),
      phaseC dict heap ns = .ok heap' →
      (∀ m v, dictGet ((heap.getD v default).mother) dict = some m → m < heap.length) →
      ∀ n, (heap'.getD n default).daughters =
        (heap.getD n default).daughters ++
          ns.filter (fun v => (heap.getD v default).mother ≠ str "0" ∧
            dictGet ((heap.getD v default).mother) dict = some n) := by
  intro ns
  induction ns with
  | nil =>
    intro heap heap' h _ n
    rw [phaseC] at h
    cases h
    simp
  | cons n0 rest ih =>
    intro heap heap' h hbound n
    rw [phaseC] at h
    by_cases hm0 : (heap.getD n0 default).mother ≠ str "0"
    · rw [if_pos hm0] at h
      cases hlook : dictGet ((heap.getD n0 default).mother) dict with
      | none => rw [hlook] at h; cases h
      | some m =>
        rw [hlook] at h
        have hmlt : m < heap.length := hbound m n0 hlook
        have hlen1 : (addDaughter heap m n0).length = heap.length := by
          rw [addDaughter, List.length_set]
        have hbound' : ∀ m' v,
            dictGet (((addDaughter heap m n0).getD v default).mother) dict = some m' →
              m' < (addDaughter heap m n0).length := by
          intro m' v hl
          rw [addDaughter_mother] at hl
          rw [hlen1]
          exact hbound m' v hl
        have hrec := ih _ _ h hbound' n
        have hfc : (rest.filter (fun v =>
            ((addDaughter heap m n0).getD v default).mother ≠ str "0" ∧
              dictGet (((addDaughter heap m n0).getD v default).mother) dict = some n)) =
            rest.filter (fun v => (heap.getD v default).mother ≠ str "0" ∧
              dictGet ((heap.getD v default).mother) dict = some n) := by
          apply List.filter_congr
          intro v _
          rw [addDaughter_mother]
        rw [hrec, hfc, List.filter_cons]
        by_cases hmn : m = n
        · rw [if_pos (by
            rw [decide_eq_true_eq]
            exact ⟨hm0, by rw [hlook, hmn]⟩)]
          rw [hmn] at hmlt ⊢
          rw [addDaughter_daughters_self _ _ _ hmlt]
          simp
        · rw [if_neg (by
            rw [decide_eq_true_eq]
            intro hcon
            rw [hlook] at hcon
            exact hmn (Option.some.inj hcon.2))]
          rw [addDaughter_daughters_other _ _ _ _ hmn]
    · rw [if_neg hm0] at h
      have hrec := ih _ _ h hbound n
      rw [hrec, List.filter_cons]
      rw [if_neg (by
        rw [decide_eq_true_eq]
        intro hcon
        exact hm0 hcon.1)]

theorem predloop_names :
    ∀ (ps : List Predicate) (lhsArgs : List PyStr) (cnt : Nat),
      ((predloop lhsArgs cnt ps).2.1).map Predicate.name = ps.map Predicate.name ∧
      ((predloop lhsArgs cnt ps).2.1).length = ps.length := by
  intro ps
  induction ps with
  | nil => intro lhsArgs cnt; exact ⟨rfl, rfl⟩
  | cons p rest ih =>
    intro lhsArgs cnt
    rw [predloop]
    simp only [List.map_cons, List.length_cons]
    constructor
    · rw [(ih _ _).1]
    · rw [(ih _ _).2]

theorem buildDictGo_value_bound :
    ∀ (tree : List Rec) (i : Nat) (acc : List (PyStr × Nat) × List Nat)
      (k : PyStr) (v : Nat),
      (k, v) ∈ (buildDictGo acc tree i).1 →
      (k, v) ∈ acc.1 ∨ (i ≤ v ∧ v - i < tree.length) := by
  intro tree
  induction tree with
  | nil =>
    intro i acc k v h
    rw [buildDictGo] at h
    exact Or.inl h
  | cons r rest ih =>
    intro i acc k v h
    rw [buildDictGo] at h
    by_cases hr : r.id.headD ' ' = '#'
    · rw [if_pos hr] at h
      rcases ih _ _ _ _ h with h1 | h1
      · rcases mem_dictInsert h1 with h2 | h2
        · rw [Prod.mk.injEq] at h2
          right
          rw [h2.2]
          simp
        · exact Or.inl h2
      · right
        simp only [List.length_cons]
        omega
    · rw [if_neg hr] at h
      rcases ih _ _ _ _ h with h1 | h1
      · exact Or.inl h1
      · right
        simp only [List.length_cons]
        omega

theorem phaseB_length (dict : List (PyStr × Nat)) :
    ∀ (L : List Nat) (heap heap' : List PNode) (s : Nat),
      phaseB dict heap L s = .ok heap' → heap'.length = heap.length := by
  intro L
  induction L with
  | nil =>
    intro heap heap' s h
    rw [phaseB] at h
    cases h
    rfl
  | cons lf0 rest ih =>
    intro heap heap' s h
    rw [phaseB] at h
    cases hlook : dictGet (((setStrID heap lf0 [s]).getD lf0 default).mother) dict with
    | none => rw [hlook] at h; cases h
    | some m =>
      rw [hlook] at h
      rw [ih _ _ _ h, addDaughter, List.length_set, setStrID, List.length_set]

theorem phaseC_length (dict : List (PyStr × Nat)) :
    ∀ (ns : List Nat) (heap heap' : List PNode),
      phaseC dict heap ns = .ok heap' → heap'.length = heap.length := by
  intro ns
  induction ns with
  | nil =>
    intro heap heap' h
    rw [phaseC] at h
    cases h
    rfl
  | cons n0 rest ih =>
    intro heap heap' h
    rw [phaseC] at h
    by_cases hm0 : (heap.getD n0 default).mother ≠ str "0"
    · rw [if_pos hm0] at h
      cases hlook : dictGet ((heap.getD n0 default).mother) dict with
      | none => rw [hlook] at h; cases h
      | some m =>
        rw [hlook] at h
        rw [ih _ _ h, addDaughter, List.length_set]
    · rw [if_neg hm0] at h
      exact ih _ _ h

theorem buildTree_ok_iff {tree : List Rec} {heap2 : List PNode}
    {dict : List (PyStr × Nat)} {leaves : List Nat} :
    buildTree tree = .ok (heap2, dict, leaves) ↔
      dict = (buildDict tree).1 ∧ leaves = (buildDict tree).2 ∧
      ∃ heap1,
        phaseB (buildDict tree).1 (tree.map Node_init) (buildDict tree).2 0 = .ok heap1 ∧
        phaseC (buildDict tree).1 heap1 ((buildDict tree).1.map Prod.snd) = .ok heap2 := by
  constructor
  · intro h
    cases hB : phaseB (buildDict tree).1 (tree.map Node_init) (buildDict tree).2 0 with
    | error k =>
      rw [buildTree_phaseB_error hB] at h
      exact absurd h (by simp)
    | ok heap1 =>
      cases hC : phaseC (buildDict tree).1 heap1 ((buildDict tree).1.map Prod.snd) with
      | error k =>
        rw [buildTree_phaseC_error hB hC] at h
        exact absurd h (by simp)
      | ok heap2' =>
        have hbt : buildTree tree = .ok (heap2', (buildDict tree).1, (buildDict tree).2) := by
          simp only [buildTree, hB, hC]
        rw [hbt] at h
        have h3 := Except.ok.inj h
        rw [Prod.mk.injEq, Prod.mk.injEq] at h3
        exact ⟨h3.2.1.symm, h3.2.2.symm, heap1, rfl, by rw [h3.1] at hC; exact hC⟩
  · intro h
    rcases h with ⟨hd, hl, heap1, hB, hC⟩
    rw [hd, hl]
    simp only [buildTree, hB, hC]

theorem heap0_daughters (tree : List Rec) (n : Nat) :
    ((tree.map Node_init).getD n default).daughters = [] := by
  by_cases hn : n < tree.length
  · rw [heap0_getD hn]
    rfl
  · rw [List.getD_eq_getElem?_getD, List.getElem?_eq_none (by simpa using Nat.le_of_not_lt hn)]
    rfl

/-- C9: in the built tree every internal node's daughter list is exactly its
leaf daughters, in left-to-right input order, followed by its internal-node
daughters in record-declaration order (the dictionary values are the
internal record indices in declaration order); and the right-hand side of a
rule built from an internal node has one predicate per daughter, named by
the daughters' labels, in exactly the daughter order. -/
theorem claim_C9 (tree : List Rec) (heap2 : List PNode) (dict : List (PyStr × Nat))
    (leaves : List Nat) (hnd : (internalIds tree).Nodup)
    (hbt : buildTree tree = .ok (heap2, dict, leaves)) :
    (∀ n, (heap2.getD n default).daughters =
      leaves.filter (fun lf =>
        dictGet (((tree.map Node_init).getD lf default).mother) dict = some n) ++
      (dict.map Prod.snd).filter (fun v =>
        ((tree.map Node_init).getD v default).mother ≠ str "0" ∧
        dictGet (((tree.map Node_init).getD v default).mother) dict = some n)) ∧
    dict.map Prod.snd =
      (List.range tree.length).filter
        (fun j => (tree.getD j default).id.headD ' ' = '#') ∧
    (∀ (heap : List PNode) (node : PNode), node.id.headD ' ' = '#' →
      ∃ ps, (mkRule heap node).rhs = Rhs.preds ps ∧
        ps.map Predicate.name = (daughtersOf heap node).map PNode.label ∧
        ps.length = (daughtersOf heap node).length) := by
  rcases buildTree_ok_iff.mp hbt with ⟨hd, hl, heap1, hB, hC⟩
  have hvals : dict.map Prod.snd =
      (List.range tree.length).filter
        (fun j => (tree.getD j default).id.headD ' ' = '#') := by
    rw [hd, buildDict,
      buildDictGo_values tree 0 ([], []) (by intro r' _ _ v hv; simp at hv) hnd]
    have hid0 : (fun j => (0 : Nat) + j) = (id : Nat → Nat) := by
      funext j
      simp
    rw [hid0, List.map_id]
    simp
  refine ⟨?_, hvals, ?_⟩
  · intro n
    have hbound : ∀ m v, dictGet (((tree.map Node_init).getD v default).mother)
        (buildDict tree).1 = some m → m < (tree.map Node_init).length := by
      intro m v hlk
      rcases buildDictGo_value_bound tree 0 ([], []) _ m (dictGet_mem hlk) with h1 | h1
      · simp at h1
      · simp only [List.length_map]
        omega
    have hdB := phaseB_daughters (buildDict tree).1 (buildDict tree).2
      (tree.map Node_init) heap1 0 hB hbound n
    have hbound1 : ∀ m v, dictGet ((heap1.getD v default).mother)
        (buildDict tree).1 = some m → m < heap1.length := by
      intro m v hlk
      rw [phaseB_mother _ _ _ _ _ hB] at hlk
      rw [phaseB_length _ _ _ _ _ hB]
      exact hbound m v hlk
    have hdC := phaseC_daughters (buildDict tree).1 ((buildDict tree).1.map Prod.snd)
      heap1 heap2 hC hbound1 n
    have hfc : ((buildDict tree).1.map Prod.snd).filter (fun v =>
        (heap1.getD v default).mother ≠ str "0" ∧
          dictGet ((heap1.getD v default).mother) (buildDict tree).1 = some n) =
        ((buildDict tree).1.map Prod.snd).filter (fun v =>
          ((tree.map Node_init).getD v default).mother ≠ str "0" ∧
          dictGet (((tree.map Node_init).getD v default).mother)
            (buildDict tree).1 = some n) := by
      apply List.filter_congr
      intro v _
      rw [phaseB_mother _ _ _ _ _ hB]
    rw [hdC, hfc, hdB, heap0_daughters, List.nil_append, hd, hl]
  · intro heap node hid
    rw [mkRule, if_neg (by rw [hid]; simp)]
    simp only []
    have hnm := predloop_names ((node.daughters.map (fun d => heap.getD d default)).map
      (fun d => (⟨d.label, findArgs d.strID⟩ : Predicate))) (findArgs node.strID) 0
    refine ⟨_, rfl, ?_, ?_⟩
    · rw [hnm.1, daughtersOf]
      simp only [List.map_map]
      exact List.map_congr_left fun d _ => rfl
    · rw [hnm.2, daughtersOf]
      simp

/-- A five-record tree: three leaves (`w0 w1 w2`), a root `#500` and an
internal `#501`, with `#500` dominating `w0`, `w2` and `#501`. -/
def wTree : List Rec :=
  [⟨str "w0", str "A", str "500"⟩,
   ⟨str "w1", str "B", str "501"⟩,
   ⟨str "w2", str "C", str "500"⟩,
   ⟨str "#500", str "S", str "0"⟩,
   ⟨str "#501", str "VP", str "500"⟩]

def wDict : List (PyStr × Nat) := [(str "500", 3), (str "501", 4)]

def wLeaves : List Nat := [0, 1, 2]

/-- The heap after the two mother-linking phases on `wTree`. -/
def wHeap2 : List PNode :=
  [⟨str "w0", str "A", str "500", [0], []⟩,
   ⟨str "w1", str "B", str "501", [1], []⟩,
   ⟨str "w2", str "C", str "500", [2], []⟩,
   ⟨str "#500", str "S", str "0", [], [0, 2, 4]⟩,
   ⟨str "#501", str "VP", str "500", [], [1]⟩]

/-- Witness for C9 at a concrete five-record tree. -/
theorem claim_C9_witness :
    ((internalIds wTree).Nodup ∧
      buildTree wTree = .ok (wHeap2, wDict, wLeaves)) ∧
    ((∀ n, (wHeap2.getD n default).daughters =
      wLeaves.filter (fun lf =>
        dictGet (((wTree.map Node_init).getD lf default).mother) wDict = some n) ++
      (wDict.map Prod.snd).filter (fun v =>
        ((wTree.map Node_init).getD v default).mother ≠ str "0" ∧
        dictGet (((wTree.map Node_init).getD v default).mother) wDict = some n)) ∧
    wDict.map Prod.snd =
      (List.range wTree.length).filter
        (fun j => (wTree.getD j default).id.headD ' ' = '#') ∧
    (∀ (heap : List PNode) (node : PNode), node.id.headD ' ' = '#' →
      ∃ ps, (mkRule heap node).rhs = Rhs.preds ps ∧
        ps.map Predicate.name = (daughtersOf heap node).map PNode.label ∧
        ps.length = (daughtersOf heap node).length)) :=
  ⟨⟨by decide, rfl⟩, claim_C9 wTree wHeap2 wDict wLeaves (by decide) rfl⟩

/-! ### Span propagation: static facts about the built heap -/

theorem setStrID_strID_self (h : List PNode) (i : Nat) (s : List Nat)
    (hi : i < h.length) : ((setStrID h i s).getD i default).strID = s := by
  rw [setStrID, getD_set_self (by simpa using hi)]

theorem setStrID_strID_other (h : List PNode) (i : Nat) (s : List Nat) (x : Nat)
    (hx : i ≠ x) : ((setStrID h i s).getD x default).strID = (h.getD x default).strID := by
  rw [setStrID, getD_set_other hx]

theorem heap0_strID (tree : List Rec) (n : Nat) :
    ((tree.map Node_init).getD n default).strID = [] := by
  by_cases hn : n < tree.length
  · rw [heap0_getD hn]
    rfl
  · rw [List.getD_eq_getElem?_getD, List.getElem?_eq_none (by simpa using Nat.le_of_not_lt hn)]
    rfl

theorem buildDictGo_leaves :
    ∀ (tree : List Rec) (i : Nat) (acc : List (PyStr × Nat) × List Nat),
      (buildDictGo acc tree i).2 = acc.2 ++
        (((List.range tree.length).filter
          (fun j => ¬ (tree.getD j default).id.headD ' ' = '#')).map (fun j => i + j)) := by
  intro tree
  induction tree with
  | nil =>
    intro i acc
    rw [buildDictGo]
    simp
  | cons r rest ih =>
    intro i acc
    rw [buildDictGo]
    have hrange : List.range (r :: rest).length = 0 :: (List.range rest.length).map Nat.succ := by
      rw [List.length_cons, List.range_succ_eq_map]
    rw [hrange, List.filter_cons]
    have hfun : ((fun j => i + j) ∘ Nat.succ) = (fun j => (i + 1) + j) := by
      funext j
      simp only [Function.comp]
      omega
    have hpred : ((fun j => decide (¬ (((r :: rest).getD j default).id.headD ' ') = '#')) ∘
        Nat.succ) = (fun j => decide (¬ ((rest.getD j default).id.headD ' ') = '#')) := by
      funext j
      simp only [Function.comp, List.getD_cons_succ]
    by_cases hr : r.id.headD ' ' = '#'
    · rw [if_pos hr]
      rw [if_neg (by
        rw [decide_eq_true_eq, List.getD_cons_zero]
        exact fun hcon => hcon hr)]
      rw [ih (i + 1) (dictInsert (r.id.drop 1) i acc.1, acc.2)]
      rw [List.filter_map, List.map_map, hpred, hfun]
    · rw [if_neg hr]
      rw [if_pos (by
        rw [decide_eq_true_eq, List.getD_cons_zero]
        exact hr)]
      rw [ih (i + 1) (acc.1, acc.2 ++ [i])]
      simp only [List.filter_map, List.map_cons, List.map_map, hpred, hfun,
        Nat.add_zero, List.append_assoc, List.singleton_append]

theorem buildDict_leaves (tree : List Rec) :
    (buildDict tree).2 =
      (List.range tree.length).filter
        (fun j => ¬ (tree.getD j default).id.headD ' ' = '#') := by
  rw [buildDict, buildDictGo_leaves tree 0 ([], [])]
  have hid0 : (fun j => (0 : Nat) + j) = (id : Nat → Nat) := by
    funext j
    simp
  rw [hid0, List.map_id]
  simp

theorem phaseC_strID (dict : List (PyStr × Nat)) :
    ∀ (ns : List Nat) (heap heap' : List PNode),
      phaseC dict heap ns = .ok heap' →
      ∀ x, (heap'.getD x default).strID = (heap.getD x default).strID := by
  intro ns
  induction ns with
  | nil =>
    intro heap heap' h x
    rw [phaseC] at h
    cases h
    rfl
  | cons n0 rest ih =>
    intro heap heap' h x
    rw [phaseC] at h
    by_cases hm0 : (heap.getD n0 default).mother ≠ str "0"
    · rw [if_pos hm0] at h
      cases hlook : dictGet ((heap.getD n0 default).mother) dict with
      | none => rw [hlook] at h; cases h
      | some m =>
        rw [hlook] at h
        rw [ih _ _ h x, addDaughter_strID]
    · rw [if_neg hm0] at h
      exact ih _ _ h x

theorem phaseB_strID (dict : List (PyStr × Nat)) :
    ∀ (L : List Nat) (heap heap' : List PNode) (s0 : Nat),
      phaseB dict heap L s0 = .ok heap' → L.Nodup →
      (∀ lf ∈ L, lf < heap.length) →
      (∀ k, k < L.length →
        (heap'.getD (L.getD k 0) default).strID = [s0 + k]) ∧
      (∀ x, x ∉ L → (heap'.getD x default).strID = (heap.getD x default).strID) := by
  intro L
  induction L with
  | nil =>
    intro heap heap' s0 h _ _
    rw [phaseB] at h
    cases h
    exact ⟨fun k hk => absurd hk (by simp), fun x _ => rfl⟩
  | cons lf0 rest ih =>
    intro heap heap' s0 h hnd hbound
    rw [phaseB] at h
    cases hlook : dictGet (((setStrID heap lf0 [s0]).getD lf0 default).mother) dict with
    | none => rw [hlook] at h; cases h
    | some m =>
      rw [hlook] at h
      rw [List.nodup_cons] at hnd
      have hlen1 : (addDaughter (setStrID heap lf0 [s0]) m lf0).length = heap.length := by
        rw [addDaughter, List.length_set, setStrID, List.length_set]
      have hrec := ih _ _ _ h hnd.2 (by
        intro lf hlf
        rw [hlen1]
        exact hbound lf (List.mem_cons_of_mem _ hlf))
      have hstr0 : ((addDaughter (setStrID heap lf0 [s0]) m lf0).getD lf0 default).strID
          = [s0] := by
        rw [addDaughter_strID,
          setStrID_strID_self heap lf0 [s0] (hbound lf0 (List.mem_cons_self _ _))]
      constructor
      · intro k hk
        cases k with
        | zero =>
          rw [List.getD_cons_zero, hrec.2 lf0 hnd.1, hstr0, Nat.add_zero]
        | succ k =>
          rw [List.getD_cons_succ]
          have := hrec.1 k (by simpa using Nat.lt_of_succ_lt_succ hk)
          rw [this]
          congr 1
          omega
      · intro x hx
        have hxlf : x ≠ lf0 := fun he => hx (he ▸ List.mem_cons_self _ _)
        have hxrest : x ∉ rest := fun hm' => hx (List.mem_cons_of_mem _ hm')
        rw [hrec.2 x hxrest, addDaughter_strID, setStrID_strID_other _ _ _ _
          (fun he => hxlf he.symm)]

/-- The daughter relation: `b` is one of `a`'s daughters. -/
def dRel (heap : List PNode) (a b : Nat) : Prop :=
  b ∈ (heap.getD a default).daughters

/-- Transitive-reflexive dominance along daughter links. -/
def Dom (heap : List PNode) (x y : Nat) : Prop :=
  Relation.ReflTransGen (dRel heap) x y

/-- A fueled test for "this node transitively dominates at least one leaf"
(the fuel bounds the search depth). -/
def hasLeafDesc (heap : List PNode) (leaves : List Nat) : Nat → Nat → Bool
  | 0, _ => false
  | fuel + 1, n =>
    leaves.contains n ||
      (heap.getD n default).daughters.any (fun d => hasLeafDesc heap leaves fuel d)

theorem buildDict_values (tree : List Rec) (hnd : (internalIds tree).Nodup) :
    (buildDict tree).1.map Prod.snd =
      (List.range tree.length).filter
        (fun j => (tree.getD j default).id.headD ' ' = '#') := by
  rw [buildDict,
    buildDictGo_values tree 0 ([], []) (by intro r' _ _ v hv; simp at hv) hnd]
  have hid0 : (fun j => (0 : Nat) + j) = (id : Nat → Nat) := by
    funext j
    simp
  rw [hid0, List.map_id]
  simp

theorem heap2_daughters {tree : List Rec} {heap2 : List PNode}
    {dict : List (PyStr × Nat)} {leaves : List Nat}
    (hbt : buildTree tree = .ok (heap2, dict, leaves)) :
    ∀ n, (heap2.getD n default).daughters =
      leaves.filter (fun lf =>
        dictGet (((tree.map Node_init).getD lf default).mother) dict = some n) ++
      (dict.map Prod.snd).filter (fun v =>
        ((tree.map Node_init).getD v default).mother ≠ str "0" ∧
        dictGet (((tree.map Node_init).getD v default).mother) dict = some n) := by
  rcases buildTree_ok_iff.mp hbt with ⟨hd, hl, heap1, hB, hC⟩
  intro n
  have hbound : ∀ m v, dictGet (((tree.map Node_init).getD v default).mother)
      (buildDict tree).1 = some m → m < (tree.map Node_init).length := by
    intro m v hlk
    rcases buildDictGo_value_bound tree 0 ([], []) _ m (dictGet_mem hlk) with h1 | h1
    · simp at h1
    · simp only [List.length_map]
      omega
  have hdB := phaseB_daughters (buildDict tree).1 (buildDict tree).2
    (tree.map Node_init) heap1 0 hB hbound n
  have hbound1 : ∀ m v, dictGet ((heap1.getD v default).mother)
      (buildDict tree).1 = some m → m < heap1.length := by
    intro m v hlk
    rw [phaseB_mother _ _ _ _ _ hB] at hlk
    rw [phaseB_length _ _ _ _ _ hB]
    exact hbound m v hlk
  have hdC := phaseC_daughters (buildDict tree).1 ((buildDict tree).1.map Prod.snd)
    heap1 heap2 hC hbound1 n
  have hfc : ((buildDict tree).1.map Prod.snd).filter (fun v =>
      (heap1.getD v default).mother ≠ str "0" ∧
        dictGet ((heap1.getD v default).mother) (buildDict tree).1 = some n) =
      ((buildDict tree).1.map Prod.snd).filter (fun v =>
        ((tree.map Node_init).getD v default).mother ≠ str "0" ∧
        dictGet (((tree.map Node_init).getD v default).mother)
          (buildDict tree).1 = some n) := by
    apply List.filter_congr
    intro v _
    rw [phaseB_mother _ _ _ _ _ hB]
  rw [hdC, hfc, hdB, heap0_daughters, List.nil_append, hd, hl]

/-- The static well-formedness facts about the built heap that span
propagation relies on. -/
structure PropSetting (heap2 : List PNode) (leaves : List Nat) (L : List Nat) : Prop where
  lnd : L.Nodup
  lvnd : leaves.Nodup
  disj : ∀ x ∈ leaves, x ∉ L
  lbound : ∀ n ∈ L, n < heap2.length
  leafStr : ∀ s, s < leaves.length → (heap2.getD (leaves.getD s 0) default).strID = [s]
  pendStr : ∀ n ∈ L, (heap2.getD n default).strID = []
  leafD : ∀ x ∈ leaves, (heap2.getD x default).daughters = []
  dsub : ∀ n x, x ∈ (heap2.getD n default).daughters → x ∈ leaves ∨ x ∈ L
  dnd : ∀ n, (heap2.getD n default).daughters.Nodup
  uniq : ∀ x a b, x ∈ (heap2.getD a default).daughters →
    x ∈ (heap2.getD b default).daughters → a = b
  src : ∀ a x, x ∈ (heap2.getD a default).daughters → a ∈ L

theorem daughters_cond {tree : List Rec} {heap2 : List PNode}
    {dict : List (PyStr × Nat)} {leaves : List Nat}
    (hbt : buildTree tree = .ok (heap2, dict, leaves)) :
    ∀ n x, x ∈ (heap2.getD n default).daughters →
      dictGet (((tree.map Node_init).getD x default).mother) dict = some n := by
  intro n x hx
  rw [heap2_daughters hbt n] at hx
  rcases List.mem_append.mp hx with h | h
  · exact of_decide_eq_true (List.mem_filter.mp h).2
  · exact (of_decide_eq_true (List.mem_filter.mp h).2).2

theorem buildFacts {tree : List Rec} {heap2 : List PNode}
    {dict : List (PyStr × Nat)} {leaves : List Nat}
    (hnd : (internalIds tree).Nodup)
    (hbt : buildTree tree = .ok (heap2, dict, leaves)) :
    PropSetting heap2 leaves (dict.map Prod.snd) := by
  rcases buildTree_ok_iff.mp hbt with ⟨hd, hl, heap1, hB, hC⟩
  have hvals : dict.map Prod.snd = (List.range tree.length).filter
      (fun j => (tree.getD j default).id.headD ' ' = '#') := by
    rw [hd]
    exact buildDict_values tree hnd
  have hleaves : leaves = (List.range tree.length).filter
      (fun j => ¬ (tree.getD j default).id.headD ' ' = '#') := by
    rw [hl]
    exact buildDict_leaves tree
  have hdisj : ∀ x ∈ leaves, x ∉ dict.map Prod.snd := by
    intro x hxl hxv
    rw [hleaves] at hxl
    rw [hvals] at hxv
    have h1 := (List.mem_filter.mp hxl).2
    have h2 := (List.mem_filter.mp hxv).2
    rw [decide_eq_true_eq] at h1 h2
    exact h1 h2
  have hdisj2 : ∀ n ∈ dict.map Prod.snd, n ∉ leaves := by
    intro n hn hnl
    exact hdisj n hnl hn
  have hvnd : leaves.Nodup := by
    rw [hleaves]
    exact List.Nodup.filter _ (List.nodup_range _)
  have hlnd : (dict.map Prod.snd).Nodup := by
    rw [hvals]
    exact List.Nodup.filter _ (List.nodup_range _)
  have hcond := daughters_cond hbt
  have hsrc : ∀ a x, x ∈ (heap2.getD a default).daughters → a ∈ dict.map Prod.snd := by
    intro a x hx
    exact List.mem_map_of_mem Prod.snd (dictGet_mem (hcond a x hx))
  have hlbound : ∀ n ∈ dict.map Prod.snd, n < heap2.length := by
    intro n hn
    rw [hvals] at hn
    have h1 := (List.mem_filter.mp hn).1
    rw [List.mem_range] at h1
    rw [phaseC_length _ _ _ _ hC, phaseB_length _ _ _ _ _ hB, List.length_map]
    exact h1
  have hlfbound : ∀ lf ∈ leaves, lf < tree.length := by
    intro lf hlf
    rw [hleaves] at hlf
    have h1 := (List.mem_filter.mp hlf).1
    rw [List.mem_range] at h1
    exact h1
  have hBstr := phaseB_strID (buildDict tree).1 (buildDict tree).2
    (tree.map Node_init) heap1 0 hB (by rw [← hl]; exact hvnd)
    (by
      intro lf hlf
      rw [List.length_map]
      exact hlfbound lf (by rw [hl]; exact hlf))
  refine ⟨hlnd, hvnd, hdisj, hlbound, ?_, ?_, ?_, ?_, ?_, ?_, hsrc⟩
  · intro s hs
    rw [phaseC_strID _ _ _ _ hC, hl]
    have h1 := hBstr.1 s (by rw [← hl]; exact hs)
    rw [Nat.zero_add] at h1
    exact h1
  · intro n hn
    rw [phaseC_strID _ _ _ _ hC,
      hBstr.2 n (by rw [← hl]; exact hdisj2 n hn), heap0_strID]
  · intro x hx
    rw [heap2_daughters hbt x]
    have hempty1 : leaves.filter (fun lf =>
        dictGet (((tree.map Node_init).getD lf default).mother) dict = some x) = [] := by
      rw [List.filter_eq_nil_iff]
      intro y _ hy
      exact hdisj x hx
        (List.mem_map_of_mem Prod.snd (dictGet_mem (of_decide_eq_true hy)))
    have hempty2 : (dict.map Prod.snd).filter (fun v =>
        ((tree.map Node_init).getD v default).mother ≠ str "0" ∧
        dictGet (((tree.map Node_init).getD v default).mother) dict = some x) = [] := by
      rw [List.filter_eq_nil_iff]
      intro y _ hy
      exact hdisj x hx
        (List.mem_map_of_mem Prod.snd (dictGet_mem (of_decide_eq_true hy).2))
    rw [hempty1, hempty2]
    rfl
  · intro n x hx
    rw [heap2_daughters hbt n] at hx
    rcases List.mem_append.mp hx with h | h
    · exact Or.inl (List.mem_filter.mp h).1
    · exact Or.inr (List.mem_filter.mp h).1
  · intro n
    rw [heap2_daughters hbt n]
    refine List.Nodup.append (List.Nodup.filter _ hvnd) (List.Nodup.filter _ hlnd) ?_
    intro x hx1 hx2
    exact hdisj x (List.mem_filter.mp hx1).1 (List.mem_filter.mp hx2).1
  · intro x a b h1 h2
    have e1 := hcond a x h1
    have e2 := hcond b x h2
    rw [e1] at e2
    exact Option.some.inj e2

/-! ### Dominance: unique parents, comparability, acyclicity -/

theorem dRel_congr {h1 h2 : List PNode}
    (hd : ∀ x, (h1.getD x default).daughters = (h2.getD x default).daughters)
    (a b : Nat) : dRel h1 a b ↔ dRel h2 a b := by
  rw [dRel, dRel, hd]

theorem Dom_congr {h1 h2 : List PNode}
    (hd : ∀ x, (h1.getD x default).daughters = (h2.getD x default).daughters)
    (a b : Nat) : Dom h1 a b ↔ Dom h2 a b := by
  constructor
  · exact Relation.ReflTransGen.mono (fun x y hxy => (dRel_congr hd x y).mp hxy)
  · exact Relation.ReflTransGen.mono (fun x y hxy => (dRel_congr hd x y).mpr hxy)

theorem dom_comparable {heap : List PNode}
    (hup : ∀ x a b, dRel heap a x → dRel heap b x → a = b) :
    ∀ {a b y : Nat}, Dom heap a y → Dom heap b y → Dom heap a b ∨ Dom heap b a := by
  intro a b y ha hb
  induction hb using Relation.ReflTransGen.head_induction_on with
  | refl => exact Or.inl ha
  | head hstep _ ih =>
    rcases ih with h1 | h1
    · rcases Relation.ReflTransGen.cases_tail h1 with he | ⟨z, hz1, hz2⟩
      · right
        rw [← he]
        exact Relation.ReflTransGen.single hstep
      · left
        rw [hup _ _ _ hz2 hstep] at hz1
        exact hz1
    · right
      exact Relation.ReflTransGen.head hstep h1

theorem rank_le_of_dom {heap : List PNode} {rank : Nat → Nat}
    (hrk : ∀ a b, dRel heap a b → rank b < rank a) :
    ∀ {a b : Nat}, Dom heap a b → rank b ≤ rank a := by
  intro a b h
  induction h with
  | refl => exact le_refl _
  | tail _ hstep ih =>
    have := hrk _ _ hstep
    omega

theorem daughters_disjoint {heap : List PNode} {rank : Nat → Nat}
    (hup : ∀ x a b, dRel heap a x → dRel heap b x → a = b)
    (hrk : ∀ a b, dRel heap a b → rank b < rank a)
    {n d₁ d₂ y : Nat} (h1 : dRel heap n d₁) (h2 : dRel heap n d₂) (hne : d₁ ≠ d₂)
    (hy1 : Dom heap d₁ y) (hy2 : Dom heap d₂ y) : False := by
  have hgen : ∀ {a b : Nat}, dRel heap n a → dRel heap n b → a ≠ b →
      Dom heap a b → False := by
    intro a b hna hnb hab hdom
    rcases Relation.ReflTransGen.cases_tail hdom with he | ⟨z, hz1, hz2⟩
    · exact hab he.symm
    · have hzn : z = n := hup _ _ _ hz2 hnb
      rw [hzn] at hz1
      have r1 := rank_le_of_dom hrk hz1
      have r2 := hrk _ _ hna
      omega
  rcases dom_comparable hup hy1 hy2 with h | h
  · exact hgen h1 h2 hne h
  · exact hgen h2 h1 (fun he => hne he.symm) h

theorem nodup_getD_inj {l : List Nat} (h : l.Nodup) {s t : Nat}
    (hs : s < l.length) (ht : t < l.length) (he : l.getD s 0 = l.getD t 0) : s = t := by
  rw [List.getD_eq_getElem _ _ hs, List.getD_eq_getElem _ _ ht] at he
  exact (List.Nodup.getElem_inj_iff h).mp he

theorem hasLeafDesc_sound {heap : List PNode} {leaves : List Nat} :
    ∀ (F n : Nat), hasLeafDesc heap leaves F n = true →
      ∃ s, s < leaves.length ∧ Dom heap n (leaves.getD s 0) := by
  intro F
  induction F with
  | zero =>
    intro n h
    rw [hasLeafDesc] at h
    exact absurd h (by simp)
  | succ F ih =>
    intro n h
    rw [hasLeafDesc, Bool.or_eq_true] at h
    rcases h with h | h
    · have hmem : n ∈ leaves := List.elem_iff.mp h
      rcases List.mem_iff_getElem.mp hmem with ⟨s, hs, he⟩
      refine ⟨s, hs, ?_⟩
      rw [List.getD_eq_getElem _ _ hs, he]
      exact Relation.ReflTransGen.refl
    · rcases List.any_eq_true.mp h with ⟨d, hd, hrec⟩
      rcases ih d hrec with ⟨s, hs, hdom⟩
      exact ⟨s, hs, Relation.ReflTransGen.head hd hdom⟩

/-- The span characterization of a resolved node: its `strID` is strictly
ascending and holds exactly the positions of the leaves it dominates (the
`strID` is read in `hS`, the daughter links in `heapD`). -/
def NodeChar (hS heapD : List PNode) (leaves : List Nat) (x : Nat) : Prop :=
  ((hS.getD x default).strID).Chain' (· < ·) ∧
  ∀ s, s ∈ (hS.getD x default).strID ↔
    s < leaves.length ∧ Dom heapD x (leaves.getD s 0)

theorem NodeChar_congr {h1 h2 heapD : List PNode} {leaves : List Nat} {x : Nat}
    (he : (h1.getD x default).strID = (h2.getD x default).strID) :
    NodeChar h1 heapD leaves x ↔ NodeChar h2 heapD leaves x := by
  rw [NodeChar, NodeChar, he]

theorem leaf_NodeChar {hS heapD : List PNode} {leaves : List Nat} {t : Nat}
    (ht : t < leaves.length)
    (hstr : (hS.getD (leaves.getD t 0) default).strID = [t])
    (hnod : (heapD.getD (leaves.getD t 0) default).daughters = [])
    (hnd : leaves.Nodup) :
    NodeChar hS heapD leaves (leaves.getD t 0) := by
  constructor
  · rw [hstr]
    simp
  · intro s
    rw [hstr, List.mem_singleton]
    constructor
    · intro he
      rw [he]
      exact ⟨ht, Relation.ReflTransGen.refl⟩
    · intro hsd
      rcases Relation.ReflTransGen.cases_head hsd.2 with he | ⟨c, hc, _⟩
      · exact nodup_getD_inj hnd hsd.1 ht he.symm
      · rw [dRel, hnod] at hc
        exact absurd hc (List.not_mem_nil c)

theorem allDHS_true_iff {heap : List PNode} {n : Nat} :
    allDHS heap n = true ↔
      ∀ d ∈ (heap.getD n default).daughters, (heap.getD d default).strID ≠ [] := by
  rw [allDHS, List.all_eq_true]
  constructor
  · intro h d hd he
    have := h d hd
    rw [Bool.not_eq_true'] at this
    rw [he] at this
    simp at this
  · intro h d hd
    rw [Bool.not_eq_true']
    rcases he : (heap.getD d default).strID.isEmpty with _ | _
    · rfl
    · exact absurd (List.isEmpty_iff.mp he) (h d hd)

theorem getStrID_shape (heap : List PNode) (n : Nat) :
    ∃ v, getStrID heap n = setStrID heap n v := by
  rw [getStrID]
  by_cases h : (heap.getD n default).daughters.length = 1
  · rw [if_pos h]
    exact ⟨_, rfl⟩
  · rw [if_neg h]
    exact ⟨_, rfl⟩

theorem getStrID_strID_other {heap : List PNode} {n x : Nat} (hx : n ≠ x) :
    ((getStrID heap n).getD x default).strID = (heap.getD x default).strID := by
  rcases getStrID_shape heap n with ⟨v, hv⟩
  rw [hv, setStrID_strID_other _ _ _ _ hx]

theorem getStrID_daughters (heap : List PNode) (n x : Nat) :
    ((getStrID heap n).getD x default).daughters = (heap.getD x default).daughters := by
  rcases getStrID_shape heap n with ⟨v, hv⟩
  rw [hv, setStrID_daughters]

theorem getStrID_length (heap : List PNode) (n : Nat) :
    (getStrID heap n).length = heap.length := by
  rcases getStrID_shape heap n with ⟨v, hv⟩
  rw [hv, setStrID, List.length_set]

theorem getStrID_strID {heap : List PNode} {n : Nat} (hn : n < heap.length)
    (hone : ∀ d ∈ (heap.getD n default).daughters,
      ((heap.getD d default).strID).Sorted (· ≤ ·)) :
    ((getStrID heap n).getD n default).strID =
      List.insertionSort (fun a b => a ≤ b)
        (((heap.getD n default).daughters.map
          (fun d => (heap.getD d default).strID)).flatten) := by
  rw [getStrID]
  by_cases h : (heap.getD n default).daughters.length = 1
  · rw [if_pos h]
    rcases List.length_eq_one.mp h with ⟨d, hd⟩
    rw [hd]
    simp only [List.map_cons, List.map_nil, List.flatten_cons, List.flatten_nil,
      List.append_nil, List.getD_cons_zero]
    rw [List.Sorted.insertionSort_eq (hone d (by rw [hd]; exact List.mem_cons_self _ _)),
      setStrID_strID_self _ _ _ hn]
  · rw [if_neg h, setStrID_strID_self _ _ _ hn]

/-! ### The propagation invariant and its preservation -/

structure Inv (heap2 : List PNode) (leaves L : List Nat)
    (heap : List PNode) (done pending : List Nat) : Prop where
  len : heap.length = heap2.length
  dtr : ∀ x, (heap.getD x default).daughters = (heap2.getD x default).daughters
  perm : (done ++ pending).Perm L
  leafStr : ∀ t, t < leaves.length →
    (heap.getD (leaves.getD t 0) default).strID = [t]
  pendStr : ∀ x ∈ pending, (heap.getD x default).strID = []
  doneChar : ∀ x ∈ done, NodeChar heap heap2 leaves x ∧
    (heap.getD x default).strID ≠ []

theorem resolve_inv {heap2 : List PNode} {leaves L : List Nat} {rank : Nat → Nat} {F : Nat}
    (S : PropSetting heap2 leaves L)
    (hrank : ∀ n ∈ L, ∀ d ∈ (heap2.getD n default).daughters, rank d < rank n)
    (hleaf : ∀ n ∈ L, hasLeafDesc heap2 leaves F n = true)
    {heap : List PNode} {done pending : List Nat}
    (hInv : Inv heap2 leaves L heap done pending)
    {n : Nat} (hn : n ∈ pending) (hall : allDHS heap n = true) :
    Inv heap2 leaves L (getStrID heap n) (done ++ [n]) (pending.erase n) := by
  have hndL : (done ++ pending).Nodup := hInv.perm.symm.nodup S.lnd
  rw [List.nodup_append] at hndL
  obtain ⟨hdone_nd, hpend_nd, hdisjdp⟩ := hndL
  have hnL : n ∈ L := hInv.perm.mem_iff.mp (List.mem_append_right done hn)
  have hnlen : n < heap.length := by
    rw [hInv.len]
    exact S.lbound n hnL
  have hnleaf : n ∉ leaves := fun h => S.disj n h hnL
  have hrk_edge : ∀ a b, dRel heap2 a b → rank b < rank a := fun a b h =>
    hrank a (S.src a b h) b h
  have hup : ∀ x a b, dRel heap2 a x → dRel heap2 b x → a = b := fun x a b h1 h2 =>
    S.uniq x a b h1 h2
  have halld : ∀ d ∈ (heap2.getD n default).daughters,
      (heap.getD d default).strID ≠ [] := by
    have hiff := allDHS_true_iff.mp hall
    intro d hd
    exact hiff d (by rw [hInv.dtr]; exact hd)
  have dchar : ∀ d ∈ (heap2.getD n default).daughters,
      NodeChar heap heap2 leaves d := by
    intro d hd
    rcases S.dsub n d hd with hdl | hdL
    · rcases List.mem_iff_getElem.mp hdl with ⟨t, ht, hte⟩
      have hdg : d = leaves.getD t 0 := by
        rw [List.getD_eq_getElem _ _ ht, hte]
      rw [hdg]
      exact leaf_NodeChar ht (hInv.leafStr t ht)
        (by rw [← hdg]; exact S.leafD d hdl) S.lvnd
    · rcases List.mem_append.mp (hInv.perm.mem_iff.mpr hdL) with hdd | hdp
      · exact (hInv.doneChar d hdd).1
      · exact absurd (hInv.pendStr d hdp) (halld d hd)
  have hsorted : ∀ d ∈ (heap.getD n default).daughters,
      ((heap.getD d default).strID).Sorted (· ≤ ·) := by
    intro d hd
    rw [hInv.dtr] at hd
    exact List.Pairwise.imp (fun h => Nat.le_of_lt h)
      (List.chain'_iff_pairwise.mp (dchar d hd).1)
  have hflat_eq : ((heap.getD n default).daughters.map
      (fun d => (heap.getD d default).strID)) =
      ((heap2.getD n default).daughters.map (fun d => (heap.getD d default).strID)) := by
    rw [hInv.dtr]
  have hnew := getStrID_strID hnlen hsorted
  rw [hflat_eq] at hnew
  have hmemflat : ∀ s, s ∈ (((heap2.getD n default).daughters.map
      (fun d => (heap.getD d default).strID)).flatten) ↔
      (s < leaves.length ∧ Dom heap2 n (leaves.getD s 0)) := by
    intro s
    constructor
    · intro h
      rcases List.mem_flatten.mp h with ⟨l, hl, hsl⟩
      rcases List.mem_map.mp hl with ⟨d, hd, hde⟩
      rw [← hde] at hsl
      have hc := ((dchar d hd).2 s).mp hsl
      exact ⟨hc.1, Relation.ReflTransGen.head hd hc.2⟩
    · intro hsd
      rcases Relation.ReflTransGen.cases_head hsd.2 with he | ⟨d, hd, hdom'⟩
      · exfalso
        apply hnleaf
        rw [he, List.getD_eq_getElem _ _ hsd.1]
        exact List.getElem_mem hsd.1
      · have hc := ((dchar d hd).2 s).mpr ⟨hsd.1, hdom'⟩
        exact List.mem_flatten.mpr ⟨_, List.mem_map_of_mem _ hd, hc⟩
  have hflnd : (((heap2.getD n default).daughters.map
      (fun d => (heap.getD d default).strID)).flatten).Nodup := by
    rw [List.nodup_flatten]
    constructor
    · intro l hl
      rcases List.mem_map.mp hl with ⟨d, hd, hde⟩
      rw [← hde]
      exact (List.chain'_iff_pairwise.mp (dchar d hd).1).imp (fun h => Nat.ne_of_lt h)
    · rw [List.pairwise_map]
      refine List.Pairwise.imp_of_mem ?_ (S.dnd n)
      intro d₁ d₂ h1 h2 hne s hs1 hs2
      have hc1 := ((dchar d₁ h1).2 s).mp hs1
      have hc2 := ((dchar d₂ h2).2 s).mp hs2
      exact daughters_disjoint hup hrk_edge h1 h2 hne hc1.2 hc2.2
  have hnewmem : ∀ s, s ∈ ((getStrID heap n).getD n default).strID ↔
      s < leaves.length ∧ Dom heap2 n (leaves.getD s 0) := by
    intro s
    rw [hnew, (List.perm_insertionSort (fun a b => a ≤ b) _).mem_iff]
    exact hmemflat s
  have hnewsorted : (((getStrID heap n).getD n default).strID).Chain' (· < ·) := by
    rw [hnew, List.chain'_iff_pairwise]
    have hsort := List.sorted_insertionSort (fun a b => a ≤ b)
      (((heap2.getD n default).daughters.map (fun d => (heap.getD d default).strID)).flatten)
    have hnd2 := (List.perm_insertionSort (fun a b => a ≤ b)
      (((heap2.getD n default).daughters.map
        (fun d => (heap.getD d default).strID)).flatten)).symm.nodup hflnd
    exact (List.Pairwise.and hsort hnd2).imp
      (fun h => Nat.lt_of_le_of_ne h.1 h.2)
  have hnchar : NodeChar (getStrID heap n) heap2 leaves n := ⟨hnewsorted, hnewmem⟩
  have hnne : ((getStrID heap n).getD n default).strID ≠ [] := by
    rcases hasLeafDesc_sound F n (hleaf n hnL) with ⟨s, hs, hdom⟩
    intro hnil
    have hmem := (hnewmem s).mpr ⟨hs, hdom⟩
    rw [hnil] at hmem
    exact absurd hmem (List.not_mem_nil s)
  refine ⟨?_, ?_, ?_, ?_, ?_, ?_⟩
  · rw [getStrID_length, hInv.len]
  · intro x
    rw [getStrID_daughters]
    exact hInv.dtr x
  · have h1 : ((done ++ [n]) ++ pending.erase n).Perm (done ++ pending) := by
      rw [List.append_assoc]
      exact List.Perm.append_left done (List.perm_cons_erase hn).symm
    exact h1.trans hInv.perm
  · intro t ht
    have hne : n ≠ leaves.getD t 0 := by
      intro he
      apply hnleaf
      rw [he, List.getD_eq_getElem _ _ ht]
      exact List.getElem_mem ht
    rw [getStrID_strID_other hne]
    exact hInv.leafStr t ht
  · intro x hx
    rcases (List.Nodup.mem_erase_iff hpend_nd).mp hx with ⟨hxn, hxp⟩
    rw [getStrID_strID_other (fun he => hxn he.symm)]
    exact hInv.pendStr x hxp
  · intro x hx
    rcases List.mem_append.mp hx with hxd | hxn
    · have hxnn : n ≠ x := by
        intro he
        exact (hdisjdp hxd) (he ▸ hn)
      constructor
      · rw [NodeChar_congr (getStrID_strID_other hxnn)]
        exact (hInv.doneChar x hxd).1
      · rw [getStrID_strID_other hxnn]
        exact (hInv.doneChar x hxd).2
    · rw [List.mem_singleton] at hxn
      rw [hxn]
      exact ⟨hnchar, hnne⟩

theorem exists_min_rank (rank : Nat → Nat) :
    ∀ (l : List Nat), l ≠ [] → ∃ n ∈ l, ∀ m ∈ l, rank n ≤ rank m := by
  intro l
  induction l with
  | nil => intro h; exact absurd rfl h
  | cons a rest ih =>
    intro _
    by_cases hr : rest = []
    · refine ⟨a, List.mem_cons_self _ _, ?_⟩
      intro m hm
      rw [hr] at hm
      rcases List.mem_cons.mp hm with rfl | hm
      · exact le_refl _
      · exact absurd hm (List.not_mem_nil m)
    · rcases ih hr with ⟨n, hnm, hmin⟩
      by_cases hc : rank a ≤ rank n
      · refine ⟨a, List.mem_cons_self _ _, ?_⟩
        intro m hm
        rcases List.mem_cons.mp hm with rfl | hm
        · exact le_refl _
        · exact le_trans hc (hmin m hm)
      · refine ⟨n, List.mem_cons_of_mem _ hnm, ?_⟩
        intro m hm
        rcases List.mem_cons.mp hm with rfl | hm
        · omega
        · exact hmin m hm

theorem pending_resolvable {heap2 : List PNode} {leaves L : List Nat} {rank : Nat → Nat}
    (S : PropSetting heap2 leaves L)
    (hrank : ∀ n ∈ L, ∀ d ∈ (heap2.getD n default).daughters, rank d < rank n)
    {heap : List PNode} {done pending : List Nat}
    (hInv : Inv heap2 leaves L heap done pending) (hpne : pending ≠ []) :
    ∃ n ∈ pending, allDHS heap n = true := by
  rcases exists_min_rank rank pending hpne with ⟨n, hnp, hmin⟩
  refine ⟨n, hnp, allDHS_true_iff.mpr ?_⟩
  intro d hd
  rw [hInv.dtr] at hd
  have hnL : n ∈ L := hInv.perm.mem_iff.mp (List.mem_append_right done hnp)
  rcases S.dsub n d hd with hdl | hdL
  · rcases List.mem_iff_getElem.mp hdl with ⟨t, ht, hte⟩
    have hstr : (heap.getD d default).strID = [t] := by
      have h1 := hInv.leafStr t ht
      rw [List.getD_eq_getElem _ _ ht, hte] at h1
      exact h1
    rw [hstr]
    simp
  · rcases List.mem_append.mp (hInv.perm.mem_iff.mpr hdL) with hdd | hdp
    · exact (hInv.doneChar d hdd).2
    · exfalso
      have h1 := hrank n hnL d hd
      have h2 := hmin d hdp
      omega

theorem forPassF_all_false :
    ∀ (fuel : Nat) (hp : List PNode) (d pend : List Nat) (i : Nat),
      pend.length - i ≤ fuel →
      (forPassF hp d pend i fuel).2.2.length = pend.length →
      ∀ k, i ≤ k → k < pend.length → allDHS hp (pend.getD k 0) = false := by
  intro fuel
  induction fuel with
  | zero =>
    intro hp d pend i hm _ k hik hk
    omega
  | succ fuel ih =>
    intro hp d pend i hm h k hik hk
    rw [forPassF] at h
    by_cases hi : i < pend.length
    · rw [if_pos hi] at h
      simp only [] at h
      have hmem : pend.getD i 0 ∈ pend := by
        rw [List.getD_eq_getElem pend 0 hi]
        exact pend.getElem_mem hi
      have herase := List.length_erase_of_mem hmem
      by_cases hd : allDHS hp (pend.getD i 0)
      · rw [if_pos hd] at h
        have hle := forPassF_length_le fuel (getStrID hp (pend.getD i 0))
          (d ++ [pend.getD i 0]) (pend.erase (pend.getD i 0)) (i + 1)
        omega
      · rw [if_neg hd] at h
        rcases Nat.eq_or_lt_of_le hik with rfl | hik'
        · exact Bool.eq_false_iff.mpr hd
        · exact ih hp d pend (i + 1) (by omega) h k hik' hk
    · omega

theorem forPass_inv {heap2 : List PNode} {leaves L : List Nat} {rank : Nat → Nat} {F : Nat}
    (S : PropSetting heap2 leaves L)
    (hrank : ∀ n ∈ L, ∀ d ∈ (heap2.getD n default).daughters, rank d < rank n)
    (hleaf : ∀ n ∈ L, hasLeafDesc heap2 leaves F n = true) :
    ∀ (fuel : Nat) (heap : List PNode) (done pending : List Nat) (i : Nat),
      pending.length - i ≤ fuel →
      Inv heap2 leaves L heap done pending →
      Inv heap2 leaves L (forPass heap done pending i).1
        (forPass heap done pending i).2.1 (forPass heap done pending i).2.2 := by
  intro fuel
  induction fuel with
  | zero =>
    intro heap done pending i hm hInv
    rw [forPass_eq, if_neg (by omega)]
    exact hInv
  | succ fuel ih =>
    intro heap done pending i hm hInv
    rw [forPass_eq]
    by_cases hi : i < pending.length
    · rw [if_pos hi]
      have hmem : pending.getD i 0 ∈ pending := by
        rw [List.getD_eq_getElem pending 0 hi]
        exact pending.getElem_mem hi
      have herase := List.length_erase_of_mem hmem
      by_cases hd : allDHS heap (pending.getD i 0)
      · rw [if_pos hd]
        exact ih _ _ _ (i + 1) (by omega)
          (resolve_inv S hrank hleaf hInv hmem hd)
      · rw [if_neg hd]
        exact ih _ _ _ (i + 1) (by omega) hInv
    · rw [if_neg hi]
      exact hInv

theorem passStep_progress {heap2 : List PNode} {leaves L : List Nat} {rank : Nat → Nat}
    (S : PropSetting heap2 leaves L)
    (hrank : ∀ n ∈ L, ∀ d ∈ (heap2.getD n default).daughters, rank d < rank n)
    {heap : List PNode} {done pending : List Nat}
    (hInv : Inv heap2 leaves L heap done pending) (hpne : pending ≠ []) :
    (passStep (heap, done, pending)).2.2.length < pending.length := by
  rcases pending_resolvable S hrank hInv hpne with ⟨n, hnp, htrue⟩
  rw [passStep, if_neg hpne]
  have hle := forPass_length_le heap done pending 0
  rcases Nat.lt_or_ge (forPass heap done pending 0).2.2.length pending.length with h | h
  · exact h
  · exfalso
    have heq : (forPass heap done pending 0).2.2.length = pending.length := by omega
    rcases List.mem_iff_getElem.mp hnp with ⟨k, hk, hke⟩
    have hfalse := forPassF_all_false (pending.length - 0) heap done pending 0
      (le_refl _) heq k (by omega) hk
    rw [List.getD_eq_getElem pending 0 hk, hke] at hfalse
    rw [htrue] at hfalse
    exact absurd hfalse (by simp)

theorem passN_empties {heap2 : List PNode} {leaves L : List Nat} {rank : Nat → Nat} {F : Nat}
    (S : PropSetting heap2 leaves L)
    (hrank : ∀ n ∈ L, ∀ d ∈ (heap2.getD n default).daughters, rank d < rank n)
    (hleaf : ∀ n ∈ L, hasLeafDesc heap2 leaves F n = true) :
    ∀ (m : Nat) (heap : List PNode) (done pending : List Nat),
      Inv heap2 leaves L heap done pending → pending.length ≤ m →
      (passN (heap, done, pending) m).2.2 = [] ∧
      Inv heap2 leaves L (passN (heap, done, pending) m).1
        (passN (heap, done, pending) m).2.1 (passN (heap, done, pending) m).2.2 := by
  intro m
  induction m with
  | zero =>
    intro heap done pending hInv hlen
    have hpe : pending = [] := List.eq_nil_of_length_eq_zero (by omega)
    rw [hpe]
    exact ⟨rfl, by rw [hpe] at hInv; exact hInv⟩
  | succ m ih =>
    intro heap done pending hInv hlen
    by_cases hpe : pending = []
    · rw [hpe]
      have hstep : passStep (heap, done, ([] : List Nat)) = (heap, done, []) := by
        rw [passStep, if_pos rfl]
      rw [passN, hstep]
      exact ih heap done [] (by rw [hpe] at hInv; exact hInv) (by simp)
    · have hstep : passStep (heap, done, pending) =
          ((forPass heap done pending 0).1, (forPass heap done pending 0).2.1,
            (forPass heap done pending 0).2.2) := by
        rw [passStep, if_neg hpe]
      have hInv' := forPass_inv S hrank hleaf pending.length heap done pending 0
        (by omega) hInv
      have hlt := passStep_progress S hrank hInv hpe
      rw [hstep] at hlt
      rw [passN, hstep]
      exact ih _ _ _ hInv' (by
        simp only [] at hlt
        omega)

theorem transGen_congr {r r' : Nat → Nat → Prop} (h : ∀ a b, r a b ↔ r' a b)
    {a b : Nat} : Relation.TransGen r a b ↔ Relation.TransGen r' a b := by
  constructor
  · exact Relation.TransGen.mono (fun x y hxy => (h x y).mp hxy)
  · exact Relation.TransGen.mono (fun x y hxy => (h x y).mpr hxy)

theorem rtg_iff_tg {r : Nat → Nat → Prop} {a b : Nat} (hne : a ≠ b) :
    Relation.ReflTransGen r a b ↔ Relation.TransGen r a b := by
  rw [Relation.reflTransGen_iff_eq_or_transGen]
  constructor
  · intro h
    rcases h with he | h
    · exact absurd he.symm hne
    · exact h
  · exact Or.inr

/-- C3: for a well-formed tree — mothers resolve (the build succeeds), the
daughter relation is acyclic (witnessed by a rank function), and every
internal node transitively dominates at least one leaf — span propagation
reaches its fixpoint, the `k`-th leaf in input order carries `strID = [k]`,
and every internal node's `strID` is the strictly ascending duplicate-free
list of exactly the positions of the leaves it transitively dominates. -/
theorem claim_C3 (tree : List Rec) (heap2 : List PNode) (dict : List (PyStr × Nat))
    (leaves : List Nat) (rank : Nat → Nat) (F : Nat)
    (hnd : (internalIds tree).Nodup)
    (hbt : buildTree tree = .ok (heap2, dict, leaves))
    (hrank : ∀ n ∈ dict.map Prod.snd, ∀ d ∈ (heap2.getD n default).daughters,
      rank d < rank n)
    (hleaf : ∀ n ∈ dict.map Prod.snd, hasLeafDesc heap2 leaves F n = true) :
    ∃ heap3 nodes2, propagate heap2 [] (dict.map Prod.snd) = some (heap3, nodes2) ∧
      (∀ s, s < leaves.length →
        (heap3.getD (leaves.getD s 0) default).strID = [s]) ∧
      (∀ n ∈ dict.map Prod.snd,
        ((heap3.getD n default).strID).Chain' (· < ·) ∧
        ∀ s, s ∈ (heap3.getD n default).strID ↔
          s < leaves.length ∧
            Relation.TransGen (dRel heap3) n (leaves.getD s 0)) := by
  have S := buildFacts hnd hbt
  have hInv0 : Inv heap2 leaves (dict.map Prod.snd) heap2 [] (dict.map Prod.snd) :=
    ⟨rfl, fun _ => rfl, by simp, S.leafStr, S.pendStr, fun x hx => absurd hx (by simp)⟩
  have hdrive := passN_empties S hrank hleaf ((dict.map Prod.snd).length + 1)
    heap2 [] (dict.map Prod.snd) hInv0 (by omega)
  have hprop : propagate heap2 [] (dict.map Prod.snd) =
      some ((passN (heap2, [], dict.map Prod.snd) ((dict.map Prod.snd).length + 1)).1,
        (passN (heap2, [], dict.map Prod.snd) ((dict.map Prod.snd).length + 1)).2.1) := by
    rw [propagate, if_pos hdrive.1]
  have hF := hdrive.2
  refine ⟨_, _, hprop, ?_, ?_⟩
  · exact hF.leafStr
  · intro n hnL
    have hnd2 : n ∈ (passN (heap2, [], dict.map Prod.snd)
        ((dict.map Prod.snd).length + 1)).2.1 := by
      have hmemapp := hF.perm.mem_iff.mpr hnL
      rw [hdrive.1, List.append_nil] at hmemapp
      exact hmemapp
    have hchar := hF.doneChar n hnd2
    refine ⟨hchar.1.1, ?_⟩
    intro s
    rw [hchar.1.2 s]
    constructor
    · intro hsd
      refine ⟨hsd.1, ?_⟩
      have hneq : n ≠ leaves.getD s 0 := by
        intro he
        apply S.disj (leaves.getD s 0) ?_ (he ▸ hnL)
        rw [List.getD_eq_getElem _ _ hsd.1]
        exact List.getElem_mem hsd.1
      have htg := (rtg_iff_tg hneq).mp hsd.2
      exact (transGen_congr (fun a b => (dRel_congr hF.dtr a b).symm)).mp htg
    · intro hsd
      refine ⟨hsd.1, ?_⟩
      have htg := (transGen_congr (fun a b => (dRel_congr hF.dtr a b).symm)).mpr hsd.2
      exact Relation.TransGen.to_reflTransGen htg

/-- A rank function for the daughter relation of `wHeap2`. -/
def wRank : Nat → Nat := fun n => if n = 3 then 2 else if n = 4 then 1 else 0

/-- Witness for C3 at the concrete five-record tree. -/
theorem claim_C3_witness :
    ((internalIds wTree).Nodup ∧
      buildTree wTree = .ok (wHeap2, wDict, wLeaves) ∧
      (∀ n ∈ wDict.map Prod.snd, ∀ d ∈ (wHeap2.getD n default).daughters,
        wRank d < wRank n) ∧
      (∀ n ∈ wDict.map Prod.snd, hasLeafDesc wHeap2 wLeaves 3 n = true)) ∧
    (∃ heap3 nodes2, propagate wHeap2 [] (wDict.map Prod.snd) = some (heap3, nodes2) ∧
      (∀ s, s < wLeaves.length →
        (heap3.getD (wLeaves.getD s 0) default).strID = [s]) ∧
      (∀ n ∈ wDict.map Prod.snd,
        ((heap3.getD n default).strID).Chain' (· < ·) ∧
        ∀ s, s ∈ (heap3.getD n default).strID ↔
          s < wLeaves.length ∧
            Relation.TransGen (dRel heap3) n (wLeaves.getD s 0))) :=
  ⟨⟨by decide, rfl, by decide, by decide⟩,
    claim_C3 wTree wHeap2 wDict wLeaves wRank 3 (by decide) rfl (by decide) (by decide)⟩

end LCFRS
